import Mathlib

/-!
# gt-aemu: sample-accurate playback harness

A shallow embedding of `src/cpp/main.cpp`: the 4 KiB memory image with its
write trap at raw address `0x8000`, the sample clock and output sink, the
script timeline with its replay cursor, the script-line reader and the
execution driver, followed by the properties proved about them.

Conventions.  Machine integers are natural numbers, reduced explicitly where
the source type wraps (`uint32_t samples`, `uint16_t addr`).  The global
variables of the program are the fields of `State`; the script vector is
fixed once loading is over, so it is passed as a parameter.
-/

namespace GtAemu

/-! ## Data model -/

/-- The constant `au_ram_size` (line 26). -/
def au_ram_size : Nat := 0x1000

/-- The raw address compared against in `au_ram_write` (line 33). -/
def trap_address : Nat := 0x8000

/-- The struct `ScriptEntry` (lines 41-45): `sample_count` is a `uint32_t`,
`address` a `uint16_t`, `data` a vector of bytes. -/
structure ScriptEntry where
  sample_count : Nat
  address : Nat
  data : List Nat
deriving DecidableEq, Repr

/-- The global mutable state: `au_ram` (line 27, only slots below
`au_ram_size` are ever addressed), `samples` (line 23), `script_ptr`
(line 55) and the bytes put on `cout` so far.  The field `started` is a ghost
record of the diagnostic at line 61 (commented out in the source): one pair
`(index, samples)` for each script entry whose processing has begun. -/
structure State where
  au_ram : Nat → Nat
  samples : Nat
  script_ptr : Nat
  output : List Nat
  started : List (Nat × Nat)

/-- How a call ends: it returns, it is left by the `end_emulation` exception
thrown at line 65 (the globals keep the values they had at the throw), or the
fuel of the fuel-indexed replay ran out. -/
inductive Outcome where
  | returned (st : State)
  | end_emulation (st : State)
  | out_of_fuel

/-- Sequencing of two statements: the second runs only when the first
returned. -/
def Outcome.bind (o : Outcome) (k : State → Outcome) : Outcome :=
  match o with
  | .returned st => k st
  | .end_emulation st => .end_emulation st
  | .out_of_fuel => .out_of_fuel

/-- The globals at the end of a call, when it ended at all. -/
def Outcome.state? : Outcome → Option State
  | .returned st => some st
  | .end_emulation st => some st
  | .out_of_fuel => none

/-! ## Memory model and sample clock -/

/-- The function `au_ram_read` (lines 28-30). -/
def au_ram_read (st : State) (addr : Nat) : Nat :=
  st.au_ram (addr % au_ram_size)

/-- The store of line 32. -/
def au_ram_store (addr data : Nat) (st : State) : State :=
  { st with au_ram := fun i => if i = addr % au_ram_size then data else st.au_ram i }

/-- Lines 75-76 of `sample_callback`: put the byte on `cout`, then
`samples++` on a `uint32_t`. -/
def emit_sample (sample : Nat) (st : State) : State :=
  { st with output := st.output ++ [sample], samples := (st.samples + 1) % 2 ^ 32 }

/-- The function `sample_callback` (lines 74-78).  The call of
`run_current_script` at line 77 is the argument `replay`: the two functions are
mutually recursive in the source (forward declaration at line 24). -/
def sample_callback (replay : State → Outcome) (sample : Nat) (st : State) : Outcome :=
  replay (emit_sample sample st)

/-- The function `au_ram_write` (lines 31-36). -/
def au_ram_write (replay : State → Outcome) (addr data : Nat) (st : State) : Outcome :=
  if addr = trap_address then sample_callback replay data (au_ram_store addr data st)
  else .returned (au_ram_store addr data st)

/-! ## Script replay -/

/-- The loop of lines 67-69: `au_ram_write(addr++, datum)` for each payload
byte, `addr` being a `uint16_t`. -/
def write_data (replay : State → Outcome) : Nat → List Nat → State → Outcome
  | _, [], st => .returned st
  | addr, datum :: rest, st =>
    (au_ram_write replay addr datum st).bind (write_data replay ((addr + 1) % 65536) rest)

/-- Line 62 (and the diagnostic of line 61): the cursor moves past the entry
before the entry is acted on. -/
def start_entry (st : State) : State :=
  { st with script_ptr := st.script_ptr + 1,
            started := st.started ++ [(st.script_ptr, st.samples)] }

/-- Lines 61-70: the body of the replay loop for the entry `ent` under the
cursor, once it is known to be due. -/
def process_entry (replay : State → Outcome) (ent : ScriptEntry) (st : State) : Outcome :=
  if ent.data.length = 0 then
    if ent.address = 0 then .end_emulation (start_entry st) else .returned (start_entry st)
  else write_data replay ent.address ent.data (start_entry st)

/-- The function `run_current_script` (lines 57-72) with a bound on the
number of loop iterations along any chain of nested calls.  The loop
condition of line 58 is the lookup `script[script_ptr]?`. -/
def run_script_fuel (script : List ScriptEntry) : Nat → State → Outcome
  | 0, _ => .out_of_fuel
  | fuel + 1, st =>
    match script[st.script_ptr]? with
    | none => .returned st
    | some ent =>
      if ent.sample_count > st.samples then .returned st
      else (process_entry (run_script_fuel script fuel) ent st).bind (run_script_fuel script fuel)

/-- The function `run_current_script` (lines 57-72): one more unit of fuel
than there are entries at or after the cursor, which `run_script_fuel_stable`
shows to be enough. -/
def run_current_script (script : List ScriptEntry) (st : State) : Outcome :=
  run_script_fuel script (script.length - st.script_ptr + 1) st

/-- One memory write issued by the CPU core through the write callback. -/
def cpu_write (script : List ScriptEntry) (w : Nat × Nat) (st : State) : Outcome :=
  au_ram_write (run_current_script script) w.1 w.2 st

/-- The memory writes issued by the CPU core, in order, up to the first one
that does not return. -/
def cpu_writes (script : List ScriptEntry) : List (Nat × Nat) → State → Outcome
  | [], st => .returned st
  | w :: ws, st => (cpu_write script w st).bind (cpu_writes script ws)

/-- The globals when `main` reaches line 136: the image loaded, nothing
emitted, the cursor on the first entry. -/
def initial_state (rom : Nat → Nat) : State :=
  { au_ram := rom, samples := 0, script_ptr := 0, output := [], started := [] }

/-- Line 136 followed by the writes of the CPU core: the run of the
synchronisation core from startup. -/
def run_from_start (script : List ScriptEntry) (rom : Nat → Nat) (ws : List (Nat × Nat)) :
    Outcome :=
  (run_current_script script (initial_state rom)).bind (cpu_writes script ws)

/-- The sample counter at the end of a call. -/
def Outcome.samples (o : Outcome) : Option Nat := o.state?.map State.samples

/-- The bytes on the output stream at the end of a call. -/
def Outcome.output (o : Outcome) : Option (List Nat) := o.state?.map State.output

/-- The values of the writes whose raw address is the trap address, in
order. -/
def trap_values (ws : List (Nat × Nat)) : List Nat :=
  (ws.filter (fun w => w.1 = trap_address)).map Prod.snd

/-! ## Relations kept by every step

`Respects R f` says that the state in which a call of `f` ends, by return or
by the exception, is `R`-related to the state in which it began.  A relation
that is reflexive, transitive and kept by the three primitive updates is kept
by every operation of the program. -/

/-- Every state in which a call of `f` ends is `R`-related to its start. -/
def Respects (R : State → State → Prop) (f : State → Outcome) : Prop :=
  ∀ st st', (f st).state? = some st' → R st st'

/-- A relation between states that every primitive update of the program
keeps: the store of line 32, the emission of lines 75-76 and, for an entry
that is under the cursor and due, the cursor increment of line 62. -/
structure StepRel (script : List ScriptEntry) (R : State → State → Prop) : Prop where
  refl : ∀ st, R st st
  trans : ∀ a b c, R a b → R b c → R a c
  store : ∀ a v st, R st (au_ram_store a v st)
  emit : ∀ v st, R st (emit_sample v st)
  start : ∀ st ent, script[st.script_ptr]? = some ent → ent.sample_count ≤ st.samples →
    R st (start_entry st)

/-- The outcome `o` meets the postcondition `Q` when it is a return and `E`
when it is the exception. -/
def Outcome.Sat (Q E : State → Prop) : Outcome → Prop
  | .returned st => Q st
  | .end_emulation st => E st
  | .out_of_fuel => True

/-- A partial-correctness triple with two postconditions: from a state
satisfying `P`, a call of `f` that returns does so in a state satisfying `Q`,
and one left by the exception leaves the globals satisfying `E`. -/
def Triple (P : State → Prop) (f : State → Outcome) (Q E : State → Prop) : Prop :=
  ∀ st, P st → (f st).Sat Q E

/-- The cursor rests on an entry that is not yet due, or past the last
entry: the exit condition of the loop of `run_current_script`. -/
def Flushed (script : List ScriptEntry) (st : State) : Prop :=
  match script[st.script_ptr]? with
  | none => True
  | some ent => st.samples < ent.sample_count

/-- The script is sorted ascending by `sample_count`, as the sort of lines
131-133 leaves it. -/
def ScriptSorted (script : List ScriptEntry) : Prop :=
  script.Pairwise (fun a b => a.sample_count ≤ b.sample_count)

/-- The termination sentinel: an entry with empty data and address 0
(lines 63-65). -/
def ScriptEntry.is_sentinel (ent : ScriptEntry) : Bool :=
  ent.data.length == 0 && ent.address == 0

/-- The globals right after the throw of line 65: the entry just before the
cursor is a sentinel and was due. -/
def RaisedBySentinel (script : List ScriptEntry) (st : State) : Prop :=
  ∃ i ent, st.script_ptr = i + 1 ∧ script[i]? = some ent ∧
    ent.is_sentinel = true ∧ ent.sample_count ≤ st.samples

instance (script : List ScriptEntry) : Decidable (ScriptSorted script) :=
  inferInstanceAs
    (Decidable (script.Pairwise (fun (a b : ScriptEntry) => a.sample_count ≤ b.sample_count)))

/-- What an operation may do to the cursor and to the record of started
entries: the cursor does not move back and stays within the script, and the
entries started meanwhile are started once each, in increasing index order,
from the old cursor up to the new one, each when its due sample had been
reached. -/
def CursorStep (script : List ScriptEntry) (a b : State) : Prop :=
  a.script_ptr ≤ b.script_ptr ∧
  (a.script_ptr ≤ script.length → b.script_ptr ≤ script.length) ∧
  ∃ new, b.started = a.started ++ new ∧
    new.Pairwise (fun x y => x.1 < y.1) ∧
    ∀ e ∈ new, a.script_ptr ≤ e.1 ∧ e.1 < b.script_ptr ∧
      ∃ ent, script[e.1]? = some ent ∧ ent.sample_count ≤ e.2

/-- A sequence of calls of `au_ram_write`, in order, up to the first one
that does not return. -/
def au_ram_writes (replay : State → Outcome) : List (Nat × Nat) → State → Outcome
  | [], st => .returned st
  | w :: ws, st => (au_ram_write replay w.1 w.2 st).bind (au_ram_writes replay ws)

/-- The writes of a payload `p` from start address `A`, the bytes of `p` from
position `k` on being given: byte `i` goes to raw address `(A + i) mod 65536`. -/
def payload_writes_from (A : Nat) : Nat → List Nat → List (Nat × Nat)
  | _, [] => []
  | k, b :: bs => ((A + k) % 65536, b) :: payload_writes_from A (k + 1) bs

/-- The writes of a payload `p` from start address `A` as the specification
lists them: the `i`-th is `((A + i) mod 65536, p[i])`. -/
def payload_writes (A : Nat) (p : List Nat) : List (Nat × Nat) :=
  payload_writes_from A 0 p

/-- The raw addresses the loop of lines 67-69 writes to, for `n` payload
bytes from `addr`. -/
def write_addresses : Nat → Nat → List Nat
  | _, 0 => []
  | addr, n + 1 => addr :: write_addresses ((addr + 1) % 65536) n

/-- No entry of the script writes to the trap address. -/
def NoTrapWrites (script : List ScriptEntry) : Prop :=
  ∀ ent ∈ script, trap_address ∉ write_addresses ent.address ent.data.length

instance (script : List ScriptEntry) : Decidable (NoTrapWrites script) :=
  inferInstanceAs
    (Decidable (∀ ent ∈ script, trap_address ∉ write_addresses ent.address ent.data.length))

/-- A sorted script whose sentinel is due at the last value the 32-bit
sample counter can hold, behind an entry that writes once to the trap
address. -/
def wrap_script : List ScriptEntry :=
  [⟨4294967295, 0x8000, [7]⟩, ⟨4294967295, 0, []⟩]

/-! ## Script loading

The loop of lines 111-130 calls four library functions that are not part of
the repository: `std::getline`, `strtoul`, `std::from_chars` and, after the
loop, `std::sort`.  They are modelled here from section 4.2 of the
specification and from the behaviour the C and C++ standards document for
them.  The constant `ULONG_MAX`, which the platform fixes, is a parameter. -/

/-- An input string stream: the characters not yet extracted and whether the
stream is still good (neither `eofbit` nor `failbit` set). -/
structure IStream where
  rest : List Char
  good : Bool

/-- Modelled from the spec: `std::getline(ss, part, delim)`, a library
function absent from the repository.  On a stream that is not good nothing is
extracted and `part` keeps its old value.  Otherwise `part` becomes the
characters before the first delimiter, which is extracted and dropped; when
the input ends before a delimiter, the end-of-file state is set and the stream
is no longer good. -/
def getline (ss : IStream) (part : List Char) (delim : Char) : IStream × List Char :=
  if ss.good then
    match ss.rest.dropWhile (fun c => c != delim) with
    | [] => (⟨[], false⟩, ss.rest.takeWhile (fun c => c != delim))
    | _ :: after => (⟨after, true⟩, ss.rest.takeWhile (fun c => c != delim))
  else (ss, part)

/-- The value of a character as a digit, letters counting from ten in either
case, as `strtoul` and `from_chars` read them. -/
def digit_value (c : Char) : Option Nat :=
  if 48 ≤ c.toNat ∧ c.toNat ≤ 57 then some (c.toNat - 48)
  else if 97 ≤ c.toNat ∧ c.toNat ≤ 122 then some (c.toNat - 87)
  else if 65 ≤ c.toNat ∧ c.toNat ≤ 90 then some (c.toNat - 55)
  else none

/-- The character is a digit of the given base. -/
def is_digit (base : Nat) (c : Char) : Bool :=
  match digit_value c with
  | some d => d < base
  | none => false

/-- The value of the longest run of digits of the given base at the head of
the text, continuing from `acc`. -/
def digits_value (base : Nat) : Nat → List Char → Nat
  | acc, [] => acc
  | acc, c :: cs =>
    match digit_value c with
    | some d => if d < base then digits_value base (acc * base + d) cs else acc
    | none => acc

/-- White space as `isspace` sees it in the C locale. -/
def is_space (c : Char) : Bool :=
  c.toNat = 32 || (9 ≤ c.toNat && c.toNat ≤ 13)

/-- The magnitude `strtoul` reads with base 0: `0x` or `0X` followed by a
hexadecimal digit selects base 16, another leading `0` base 8, anything else
base 10; text that does not start with a digit of the base reads as 0. -/
def magnitude (s : List Char) : Nat :=
  match s with
  | z :: x :: h :: t =>
    if z = '0' ∧ (x = 'x' ∨ x = 'X') ∧ is_digit 16 h = true then digits_value 16 0 (h :: t)
    else if z = '0' then digits_value 8 0 s
    else digits_value 10 0 s
  | z :: _ => if z = '0' then digits_value 8 0 s else digits_value 10 0 s
  | [] => 0

/-- Modelled from the spec: `strtoul(text, NULL, 0)`, a C library function
absent from the repository, with `ulong_max` the constant `ULONG_MAX` of the
platform.  The base is inferred from the prefix and text that cannot be read
yields 0, as section 4.2 says; as the C standard adds, leading white space is
skipped, a sign is accepted, a magnitude above `ULONG_MAX` yields `ULONG_MAX`
and a minus sign negates within `unsigned long`. -/
def strtoul (ulong_max : Nat) (text : List Char) : Nat :=
  match text.dropWhile is_space with
  | [] => 0
  | c :: t =>
    if c = '-' then
      (if magnitude t > ulong_max then ulong_max
       else (ulong_max + 1 - magnitude t) % (ulong_max + 1))
    else if c = '+' then min (magnitude t) ulong_max
    else min (magnitude (c :: t)) ulong_max

/-- Modelled from the spec: `from_chars(p + i, p + i + 2, byte, 16)`, a
library function absent from the repository, on the two characters at `p + i`
(the second is `none` when `p + i + 1` is the terminator of the string): one
or two hexadecimal digits are converted, most significant first; when the
first character is no hexadecimal digit nothing is converted, `byte` is left
as it was and the outcome is `none`. -/
def from_chars_pair (c1 : Char) (c2 : Option Char) : Option Nat :=
  match digit_value c1 with
  | none => none
  | some d1 =>
    if d1 < 16 then
      match c2.bind digit_value with
      | some d2 => if d2 < 16 then some (16 * d1 + d2) else some d1
      | none => some d1
    else none

/-- The loop of lines 123-127, from its iteration `k` on: one byte is pushed
for every two characters of the text.  The variable `byte` of line 124 has no
initialiser, and `from_chars` leaves it as it is when it converts nothing;
line 126 pushes it all the same.  The language does not fix the value it holds
then: `indet k` stands for the value in iteration `k`, reduced to a
`uint8_t`. -/
def hex_bytes (indet : Nat → Nat) : Nat → List Char → List Nat
  | _, [] => []
  | k, [c] => [(from_chars_pair c none).getD (indet k % 256)]
  | k, c1 :: c2 :: cs =>
    (from_chars_pair c1 (some c2)).getD (indet k % 256) :: hex_bytes indet (k + 1) cs

/-- The body of the loop of lines 111-130 for one line of the script file:
the text up to `':'` is the sample count (a `uint32_t`), the text up to `'='`
the address (a `uint16_t`), the rest of the line the payload.  The variable
`part` is cleared by the first `getline`, the stream being fresh, so its value
left by the previous line does not matter.  `indet` gives the values of the
uninitialised `byte` of line 124, as in `hex_bytes`. -/
def parse_line (ulong_max : Nat) (indet : Nat → Nat) (line : List Char) : ScriptEntry :=
  let r1 := getline ⟨line, true⟩ [] ':'
  let sample_count := strtoul ulong_max r1.2 % 2 ^ 32
  let r2 := getline r1.1 r1.2 '='
  let address := strtoul ulong_max r2.2 % 2 ^ 16
  ⟨sample_count, address, hex_bytes indet 0 r2.1.rest⟩

/-- The comparison handed to `std::sort` (lines 131-133). -/
def script_less (a b : ScriptEntry) : Bool := a.sample_count < b.sample_count

/-- Insertion of an entry into a sorted script, before the first entry it
is less than. -/
def sort_insert (x : ScriptEntry) : List ScriptEntry → List ScriptEntry
  | [] => [x]
  | y :: ys => if script_less x y then x :: y :: ys else y :: sort_insert x ys

/-- Modelled from the spec: `std::sort` with the comparison of lines 131-133,
a library function absent from the repository: the entries are sorted
ascending by `sample_count`.  The order of entries with equal `sample_count`
is unspecified in the library; this model is an insertion sort. -/
def sort_script : List ScriptEntry → List ScriptEntry
  | [] => []
  | x :: xs => sort_insert x (sort_script xs)

/-- The loop of lines 111-130 from the line of index `n` on: every line is
parsed and its entry pushed, in the order of the file.  `indet n` gives the
values of the uninitialised `byte` while line `n` is parsed. -/
def parse_lines (ulong_max : Nat) (indet : Nat → Nat → Nat) :
    Nat → List (List Char) → List ScriptEntry
  | _, [] => []
  | n, line :: rest =>
    parse_line ulong_max (indet n) line :: parse_lines ulong_max indet (n + 1) rest

/-- Lines 111-133: every line is parsed, then the script is sorted. -/
def load_script (ulong_max : Nat) (indet : Nat → Nat → Nat) (lines : List (List Char)) :
    List ScriptEntry :=
  sort_script (parse_lines ulong_max indet 0 lines)

/-- The number a string of digits denotes in a base, most significant digit
first. -/
def positional_value (base : Nat) (ds : List Char) : Nat :=
  ds.foldl (fun acc c => acc * base + (digit_value c).getD 0) 0

/-- The well-formed numerals of the specification and their values: `0x` or
`0X` followed by hexadecimal digits, `0` followed by octal digits, or decimal
digits not starting with `0`. -/
inductive Numeral : List Char → Nat → Prop where
  | hex (x : Char) (ds : List Char) (hx : x = 'x' ∨ x = 'X') (hne : ds ≠ [])
      (hds : ∀ c ∈ ds, is_digit 16 c = true) :
      Numeral ('0' :: x :: ds) (positional_value 16 ds)
  | octal (ds : List Char) (hds : ∀ c ∈ ds, is_digit 8 c = true) :
      Numeral ('0' :: ds) (positional_value 8 ds)
  | decimal (d : Char) (ds : List Char) (hd : is_digit 10 d = true) (hd0 : d ≠ '0')
      (hds : ∀ c ∈ ds, is_digit 10 c = true) :
      Numeral (d :: ds) (positional_value 10 (d :: ds))

/-- The bytes the specification reads from a string of hexadecimal digits:
byte `j` is `16 * digit(2j) + digit(2j+1)`. -/
def hex_pair_values (h : List Char) : List Nat :=
  (List.range (h.length / 2)).map (fun j =>
    16 * ((h[2 * j]?.bind digit_value).getD 0) + ((h[2 * j + 1]?.bind digit_value).getD 0))

/-! ## The execution driver -/

/-- The classes of the program that matter to exception handling. -/
inductive CxxClass where
  | exception
  | end_emulation
deriving DecidableEq, Repr

/-- The type of a thrown object or of a handler parameter: a class, or a
pointer to a class. -/
inductive CxxType where
  | object (c : CxxClass)
  | pointer (c : CxxClass)
deriving DecidableEq, Repr

/-- The class `end_emulation` derives publicly from `exception` (line 17). -/
def derives_from : CxxClass → CxxClass → Bool
  | .end_emulation, _ => true
  | .exception, .exception => true
  | .exception, .end_emulation => false

/-- Whether a handler catches a thrown object: a class handler catches an
object of that class or of a class derived from it, a pointer handler catches
a thrown pointer to such a class, and neither catches the other kind. -/
def handler_matches (handler thrown : CxxType) : Bool :=
  match handler, thrown with
  | .object h, .object t => derives_from t h
  | .pointer h, .pointer t => derives_from t h
  | _, _ => false

/-- The operand of the `throw` of line 65: an `end_emulation` object. -/
def thrown_type : CxxType := .object .end_emulation

/-- The parameter of the handler of line 148: `exception *`. -/
def handler_type : CxxType := .pointer .exception

/-- How the process ends: `main` returns a code, `std::terminate` is called
for an exception no handler catches, or the loop of lines 141-147 is never
left. -/
inductive ProcessEnd where
  | exit (code : Nat)
  | terminate_called
  | runs_forever
deriving DecidableEq, Repr

/-- The content of `au_ram` after the read of line 101 has delivered
`au_ram_size` bytes: slot `i` holds byte `i` of the file. -/
def rom_image (rom_file : List Nat) : Nat → Nat :=
  fun i => (rom_file.take au_ram_size).getD i 0

/-- Lines 92-135 of `main`, the startup up to the pre-flush.  `rom_file` is
the bytes that can be read from the ROM file, `lines` the lines of the script
file.  The result is `.error code` when `main` returns `code` there (line 96
or line 104), and otherwise the globals and the script with which line 136 is
reached: the bytes read in `au_ram`, nothing emitted, the cursor on the first
entry of the sorted script. -/
def startup (ulong_max : Nat) (indet : Nat → Nat → Nat) (argc : Nat) (rom_file : List Nat)
    (lines : List (List Char)) : Except Nat (State × List ScriptEntry) :=
  if argc < 3 then .error 1
  else if rom_file.length < au_ram_size then .error 2
  else .ok (initial_state (rom_image rom_file), load_script ulong_max indet lines)

/-- Lines 136-153 of `main`, entered with the globals `st`: the pre-flush and
the CPU loop, `cpu` being the memory writes the CPU core issues while it is
run.  The pre-flush of line 136 stands outside the `try` block; the CPU loop
stands inside it, and its handler applies only when `handler_matches` says
so. -/
def run_loaded (script : List ScriptEntry) (cpu : List (Nat × Nat)) (st : State) :
    ProcessEnd :=
  match run_current_script script st with
  | .end_emulation _ => .terminate_called
  | .out_of_fuel => .runs_forever
  | .returned st' =>
    match cpu_writes script cpu st' with
    | .end_emulation _ =>
      if handler_matches handler_type thrown_type then .exit 0 else .terminate_called
    | _ => .runs_forever

/-- The function `main` (lines 92-154): the startup, then the pre-flush and
the CPU loop. -/
def main_driver (ulong_max : Nat) (indet : Nat → Nat → Nat) (argc : Nat) (rom_file : List Nat)
    (lines : List (List Char)) (cpu : List (Nat × Nat)) : ProcessEnd :=
  match startup ulong_max indet argc rom_file lines with
  | .error code => .exit code
  | .ok (st, script) => run_loaded script cpu st

/-- The character is a digit or a letter of the ASCII alphabet. -/
def is_alnum (c : Char) : Prop :=
  (48 ≤ c.toNat ∧ c.toNat ≤ 57) ∨ (97 ≤ c.toNat ∧ c.toNat ≤ 122) ∨
    (65 ≤ c.toNat ∧ c.toNat ≤ 90)

/-- What an operation may do to the sample counter and the output: bytes are
appended to the output, and the 32-bit counter advances by their number,
modulo `2^32`. -/
def SampleStep (a b : State) : Prop :=
  ∃ l, b.output = a.output ++ l ∧
    b.samples % 2 ^ 32 = (a.samples + l.length) % 2 ^ 32 ∧
    (a.samples < 2 ^ 32 → b.samples < 2 ^ 32)

/-- The replay with a budget `depth` on the nesting of its invocations, next
to the bound `fuel` on loop iterations: an invocation may nest `depth` further
invocations inside it; a call of the replay from `sample_callback` with no
budget left ends as `out_of_fuel`.  The loop itself stays within one
invocation and keeps the budget. -/
def run_script_nest (script : List ScriptEntry) : Nat → Nat → State → Outcome
  | 0, _, _ => .out_of_fuel
  | fuel + 1, depth, st =>
    match script[st.script_ptr]? with
    | none => .returned st
    | some ent =>
      if ent.sample_count > st.samples then .returned st
      else
        (process_entry
          (match depth with
            | 0 => fun _ => .out_of_fuel
            | d + 1 => run_script_nest script fuel d) ent st).bind
          (run_script_nest script fuel depth)

/-- The SAMPLE field of a script line: the text before the first `':'`. -/
def sample_field (line : List Char) : List Char :=
  line.takeWhile (fun c => c != ':')

/-- The ADDRESS field of a script line: the text after the first `':'` up to
the next `'='`; it is empty when the line has no `':'`. -/
def address_field (line : List Char) : List Char :=
  (line.dropWhile (fun c => c != ':')).tail.takeWhile (fun c => c != '=')

/-- The HEXBYTES field of a script line: the text after the `'='` that
closes the ADDRESS field. -/
def payload_field (line : List Char) : List Char :=
  ((line.dropWhile (fun c => c != ':')).tail.dropWhile (fun c => c != '=')).tail

/-! ## The replay as the specification words it -/

/-- The operation `replay(n)` of section 4.3 of the specification, with a
bound on the loop iterations along any chain of nested calls: from the cursor
on, every entry whose `due <= n` is processed, `n` being the sample count
handed over when the invocation began; it stops at the first entry whose
`due > n` or at the end.  An emission inside a payload write calls `replay`
with the sample count it has just incremented (section 4.4). -/
def replay_fuel (script : List ScriptEntry) : Nat → Nat → State → Outcome
  | 0, _, _ => .out_of_fuel
  | fuel + 1, n, st =>
    match script[st.script_ptr]? with
    | none => .returned st
    | some ent =>
      if ent.sample_count > n then .returned st
      else
        (process_entry (fun s => replay_fuel script fuel s.samples s) ent st).bind
          (replay_fuel script fuel n)

/-- The operation `replay(n)` of the specification, with the fuel that
`run_current_script` runs on. -/
def replay (script : List ScriptEntry) (n : Nat) (st : State) : Outcome :=
  replay_fuel script (script.length - st.script_ptr + 1) n st

/-- How many of the `n` writes of the loop of lines 67-69, started at `addr`,
go to the trap address. -/
def trap_hits_from : Nat → Nat → Nat
  | _, 0 => 0
  | addr, n + 1 =>
    (if addr = trap_address then 1 else 0) + trap_hits_from ((addr + 1) % 65536) n

/-- How many payload bytes of an entry go to the trap address. -/
def trap_hits (ent : ScriptEntry) : Nat :=
  trap_hits_from ent.address ent.data.length

/-- How many payload bytes of the entries at or after index `p` go to the
trap address: a bound on what the script can still emit. -/
def pending_trap_hits (script : List ScriptEntry) (p : Nat) : Nat :=
  ((script.drop p).map trap_hits).sum

/-- What the proof of the refinement asks of the replay that
`sample_callback` calls: entered in a state from which the counter cannot
wrap, it returns with the counter not decreased, the bound on further
emissions not increased, the cursor not moved back and no due entry left. -/
def ReplayContract (script : List ScriptEntry) (f : State → Outcome) : Prop :=
  ∀ s, s.samples + pending_trap_hits script s.script_ptr < 2 ^ 32 →
    ∀ b, f s = .returned b →
      s.samples ≤ b.samples ∧
      b.samples + pending_trap_hits script b.script_ptr ≤
        s.samples + pending_trap_hits script s.script_ptr ∧
      s.script_ptr ≤ b.script_ptr ∧ Flushed script b

/-! # Theorems -/

/-! ## Basic facts about sequencing -/

@[simp] theorem Outcome.bind_returned (st : State) (k : State → Outcome) :
    (Outcome.returned st).bind k = k st := rfl

@[simp] theorem Outcome.bind_end_emulation (st : State) (k : State → Outcome) :
    (Outcome.end_emulation st).bind k = .end_emulation st := rfl

@[simp] theorem Outcome.bind_out_of_fuel (k : State → Outcome) :
    Outcome.out_of_fuel.bind k = .out_of_fuel := rfl

theorem Outcome.bind_assoc (o : Outcome) (k g : State → Outcome) :
    (o.bind k).bind g = o.bind (fun st => (k st).bind g) := by
  cases o <;> rfl

theorem Outcome.bind_eq_returned {o : Outcome} {k : State → Outcome} {st : State} :
    o.bind k = .returned st ↔ ∃ mid, o = .returned mid ∧ k mid = .returned st := by
  cases o <;> simp [Outcome.bind]

theorem Outcome.bind_ne_out_of_fuel {o : Outcome} {k : State → Outcome}
    (ho : o ≠ .out_of_fuel) (hk : ∀ mid, o = .returned mid → k mid ≠ .out_of_fuel) :
    o.bind k ≠ .out_of_fuel := by
  cases o with
  | returned st => exact hk st rfl
  | end_emulation st => simp [Outcome.bind]
  | out_of_fuel => exact absurd rfl ho

@[simp] theorem au_ram_store_samples (a v : Nat) (st : State) :
    (au_ram_store a v st).samples = st.samples := rfl
@[simp] theorem au_ram_store_script_ptr (a v : Nat) (st : State) :
    (au_ram_store a v st).script_ptr = st.script_ptr := rfl
@[simp] theorem au_ram_store_output (a v : Nat) (st : State) :
    (au_ram_store a v st).output = st.output := rfl
@[simp] theorem au_ram_store_started (a v : Nat) (st : State) :
    (au_ram_store a v st).started = st.started := rfl
@[simp] theorem au_ram_store_au_ram (a v : Nat) (st : State) (i : Nat) :
    (au_ram_store a v st).au_ram i = if i = a % au_ram_size then v else st.au_ram i := rfl

@[simp] theorem emit_sample_samples (v : Nat) (st : State) :
    (emit_sample v st).samples = (st.samples + 1) % 2 ^ 32 := rfl
@[simp] theorem emit_sample_script_ptr (v : Nat) (st : State) :
    (emit_sample v st).script_ptr = st.script_ptr := rfl
@[simp] theorem emit_sample_output (v : Nat) (st : State) :
    (emit_sample v st).output = st.output ++ [v] := rfl
@[simp] theorem emit_sample_started (v : Nat) (st : State) :
    (emit_sample v st).started = st.started := rfl
@[simp] theorem emit_sample_au_ram (v : Nat) (st : State) :
    (emit_sample v st).au_ram = st.au_ram := rfl

@[simp] theorem start_entry_samples (st : State) :
    (start_entry st).samples = st.samples := rfl
@[simp] theorem start_entry_script_ptr (st : State) :
    (start_entry st).script_ptr = st.script_ptr + 1 := rfl
@[simp] theorem start_entry_output (st : State) :
    (start_entry st).output = st.output := rfl
@[simp] theorem start_entry_started (st : State) :
    (start_entry st).started = st.started ++ [(st.script_ptr, st.samples)] := rfl
@[simp] theorem start_entry_au_ram (st : State) :
    (start_entry st).au_ram = st.au_ram := rfl

theorem respects_bind {R : State → State → Prop} (htrans : ∀ a b c, R a b → R b c → R a c)
    {f g : State → Outcome} (hf : Respects R f) (hg : Respects R g) :
    Respects R (fun st => (f st).bind g) := by
  intro st st' h
  cases hfs : f st with
  | returned mid =>
    simp only [hfs, Outcome.bind_returned] at h
    exact htrans _ _ _ (hf st mid (by simp [hfs, Outcome.state?])) (hg mid st' h)
  | end_emulation mid =>
    simp only [hfs, Outcome.bind_end_emulation, Outcome.state?, Option.some.injEq] at h
    subst h
    exact hf st mid (by simp [hfs, Outcome.state?])
  | out_of_fuel => simp [hfs, Outcome.state?] at h

theorem StepRel.au_ram_write {script : List ScriptEntry} {R : State → State → Prop}
    (hR : StepRel script R) {replay : State → Outcome} (hf : Respects R replay)
    (addr data : Nat) : Respects R (au_ram_write replay addr data) := by
  intro st st' h
  unfold GtAemu.au_ram_write at h
  split at h
  · exact hR.trans _ _ _ (hR.store addr data st)
      (hR.trans _ _ _ (hR.emit data _) (hf _ _ h))
  · simp only [Outcome.state?, Option.some.injEq] at h
    subst h
    exact hR.store addr data st

theorem StepRel.write_data {script : List ScriptEntry} {R : State → State → Prop}
    (hR : StepRel script R) {replay : State → Outcome} (hf : Respects R replay)
    (data : List Nat) : ∀ addr, Respects R (write_data replay addr data) := by
  induction data with
  | nil =>
    intro addr st st' h
    simp only [GtAemu.write_data, Outcome.state?, Option.some.injEq] at h
    subst h
    exact hR.refl st
  | cons d rest ih =>
    intro addr
    exact respects_bind hR.trans (hR.au_ram_write hf addr d) (ih _)

theorem StepRel.process_entry {script : List ScriptEntry} {R : State → State → Prop}
    (hR : StepRel script R) {replay : State → Outcome} (hf : Respects R replay)
    (ent : ScriptEntry) (st st' : State) (hent : script[st.script_ptr]? = some ent)
    (hdue : ent.sample_count ≤ st.samples)
    (h : (process_entry replay ent st).state? = some st') : R st st' := by
  have hs := hR.start st ent hent hdue
  unfold GtAemu.process_entry at h
  split at h
  · split at h <;>
      (simp only [Outcome.state?, Option.some.injEq] at h; subst h; exact hs)
  · exact hR.trans _ _ _ hs (hR.write_data hf _ _ _ _ h)

theorem StepRel.run_script_fuel {script : List ScriptEntry} {R : State → State → Prop}
    (hR : StepRel script R) : ∀ fuel, Respects R (run_script_fuel script fuel) := by
  intro fuel
  induction fuel with
  | zero => intro st st' h; simp [GtAemu.run_script_fuel, Outcome.state?] at h
  | succ n ih =>
    intro st st' h
    unfold GtAemu.run_script_fuel at h
    split at h
    · simp only [Outcome.state?, Option.some.injEq] at h
      subst h; exact hR.refl st
    · rename_i ent hent
      split at h
      · simp only [Outcome.state?, Option.some.injEq] at h
        subst h; exact hR.refl st
      · rename_i hdue
        cases hp : GtAemu.process_entry (GtAemu.run_script_fuel script n) ent st with
        | returned mid =>
          simp only [hp, Outcome.bind_returned] at h
          exact hR.trans _ _ _
            (hR.process_entry ih ent st mid hent (by omega) (by simp [hp, Outcome.state?]))
            (ih mid st' h)
        | end_emulation mid =>
          simp only [hp, Outcome.bind_end_emulation, Outcome.state?, Option.some.injEq] at h
          subst h
          exact hR.process_entry ih ent st mid hent (by omega) (by simp [hp, Outcome.state?])
        | out_of_fuel => simp [hp, Outcome.state?] at h

theorem StepRel.run_current_script {script : List ScriptEntry} {R : State → State → Prop}
    (hR : StepRel script R) : Respects R (run_current_script script) :=
  fun st st' h => hR.run_script_fuel _ st st' h

theorem StepRel.cpu_write {script : List ScriptEntry} {R : State → State → Prop}
    (hR : StepRel script R) (w : Nat × Nat) : Respects R (cpu_write script w) :=
  hR.au_ram_write hR.run_current_script w.1 w.2

theorem StepRel.cpu_writes {script : List ScriptEntry} {R : State → State → Prop}
    (hR : StepRel script R) (ws : List (Nat × Nat)) : Respects R (cpu_writes script ws) := by
  induction ws with
  | nil =>
    intro st st' h
    simp only [GtAemu.cpu_writes, Outcome.state?, Option.some.injEq] at h
    subst h; exact hR.refl st
  | cons w ws ih => exact respects_bind hR.trans (hR.cpu_write w) ih

/-! ## The cursor only moves forward -/

theorem cursor_mono_stepRel (script : List ScriptEntry) :
    StepRel script (fun a b => a.script_ptr ≤ b.script_ptr) where
  refl := fun _ => Nat.le_refl _
  trans := fun _ _ _ h1 h2 => Nat.le_trans h1 h2
  store := fun _ _ _ => Nat.le_refl _
  emit := fun _ _ => Nat.le_refl _
  start := fun _ _ _ _ => Nat.le_succ _

/-! ## Fuel

A call of `run_script_fuel` with `fuel + 1` moves the cursor before it calls
anything, and everything it calls runs with `fuel`; so more fuel than there
are entries at or after the cursor is never used up, and any two such amounts
give the same run. -/

theorem au_ram_write_congr {f g : State → Outcome} (p : Nat)
    (hfg : ∀ st, p ≤ st.script_ptr → f st = g st) (addr data : Nat) (st : State)
    (hst : p ≤ st.script_ptr) : au_ram_write f addr data st = au_ram_write g addr data st := by
  unfold au_ram_write sample_callback
  split
  · exact hfg _ (by simpa using hst)
  · rfl

theorem write_data_congr {f g : State → Outcome} (p : Nat)
    (hfg : ∀ st, p ≤ st.script_ptr → f st = g st)
    (hf : Respects (fun a b => a.script_ptr ≤ b.script_ptr) f) (script : List ScriptEntry) :
    ∀ (data : List Nat) (addr : Nat) (st : State), p ≤ st.script_ptr →
      write_data f addr data st = write_data g addr data st := by
  intro data
  induction data with
  | nil => intro addr st _; rfl
  | cons d rest ih =>
    intro addr st hst
    simp only [write_data]
    rw [← au_ram_write_congr p hfg addr d st hst]
    cases hw : au_ram_write f addr d st with
    | returned mid =>
      have hm := (cursor_mono_stepRel script).au_ram_write hf addr d st mid
        (by simp [hw, Outcome.state?])
      simp only [Outcome.bind_returned]
      exact ih _ mid (Nat.le_trans hst hm)
    | end_emulation mid => rfl
    | out_of_fuel => rfl

theorem process_entry_congr {f g : State → Outcome} (p : Nat)
    (hfg : ∀ st, p ≤ st.script_ptr → f st = g st)
    (hf : Respects (fun a b => a.script_ptr ≤ b.script_ptr) f) (script : List ScriptEntry)
    (ent : ScriptEntry) (st : State) (hst : p ≤ st.script_ptr + 1) :
    process_entry f ent st = process_entry g ent st := by
  unfold process_entry
  split
  · rfl
  · exact write_data_congr p hfg hf script _ _ _ (by simpa using hst)

theorem process_entry_cursor {f : State → Outcome}
    (hf : Respects (fun a b => a.script_ptr ≤ b.script_ptr) f) (script : List ScriptEntry)
    (ent : ScriptEntry) (st st' : State) (h : (process_entry f ent st).state? = some st') :
    st.script_ptr + 1 ≤ st'.script_ptr := by
  unfold process_entry at h
  split at h
  · split at h <;> (simp only [Outcome.state?, Option.some.injEq] at h; subst h; simp)
  · exact (cursor_mono_stepRel script).write_data hf ent.data ent.address (start_entry st) st' h

theorem run_script_fuel_congr (script : List ScriptEntry) :
    ∀ (m n : Nat) (st : State), script.length - st.script_ptr < m →
      script.length - st.script_ptr < n →
      run_script_fuel script m st = run_script_fuel script n st := by
  intro m
  induction m with
  | zero => intro n st h; omega
  | succ m ih =>
    intro n st hm hn
    cases n with
    | zero => omega
    | succ n =>
      simp only [run_script_fuel]
      cases hent : script[st.script_ptr]? with
      | none => rfl
      | some ent =>
        have hlt : st.script_ptr < script.length := by
          rcases List.getElem?_eq_some_iff.mp hent with ⟨h, _⟩
          exact h
        simp only []
        split
        · rfl
        · have hagree : ∀ st', st.script_ptr + 1 ≤ st'.script_ptr →
              run_script_fuel script m st' = run_script_fuel script n st' :=
            fun st' h' => ih n st' (by omega) (by omega)
          have hmono := (cursor_mono_stepRel script).run_script_fuel m
          rw [← process_entry_congr (st.script_ptr + 1) hagree hmono script ent st
            (Nat.le_refl _)]
          cases hp : process_entry (run_script_fuel script m) ent st with
          | returned mid =>
            have hmid : st.script_ptr + 1 ≤ mid.script_ptr :=
              process_entry_cursor hmono script ent st mid (by simp [hp, Outcome.state?])
            simp only [Outcome.bind_returned]
            exact hagree mid hmid
          | end_emulation mid => rfl
          | out_of_fuel => rfl

theorem write_data_ne_out_of_fuel {f : State → Outcome} (p : Nat)
    (hne : ∀ st, p ≤ st.script_ptr → f st ≠ .out_of_fuel)
    (hf : Respects (fun a b => a.script_ptr ≤ b.script_ptr) f) (script : List ScriptEntry) :
    ∀ (data : List Nat) (addr : Nat) (st : State), p ≤ st.script_ptr →
      write_data f addr data st ≠ .out_of_fuel := by
  intro data
  induction data with
  | nil => intro addr st _; simp [write_data]
  | cons d rest ih =>
    intro addr st hst
    simp only [write_data]
    apply Outcome.bind_ne_out_of_fuel
    · unfold au_ram_write sample_callback
      split
      · exact hne _ (by simpa using hst)
      · simp
    · intro mid hmid
      have hm := (cursor_mono_stepRel script).au_ram_write hf addr d st mid
        (by simp [hmid, Outcome.state?])
      exact ih _ mid (Nat.le_trans hst hm)

theorem run_script_fuel_ne_out_of_fuel (script : List ScriptEntry) :
    ∀ (m : Nat) (st : State), script.length - st.script_ptr < m →
      run_script_fuel script m st ≠ .out_of_fuel := by
  intro m
  induction m with
  | zero => intro st h; omega
  | succ m ih =>
    intro st hm
    simp only [run_script_fuel]
    cases hent : script[st.script_ptr]? with
    | none => simp
    | some ent =>
      have hlt : st.script_ptr < script.length :=
        (List.getElem?_eq_some_iff.mp hent).1
      simp only []
      split
      · simp
      · have hne : ∀ st', st.script_ptr + 1 ≤ st'.script_ptr →
            run_script_fuel script m st' ≠ .out_of_fuel :=
          fun st' h' => ih st' (by omega)
        have hmono := (cursor_mono_stepRel script).run_script_fuel m
        apply Outcome.bind_ne_out_of_fuel
        · unfold process_entry
          split
          · split <;> simp
          · exact write_data_ne_out_of_fuel _ hne hmono script _ _ _ (by simp)
        · intro mid hmid
          exact hne mid (process_entry_cursor hmono script ent st mid
            (by simp [hmid, Outcome.state?]))

/-- The total replay never reports exhausted fuel: `run_current_script`
terminates, by return or by the exception. -/
theorem run_current_script_ne_out_of_fuel (script : List ScriptEntry) (st : State) :
    run_current_script script st ≠ .out_of_fuel :=
  run_script_fuel_ne_out_of_fuel script _ st (Nat.lt_succ_self _)

/-- Any amount of fuel above the number of entries at or after the cursor
gives the run of `run_current_script`. -/
theorem run_script_fuel_stable (script : List ScriptEntry) (m : Nat) (st : State)
    (h : script.length - st.script_ptr < m) :
    run_script_fuel script m st = run_current_script script st :=
  run_script_fuel_congr script m _ st h (Nat.lt_succ_self _)

/-- The recursion equation of `run_current_script`, as the source writes it
(lines 57-72): the nested calls and the next loop iteration are
`run_current_script` itself. -/
theorem run_current_script_eq (script : List ScriptEntry) (st : State) :
    run_current_script script st =
      match script[st.script_ptr]? with
      | none => .returned st
      | some ent =>
        if ent.sample_count > st.samples then .returned st
        else (process_entry (run_current_script script) ent st).bind
          (run_current_script script) := by
  have hL : run_current_script script st =
      run_script_fuel script (script.length - st.script_ptr + 1) st := rfl
  rw [hL, run_script_fuel]
  cases hent : script[st.script_ptr]? with
  | none => rfl
  | some ent =>
    have hlt : st.script_ptr < script.length :=
      (List.getElem?_eq_some_iff.mp hent).1
    simp only []
    split
    · rfl
    · have hagree : ∀ st', st.script_ptr + 1 ≤ st'.script_ptr →
          run_script_fuel script (script.length - st.script_ptr) st' =
            run_current_script script st' :=
        fun st' h' => run_script_fuel_stable script _ st' (by omega)
      have hmono := (cursor_mono_stepRel script).run_script_fuel
        (script.length - st.script_ptr)
      rw [← process_entry_congr (st.script_ptr + 1) hagree hmono script ent st (Nat.le_refl _)]
      cases hp : process_entry (run_script_fuel script (script.length - st.script_ptr)) ent st with
      | returned mid =>
        simp only [Outcome.bind_returned]
        exact hagree mid
          (process_entry_cursor hmono script ent st mid (by simp [hp, Outcome.state?]))
      | end_emulation mid => rfl
      | out_of_fuel => rfl

theorem Outcome.state?_of_returned {o : Outcome} {st : State} (h : o = .returned st) :
    o.state? = some st := by
  rw [h]; rfl

theorem Outcome.state?_of_end_emulation {o : Outcome} {st : State}
    (h : o = .end_emulation st) : o.state? = some st := by
  rw [h]; rfl

theorem Outcome.exists_state_of_ne_out_of_fuel {o : Outcome} (h : o ≠ .out_of_fuel) :
    ∃ st, o.state? = some st := by
  cases o with
  | returned st => exact ⟨st, rfl⟩
  | end_emulation st => exact ⟨st, rfl⟩
  | out_of_fuel => exact absurd rfl h

/-! ## The output stream only grows -/

theorem output_grows_stepRel (script : List ScriptEntry) :
    StepRel script (fun a b => ∃ l, b.output = a.output ++ l) where
  refl := fun _ => ⟨[], by simp⟩
  trans := by
    rintro a b c ⟨l1, h1⟩ ⟨l2, h2⟩
    exact ⟨l1 ++ l2, by rw [h2, h1, List.append_assoc]⟩
  store := fun _ _ _ => ⟨[], by simp⟩
  emit := fun v _ => ⟨[v], by simp⟩
  start := fun _ _ _ _ => ⟨[], by simp⟩

/-! ## C1: the write trap -/

/-- C1: `au_ram_write(a, v)` hands the byte to `sample_callback` exactly once
when the raw address is `0x8000` (the write is the call of `sample_callback`
on the stored state, whatever the replay then does), and the byte `v` then
stands in the output right after the bytes emitted before and ahead of every
byte the triggered script entries emit; for any other address, also one that
reduces to slot 0, the write returns the stored state without any call, so
the output and the sample counter are as before. -/
theorem au_ram_write_trap_exactly (script : List ScriptEntry) (replay : State → Outcome)
    (a v : Nat) (st : State) :
    (a = 0x8000 →
      au_ram_write replay a v st = sample_callback replay v (au_ram_store a v st) ∧
      (emit_sample v (au_ram_store a v st)).output = st.output ++ [v] ∧
      ∃ st' rest, (cpu_write script (a, v) st).state? = some st' ∧
        st'.output = st.output ++ v :: rest) ∧
    (a ≠ 0x8000 →
      au_ram_write replay a v st = .returned (au_ram_store a v st) ∧
      (au_ram_store a v st).output = st.output ∧
      (au_ram_store a v st).samples = st.samples) := by
  refine ⟨fun ha => ⟨?_, rfl, ?_⟩, fun ha => ⟨?_, rfl, rfl⟩⟩
  · simp [au_ram_write, trap_address, ha]
  · have hrun : cpu_write script (a, v) st =
        run_current_script script (emit_sample v (au_ram_store a v st)) := by
      simp [cpu_write, au_ram_write, sample_callback, trap_address, ha]
    obtain ⟨st', hst'⟩ := Outcome.exists_state_of_ne_out_of_fuel
      (run_current_script_ne_out_of_fuel script (emit_sample v (au_ram_store a v st)))
    obtain ⟨l, hl⟩ := (output_grows_stepRel script).run_current_script _ st' hst'
    exact ⟨st', l, by rw [hrun]; exact hst', by simpa using hl⟩
  · simp [au_ram_write, trap_address, ha]

/-- C1 at concrete inputs: a trap write of 7 with the script
`[{0, 0x8000, [9]}]` pending from a state that already emitted `[1]`, and a
write to `0x9000`, which shares slot 0 with the trap. -/
theorem au_ram_write_trap_exactly_witness :
    (cpu_write [⟨0, 0x8000, [9]⟩] (0x8000, 7) ⟨fun _ => 0, 0, 0, [1], []⟩).output
        = some [1, 7, 9] ∧
    (cpu_write [⟨0, 0x8000, [9]⟩] (0x9000, 7) ⟨fun _ => 0, 0, 0, [1], []⟩).output
        = some [1] ∧
    (0x9000 ≠ 0x8000 ∧ 0x9000 % au_ram_size = 0x8000 % au_ram_size) ∧
    (au_ram_write (run_current_script []) 0x9000 7 ⟨fun _ => 0, 0, 0, [1], []⟩
      = .returned (au_ram_store 0x9000 7 ⟨fun _ => 0, 0, 0, [1], []⟩)) :=
  ⟨by decide, by decide, by decide,
   ((au_ram_write_trap_exactly [] (run_current_script []) 0x9000 7
      ⟨fun _ => 0, 0, 0, [1], []⟩).2 (by decide)).1⟩

/-! ## C2: an empty script -/

theorem trap_values_nil : trap_values [] = [] := rfl

theorem trap_values_cons_trap (v : Nat) (ws : List (Nat × Nat)) :
    trap_values ((trap_address, v) :: ws) = v :: trap_values ws := by
  simp [trap_values]

theorem trap_values_cons_other (a v : Nat) (ws : List (Nat × Nat)) (h : a ≠ trap_address) :
    trap_values ((a, v) :: ws) = trap_values ws := by
  simp [trap_values, h]

theorem trap_values_append (xs ys : List (Nat × Nat)) :
    trap_values (xs ++ ys) = trap_values xs ++ trap_values ys := by
  simp [trap_values]

theorem trap_values_replicate (n v : Nat) :
    trap_values (List.replicate n (trap_address, v)) = List.replicate n v := by
  induction n with
  | zero => rfl
  | succ n ih => rw [List.replicate_succ, trap_values_cons_trap, ih, List.replicate_succ]

theorem run_current_script_nil (st : State) : run_current_script [] st = .returned st := by
  rw [run_current_script_eq]; rfl

/-- With no script every CPU write returns: the trap writes are appended to
the output and counted modulo `2 ^ 32`, nothing else moves. -/
theorem cpu_writes_nil_script (ws : List (Nat × Nat)) :
    ∀ st : State, st.samples < 2 ^ 32 →
      ∃ st', cpu_writes [] ws st = .returned st' ∧
        st'.output = st.output ++ trap_values ws ∧
        st'.samples = (st.samples + (trap_values ws).length) % 2 ^ 32 ∧
        st'.script_ptr = st.script_ptr := by
  induction ws with
  | nil =>
    intro st hst
    exact ⟨st, rfl, by simp [trap_values_nil], by simp [trap_values_nil]; omega, rfl⟩
  | cons w ws ih =>
    intro st hst
    obtain ⟨a, v⟩ := w
    by_cases ha : a = trap_address
    · subst ha
      have hstep : cpu_write [] (trap_address, v) st =
          .returned (emit_sample v (au_ram_store trap_address v st)) := by
        simp [cpu_write, au_ram_write, sample_callback, run_current_script_nil]
      obtain ⟨st', h1, h2, h3, h4⟩ := ih (emit_sample v (au_ram_store trap_address v st))
        (Nat.mod_lt _ (by norm_num))
      refine ⟨st', ?_, ?_, ?_, ?_⟩
      · simp only [cpu_writes, hstep, Outcome.bind_returned]; exact h1
      · rw [h2, trap_values_cons_trap]; simp
      · rw [h3, trap_values_cons_trap]
        simp only [emit_sample_samples, au_ram_store_samples, List.length_cons]
        omega
      · rw [h4]; rfl
    · have hstep : cpu_write [] (a, v) st = .returned (au_ram_store a v st) := by
        simp [cpu_write, au_ram_write, ha]
      obtain ⟨st', h1, h2, h3, h4⟩ := ih (au_ram_store a v st) (by simpa using hst)
      refine ⟨st', ?_, ?_, ?_, ?_⟩
      · simp only [cpu_writes, hstep, Outcome.bind_returned]; exact h1
      · rw [h2, trap_values_cons_other a v ws ha]; rfl
      · rw [h3, trap_values_cons_other a v ws ha]; rfl
      · rw [h4]; rfl

/-- C2 (as amended): with an empty script, whatever writes the CPU issues from
startup, the run returns without the termination signal, the output is the
values of the trap writes in order, and the sample counter, a `uint32_t`, is
their number modulo `2 ^ 32`. -/
theorem empty_script_output (rom : Nat → Nat) (ws : List (Nat × Nat)) :
    ∃ st', run_from_start [] rom ws = .returned st' ∧
      st'.output = trap_values ws ∧
      st'.samples = (trap_values ws).length % 2 ^ 32 := by
  obtain ⟨st', h1, h2, h3, _⟩ := cpu_writes_nil_script ws (initial_state rom)
    (by simp [initial_state])
  refine ⟨st', ?_, ?_, ?_⟩
  · simp only [run_from_start, run_current_script_nil, Outcome.bind_returned]; exact h1
  · simpa [initial_state] using h2
  · simpa [initial_state] using h3

theorem empty_script_replicate (rom : Nat → Nat) (n v : Nat) :
    ∃ st', run_from_start [] rom (List.replicate n (trap_address, v)) = .returned st' ∧
      st'.samples = n % 2 ^ 32 ∧
      (trap_values (List.replicate n (trap_address, v))).length = n := by
  obtain ⟨st', h1, _, h3, _⟩ := cpu_writes_nil_script
    (List.replicate n (trap_address, v)) (initial_state rom) (by simp [initial_state])
  refine ⟨st', ?_, ?_, ?_⟩
  · simp only [run_from_start, run_current_script_nil, Outcome.bind_returned]; exact h1
  · rw [h3, trap_values_replicate, List.length_replicate]; simp [initial_state]
  · rw [trap_values_replicate, List.length_replicate]

/-- C2 fails as stated: after `2 ^ 32` trap writes and an empty script the
sample counter has wrapped to 0 and is not the number of trap writes. -/
theorem empty_script_samples_wrap :
    ∃ st', run_from_start [] (fun _ => 0) (List.replicate 4294967296 (trap_address, 0))
        = .returned st' ∧
      st'.samples = 0 ∧
      (trap_values (List.replicate 4294967296 (trap_address, 0))).length = 4294967296 :=
  empty_script_replicate (fun _ => 0) 4294967296 0

/-! ## Triples for the replay -/

@[simp] theorem Outcome.sat_returned (Q E : State → Prop) (st : State) :
    (Outcome.returned st).Sat Q E ↔ Q st := Iff.rfl

@[simp] theorem Outcome.sat_end_emulation (Q E : State → Prop) (st : State) :
    (Outcome.end_emulation st).Sat Q E ↔ E st := Iff.rfl

@[simp] theorem Outcome.sat_out_of_fuel (Q E : State → Prop) :
    Outcome.out_of_fuel.Sat Q E ↔ True := Iff.rfl

theorem Outcome.Sat.andThen {Q Q' E : State → Prop} {o : Outcome} {g : State → Outcome}
    (ho : o.Sat Q E) (hg : ∀ mid, Q mid → (g mid).Sat Q' E) : (o.bind g).Sat Q' E := by
  cases o with
  | returned mid => exact hg mid ho
  | end_emulation mid => exact ho
  | out_of_fuel => trivial

theorem Outcome.Sat.mono {Q Q' E E' : State → Prop} {o : Outcome} (ho : o.Sat Q E)
    (hQ : ∀ st, Q st → Q' st) (hE : ∀ st, E st → E' st) : o.Sat Q' E' := by
  cases o with
  | returned mid => exact hQ mid ho
  | end_emulation mid => exact hE mid ho
  | out_of_fuel => trivial

/-- The rule for `au_ram_write`: `I` is kept by the store, and the replay,
entered right after an emission from a state satisfying `I`, returns to `I`
or raises into `E`. -/
theorem triple_au_ram_write {I E : State → Prop} {replay : State → Outcome}
    (hstore : ∀ a v st, I st → I (au_ram_store a v st))
    (hcb : ∀ v st, I st → (replay (emit_sample v st)).Sat I E)
    (addr data : Nat) : Triple I (au_ram_write replay addr data) I E := by
  intro st hI
  unfold GtAemu.au_ram_write sample_callback
  by_cases ha : addr = trap_address
  · rw [if_pos ha]; exact hcb data _ (hstore addr data st hI)
  · rw [if_neg ha]; exact hstore addr data st hI

theorem triple_write_data {I E : State → Prop} {replay : State → Outcome}
    (hstore : ∀ a v st, I st → I (au_ram_store a v st))
    (hcb : ∀ v st, I st → (replay (emit_sample v st)).Sat I E)
    (data : List Nat) : ∀ addr, Triple I (write_data replay addr data) I E := by
  induction data with
  | nil => intro addr st hI; exact hI
  | cons d rest ih =>
    intro addr st hI
    exact (triple_au_ram_write hstore hcb addr d st hI).andThen (ih _)

theorem triple_process_entry {I E : State → Prop} (replay : State → Outcome)
    (hstore : ∀ a v st, I st → I (au_ram_store a v st))
    (hcb : ∀ v st, I st → (replay (emit_sample v st)).Sat I E)
    (ent : ScriptEntry) (st : State) (hI : I (start_entry st))
    (hE : ent.is_sentinel = true → E (start_entry st)) :
    (process_entry replay ent st).Sat I E := by
  unfold GtAemu.process_entry
  by_cases hlen : ent.data.length = 0
  · rw [if_pos hlen]
    by_cases haddr : ent.address = 0
    · rw [if_pos haddr]
      exact hE (by simp [ScriptEntry.is_sentinel, hlen, haddr])
    · rw [if_neg haddr]; exact hI
  · rw [if_neg hlen]
    exact triple_write_data hstore hcb ent.data ent.address (start_entry st) hI

/-- The rule for the replay loop: an invariant `I` kept by the three
primitive updates holds again when the replay returns, together with the exit
condition of the loop; when the replay is left by the exception, `E` holds,
provided it holds right after the cursor moved past a due sentinel. -/
theorem triple_run_script_fuel (script : List ScriptEntry) {I E : State → Prop}
    (hstore : ∀ a v st, I st → I (au_ram_store a v st))
    (hemit : ∀ v st, I st → I (emit_sample v st))
    (hstart : ∀ st ent, I st → script[st.script_ptr]? = some ent →
      ent.sample_count ≤ st.samples → I (start_entry st))
    (hraise : ∀ st ent, I st → script[st.script_ptr]? = some ent →
      ent.sample_count ≤ st.samples → ent.is_sentinel = true → E (start_entry st)) :
    ∀ fuel, Triple I (run_script_fuel script fuel) (fun st => I st ∧ Flushed script st) E := by
  intro fuel
  induction fuel with
  | zero => intro st _; simp [GtAemu.run_script_fuel]
  | succ n ih =>
    intro st hI
    have hcb : ∀ v st, I st → (run_script_fuel script n (emit_sample v st)).Sat I E :=
      fun v st0 h0 => (ih _ (hemit v st0 h0)).mono (fun _ h => h.1) (fun _ h => h)
    unfold GtAemu.run_script_fuel
    cases hent : script[st.script_ptr]? with
    | none => exact ⟨hI, by simp [Flushed, hent]⟩
    | some ent =>
      simp only []
      by_cases hdue : ent.sample_count > st.samples
      · rw [if_pos hdue]
        exact ⟨hI, by simpa [Flushed, hent] using hdue⟩
      · rw [if_neg hdue]
        exact (triple_process_entry _ hstore hcb ent st
          (hstart st ent hI hent (by omega)) (hraise st ent hI hent (by omega))).andThen ih

theorem triple_run_current_script (script : List ScriptEntry) {I E : State → Prop}
    (hstore : ∀ a v st, I st → I (au_ram_store a v st))
    (hemit : ∀ v st, I st → I (emit_sample v st))
    (hstart : ∀ st ent, I st → script[st.script_ptr]? = some ent →
      ent.sample_count ≤ st.samples → I (start_entry st))
    (hraise : ∀ st ent, I st → script[st.script_ptr]? = some ent →
      ent.sample_count ≤ st.samples → ent.is_sentinel = true → E (start_entry st)) :
    Triple I (run_current_script script) (fun st => I st ∧ Flushed script st) E :=
  fun st hI => triple_run_script_fuel script hstore hemit hstart hraise _ st hI

/-! ## C7: a replay that returns leaves no due entry behind -/

theorem cursor_le_length_start (script : List ScriptEntry) (st : State) (ent : ScriptEntry)
    (hent : script[st.script_ptr]? = some ent) : (start_entry st).script_ptr ≤ script.length := by
  have := (List.getElem?_eq_some_iff.mp hent).1
  simp only [start_entry_script_ptr]
  omega

/-- A replay that returns from a state whose cursor is within the script
ends with the cursor within the script and on an entry not yet due. -/
theorem run_current_script_flushed (script : List ScriptEntry) (st st' : State)
    (hwf : st.script_ptr ≤ script.length)
    (h : run_current_script script st = .returned st') :
    st'.script_ptr ≤ script.length ∧ Flushed script st' := by
  have := triple_run_current_script script
    (I := fun s => s.script_ptr ≤ script.length) (E := fun _ => True)
    (fun _ _ _ h => h) (fun _ _ h => h)
    (fun s ent _ hent _ => cursor_le_length_start script s ent hent)
    (fun _ _ _ _ _ _ => trivial) st hwf
  rw [h] at this
  exact this

theorem flushed_cases (script : List ScriptEntry) (st : State)
    (hwf : st.script_ptr ≤ script.length) (hf : Flushed script st) :
    st.script_ptr = script.length ∨
      ∃ ent, script[st.script_ptr]? = some ent ∧ st.samples < ent.sample_count := by
  unfold Flushed at hf
  cases hent : script[st.script_ptr]? with
  | none =>
    left
    have := List.getElem?_eq_none_iff.mp hent
    omega
  | some ent =>
    right
    rw [hent] at hf
    exact ⟨ent, rfl, hf⟩

/-- In a sorted script every entry that is due stands before a flushed
cursor. -/
theorem flushed_consumed (script : List ScriptEntry) (hs : ScriptSorted script) (st : State)
    (hf : Flushed script st) (i : Nat) (ent : ScriptEntry) (hent : script[i]? = some ent)
    (hdue : ent.sample_count ≤ st.samples) : i < st.script_ptr := by
  by_contra hcon
  have hle : st.script_ptr ≤ i := Nat.le_of_not_lt hcon
  obtain ⟨hi, hget⟩ := List.getElem?_eq_some_iff.mp hent
  have hp : st.script_ptr < script.length := Nat.lt_of_le_of_lt hle hi
  unfold Flushed at hf
  rw [List.getElem?_eq_getElem hp] at hf
  simp only [] at hf
  rcases Nat.eq_or_lt_of_le hle with heq | hlt
  · have : script[st.script_ptr] = ent := by
      subst heq; exact hget
    rw [this] at hf
    omega
  · have := List.pairwise_iff_getElem.mp hs st.script_ptr i hp hi hlt
    rw [hget] at this
    omega

theorem cpu_write_flushed (script : List ScriptEntry) (w : Nat × Nat) (st st' : State)
    (hwf : st.script_ptr ≤ script.length) (hf : Flushed script st)
    (h : cpu_write script w st = .returned st') :
    st'.script_ptr ≤ script.length ∧ Flushed script st' := by
  unfold cpu_write au_ram_write sample_callback at h
  by_cases ha : w.1 = trap_address
  · rw [if_pos ha] at h
    exact run_current_script_flushed script _ st' (by simpa using hwf) h
  · rw [if_neg ha] at h
    cases h
    exact ⟨hwf, hf⟩

theorem cpu_writes_flushed (script : List ScriptEntry) (ws : List (Nat × Nat)) :
    ∀ (st st' : State), st.script_ptr ≤ script.length → Flushed script st →
      cpu_writes script ws st = .returned st' →
      st'.script_ptr ≤ script.length ∧ Flushed script st' := by
  induction ws with
  | nil =>
    intro st st' hwf hf h
    cases h
    exact ⟨hwf, hf⟩
  | cons w ws ih =>
    intro st st' hwf hf h
    simp only [cpu_writes] at h
    obtain ⟨mid, hmid, hrest⟩ := Outcome.bind_eq_returned.mp h
    obtain ⟨h1, h2⟩ := cpu_write_flushed script w st mid hwf hf hmid
    exact ih mid st' h1 h2 hrest

theorem run_from_start_flushed (script : List ScriptEntry) (rom : Nat → Nat)
    (ws : List (Nat × Nat)) (st' : State)
    (h : run_from_start script rom ws = .returned st') :
    st'.script_ptr ≤ script.length ∧ Flushed script st' := by
  unfold run_from_start at h
  obtain ⟨mid, hmid, hrest⟩ := Outcome.bind_eq_returned.mp h
  obtain ⟨h1, h2⟩ := run_current_script_flushed script _ mid (by simp [initial_state]) hmid
  exact cpu_writes_flushed script ws mid st' h1 h2 hrest

/-- C7: in a script sorted by due sample, when `run_current_script` returns
(from a state whose cursor is within the script) every entry with
`due <= samples` is before the cursor, and the cursor is at the end of the
script or on an entry with `due > samples`; the same holds after the
pre-flush followed by any CPU writes that all return. -/
theorem replay_consumes_all_due (script : List ScriptEntry) (hs : ScriptSorted script) :
    (∀ st st', st.script_ptr ≤ script.length →
      run_current_script script st = .returned st' →
      (∀ i ent, script[i]? = some ent → ent.sample_count ≤ st'.samples →
        i < st'.script_ptr) ∧
      (st'.script_ptr = script.length ∨
        ∃ ent, script[st'.script_ptr]? = some ent ∧ st'.samples < ent.sample_count)) ∧
    (∀ rom ws st', run_from_start script rom ws = .returned st' →
      (∀ i ent, script[i]? = some ent → ent.sample_count ≤ st'.samples →
        i < st'.script_ptr) ∧
      (st'.script_ptr = script.length ∨
        ∃ ent, script[st'.script_ptr]? = some ent ∧ st'.samples < ent.sample_count)) := by
  constructor
  · intro st st' hwf h
    obtain ⟨h1, h2⟩ := run_current_script_flushed script st st' hwf h
    exact ⟨fun i ent => flushed_consumed script hs st' h2 i ent, flushed_cases script st' h1 h2⟩
  · intro rom ws st' h
    obtain ⟨h1, h2⟩ := run_from_start_flushed script rom ws st' h
    exact ⟨fun i ent => flushed_consumed script hs st' h2 i ent, flushed_cases script st' h1 h2⟩

/-- C7 at a concrete input: a sorted two-entry script whose first entry is
due at sample 0 and whose second is due at sample 2. -/
theorem replay_consumes_all_due_witness :
    ScriptSorted [⟨0, 5, [1]⟩, ⟨2, 0, []⟩] ∧
    run_current_script [⟨0, 5, [1]⟩, ⟨2, 0, []⟩] (initial_state (fun _ => 0)) =
      .returned (au_ram_store 5 1 (start_entry (initial_state (fun _ => 0)))) ∧
    ((∀ i ent, [(⟨0, 5, [1]⟩ : ScriptEntry), ⟨2, 0, []⟩][i]? = some ent →
        ent.sample_count ≤ 0 → i < 1) ∧
      (1 = 2 ∨ ∃ ent, [(⟨0, 5, [1]⟩ : ScriptEntry), ⟨2, 0, []⟩][1]? = some ent ∧
        0 < ent.sample_count)) :=
  ⟨by decide, rfl,
   (replay_consumes_all_due [⟨0, 5, [1]⟩, ⟨2, 0, []⟩] (by decide)).1
     (initial_state (fun _ => 0))
     (au_ram_store 5 1 (start_entry (initial_state (fun _ => 0)))) (by decide) rfl⟩

/-! ## C6: the cursor and the order in which entries are started -/

theorem cursorStep_stepRel (script : List ScriptEntry) :
    StepRel script (CursorStep script) where
  refl := fun _ => ⟨Nat.le_refl _, fun h => h, [], by simp, List.Pairwise.nil, by simp⟩
  trans := by
    rintro a b c ⟨h1, h2, n1, e1, p1, m1⟩ ⟨h1', h2', n2, e2, p2, m2⟩
    refine ⟨Nat.le_trans h1 h1', fun h => h2' (h2 h), n1 ++ n2, ?_, ?_, ?_⟩
    · rw [e2, e1, List.append_assoc]
    · rw [List.pairwise_append]
      refine ⟨p1, p2, fun x hx y hy => ?_⟩
      have := (m1 x hx).2.1
      have := (m2 y hy).1
      omega
    · intro e he
      rcases List.mem_append.mp he with he | he
      · obtain ⟨g1, g2, g3⟩ := m1 e he
        exact ⟨g1, by omega, g3⟩
      · obtain ⟨g1, g2, g3⟩ := m2 e he
        exact ⟨by omega, g2, g3⟩
  store := fun _ _ _ => ⟨Nat.le_refl _, fun h => h, [], by simp, List.Pairwise.nil, by simp⟩
  emit := fun _ _ => ⟨Nat.le_refl _, fun h => h, [], by simp, List.Pairwise.nil, by simp⟩
  start := by
    intro st ent hent hdue
    refine ⟨Nat.le_succ _, fun _ => cursor_le_length_start script st ent hent,
      [(st.script_ptr, st.samples)], rfl, List.pairwise_singleton _ _, ?_⟩
    intro e he
    rw [List.mem_singleton] at he
    subst he
    exact ⟨Nat.le_refl _, by simp, ent, hent, hdue⟩

/-- C6: under `run_current_script`, `sample_callback` and `au_ram_write`,
nested calls and calls that end in the termination signal included, the
cursor never decreases and stays within the script, and the entries started
are started once each, in strictly increasing index order, each in a state
with `samples >= due`; hence over a whole run from startup every entry is
started at most once, in increasing order, and only when due. -/
theorem cursor_monotone_each_once (script : List ScriptEntry) :
    (∀ st st', (run_current_script script st).state? = some st' →
      CursorStep script st st') ∧
    (∀ v st st', (sample_callback (run_current_script script) v st).state? = some st' →
      CursorStep script st st') ∧
    (∀ a v st st', (au_ram_write (run_current_script script) a v st).state? = some st' →
      CursorStep script st st') ∧
    (∀ rom ws st', (run_from_start script rom ws).state? = some st' →
      st'.script_ptr ≤ script.length ∧
      st'.started.Pairwise (fun x y => x.1 < y.1) ∧
      (st'.started.map Prod.fst).Nodup ∧
      ∀ e ∈ st'.started, e.1 < st'.script_ptr ∧
        ∃ ent, script[e.1]? = some ent ∧ ent.sample_count ≤ e.2) := by
  have hR := cursorStep_stepRel script
  refine ⟨hR.run_current_script, ?_, hR.au_ram_write hR.run_current_script, ?_⟩
  · intro v st st' h
    exact hR.trans _ _ _ (hR.emit v st) (hR.run_current_script _ _ h)
  · intro rom ws st' h
    have hrun : Respects (CursorStep script) (fun st =>
        (run_current_script script st).bind (cpu_writes script ws)) :=
      respects_bind hR.trans hR.run_current_script (hR.cpu_writes ws)
    obtain ⟨_, h2, new, e1, p1, m1⟩ := hrun (initial_state rom) st' h
    have e1' : st'.started = new := by simpa [initial_state] using e1
    subst e1'
    refine ⟨h2 (by simp [initial_state]), p1, ?_, fun e he => (m1 e he).2⟩
    rw [List.Nodup, List.pairwise_map]
    exact p1.imp (fun h => Nat.ne_of_lt h)

/-- C6 at a concrete input: the pre-flush of a three-entry script whose first
entry writes to the trap address, so that the second entry is started by a
nested call, and whose third entry is the sentinel. -/
theorem cursor_monotone_each_once_witness :
    (run_from_start [⟨0, 0x8000, [7]⟩, ⟨1, 5, [1]⟩, ⟨1, 0, []⟩] (fun _ => 0) []).state?.map
        State.started = some [(0, 0), (1, 1), (2, 1)] ∧
    CursorStep [⟨0, 0x8000, [7]⟩, ⟨1, 5, [1]⟩, ⟨1, 0, []⟩] (initial_state (fun _ => 0))
      (start_entry (au_ram_store 5 1 (start_entry (emit_sample 7
        (au_ram_store 0x8000 7 (start_entry (initial_state (fun _ => 0)))))))) :=
  ⟨by decide,
   (cursor_monotone_each_once [⟨0, 0x8000, [7]⟩, ⟨1, 5, [1]⟩, ⟨1, 0, []⟩]).1
     (initial_state (fun _ => 0)) _ rfl⟩

/-! ## C8: the writes of a payload -/

theorem au_ram_size_eq : au_ram_size = 4096 := rfl

theorem trap_address_eq : trap_address = 32768 := rfl

theorem payload_writes_from_length (A : Nat) (p : List Nat) :
    ∀ k, (payload_writes_from A k p).length = p.length := by
  induction p with
  | nil => intro k; rfl
  | cons b bs ih => intro k; simp [payload_writes_from, ih]

theorem payload_writes_from_getElem? (A : Nat) (p : List Nat) :
    ∀ k i b, p[i]? = some b →
      (payload_writes_from A k p)[i]? = some ((A + (k + i)) % 65536, b) := by
  induction p with
  | nil => intro k i b h; simp at h
  | cons c cs ih =>
    intro k i b h
    cases i with
    | zero =>
      simp only [List.getElem?_cons_zero, Option.some.injEq] at h
      simp [payload_writes_from, h]
    | succ i =>
      simp only [List.getElem?_cons_succ] at h
      simp only [payload_writes_from, List.getElem?_cons_succ]
      rw [ih (k + 1) i b h]
      congr 3
      omega

/-- The loop of lines 67-69 performs the writes `payload_writes` lists: the
`uint16_t` increment of `addr` is the reduction modulo 65536. -/
theorem write_data_eq_payload_writes (replay : State → Outcome) (A : Nat) (p : List Nat) :
    ∀ (k addr : Nat) (st : State), addr = (A + k) % 65536 →
      write_data replay addr p st = au_ram_writes replay (payload_writes_from A k p) st := by
  induction p with
  | nil => intro k addr st _; rfl
  | cons b bs ih =>
    intro k addr st haddr
    simp only [write_data, payload_writes_from, au_ram_writes]
    rw [haddr]
    congr 1
    funext mid
    exact ih (k + 1) _ mid (by omega)

/-- A payload of at most 4096 bytes none of which goes to the trap address
is stored byte by byte in distinct slots, without any call of the replay. -/
theorem write_data_no_trap (replay : State → Outcome) (p : List Nat) :
    ∀ (addr : Nat) (st : State), addr < 65536 → p.length ≤ 4096 →
      (∀ i, i < p.length → (addr + i) % 65536 ≠ trap_address) →
      ∃ st', write_data replay addr p st = .returned st' ∧
        (∀ i b, p[i]? = some b → st'.au_ram ((addr + i) % au_ram_size) = b) ∧
        (∀ j, (∀ i, i < p.length → j ≠ (addr + i) % au_ram_size) →
          st'.au_ram j = st.au_ram j) ∧
        st'.samples = st.samples ∧ st'.output = st.output ∧
        st'.script_ptr = st.script_ptr ∧ st'.started = st.started := by
  induction p with
  | nil =>
    intro addr st _ _ _
    exact ⟨st, rfl, by simp, fun _ _ => rfl, rfl, rfl, rfl, rfl⟩
  | cons d rest ih =>
    intro addr st haddr hlen hno
    simp only [List.length_cons] at hlen hno
    have h0 : addr ≠ trap_address := by
      have := hno 0 (by omega)
      rw [trap_address_eq] at this ⊢
      omega
    have hstep : au_ram_write replay addr d st = .returned (au_ram_store addr d st) := by
      simp [au_ram_write, h0]
    obtain ⟨st', h1, h2, h3, h4, h5, h6, h7⟩ := ih ((addr + 1) % 65536)
      (au_ram_store addr d st) (Nat.mod_lt _ (by norm_num)) (Nat.le_of_succ_le hlen)
      (fun i hi => by
        have := hno (i + 1) (by omega)
        rw [trap_address_eq] at this ⊢
        omega)
    refine ⟨st', ?_, ?_, ?_, h4, h5, h6, h7⟩
    · simp only [write_data, hstep, Outcome.bind_returned]; exact h1
    · intro i b hb
      cases i with
      | zero =>
        simp only [List.getElem?_cons_zero, Option.some.injEq] at hb
        subst hb
        rw [Nat.add_zero, h3 (addr % au_ram_size)]
        · simp
        · intro i hi
          rw [au_ram_size_eq]
          omega
      | succ i =>
        simp only [List.getElem?_cons_succ] at hb
        have := h2 i b hb
        rw [au_ram_size_eq] at this ⊢
        have e : (addr + (i + 1)) % 4096 = ((addr + 1) % 65536 + i) % 4096 := by omega
        rw [e]; exact this
    · intro j hj
      rw [h3 j]
      · have := hj 0 (by simp)
        rw [Nat.add_zero] at this
        simp only [au_ram_store_au_ram]
        rw [if_neg this]
      · intro i hi
        have := hj (i + 1) (by simpa using hi)
        rw [au_ram_size_eq] at this ⊢
        omega

theorem au_ram_writes_append (replay : State → Outcome) (xs ys : List (Nat × Nat)) :
    ∀ st, au_ram_writes replay (xs ++ ys) st =
      (au_ram_writes replay xs st).bind (au_ram_writes replay ys) := by
  induction xs with
  | nil => intro st; rfl
  | cons w ws ih =>
    intro st
    simp only [List.cons_append, au_ram_writes, Outcome.bind_assoc]
    congr 1
    funext mid
    exact ih mid

/-- When a sequence of writes has returned, each of them was performed, from
the state in which the writes before it had returned, and has returned. -/
theorem au_ram_writes_returned_split (replay : State → Outcome)
    (pre : List (Nat × Nat)) (w : Nat × Nat) (post : List (Nat × Nat)) (st st' : State)
    (h : au_ram_writes replay (pre ++ w :: post) st = .returned st') :
    ∃ s s', au_ram_writes replay pre st = .returned s ∧
      au_ram_write replay w.1 w.2 s = .returned s' ∧
      au_ram_writes replay post s' = .returned st' := by
  rw [au_ram_writes_append] at h
  obtain ⟨s, h1, h2⟩ := Outcome.bind_eq_returned.mp h
  simp only [au_ram_writes] at h2
  obtain ⟨s', h3, h4⟩ := Outcome.bind_eq_returned.mp h2
  exact ⟨s, s', h1, h3, h4⟩

/-- When a sequence of writes is left by the exception, the writes before
some write to the trap address have returned and that write has raised it;
the writes after it are not performed. -/
theorem au_ram_writes_end_emulation_split (replay : State → Outcome)
    (ws : List (Nat × Nat)) :
    ∀ (st st' : State), au_ram_writes replay ws st = .end_emulation st' →
      ∃ pre v post s, ws = pre ++ (trap_address, v) :: post ∧
        au_ram_writes replay pre st = .returned s ∧
        au_ram_write replay trap_address v s = .end_emulation st' := by
  induction ws with
  | nil => intro st st' h; simp [au_ram_writes] at h
  | cons w ws ih =>
    intro st st' h
    simp only [au_ram_writes] at h
    cases hw : au_ram_write replay w.1 w.2 st with
    | returned mid =>
      rw [hw, Outcome.bind_returned] at h
      obtain ⟨pre, v, post, s, e1, e2, e3⟩ := ih mid st' h
      refine ⟨w :: pre, v, post, s, by rw [e1]; rfl, ?_, e3⟩
      simp only [au_ram_writes, hw, Outcome.bind_returned]
      exact e2
    | end_emulation mid =>
      rw [hw, Outcome.bind_end_emulation] at h
      cases h
      obtain ⟨a, v⟩ := w
      have ha : a = trap_address := by
        by_contra hne
        simp [au_ram_write, hne] at hw
      subst ha
      exact ⟨[], v, ws, st, rfl, rfl, hw⟩
    | out_of_fuel =>
      rw [hw, Outcome.bind_out_of_fuel] at h
      cases h

/-- C8 (as amended): processing an entry with non-empty payload `p` and
16-bit start address `A` performs the writes
`au_ram_write((A+i) mod 65536, p[i])`, `i = 0, 1, ...`, in this order, each of
which stores at slot `(A+i) mod 4096`, up to the first one that does not
return.  When the processing returns, every one of the `len` writes has been
performed and has returned; when it is left by the termination signal, some
write `k` went to `0x8000` and raised it after the writes before it had
returned, and no later write is performed; with the replay of the program the
processing always ends in one of these two ways.  When `len <= 4096` and none
of the addresses is `0x8000`, the entry returns with
`storage[(A+i) mod 4096] = p[i]` for every `i` and all other slots, the
sample counter and the output as before. -/
theorem payload_written_in_order (replay : State → Outcome) (ent : ScriptEntry) (st : State)
    (hne : ent.data ≠ []) (hA : ent.address < 65536) :
    process_entry replay ent st =
        au_ram_writes replay (payload_writes ent.address ent.data) (start_entry st) ∧
    (payload_writes ent.address ent.data).length = ent.data.length ∧
    (∀ i b, ent.data[i]? = some b →
      (payload_writes ent.address ent.data)[i]? = some ((ent.address + i) % 65536, b) ∧
      (au_ram_store ((ent.address + i) % 65536) b st).au_ram
        ((ent.address + i) % au_ram_size) = b) ∧
    (ent.data.length ≤ 4096 →
      (∀ i, i < ent.data.length → (ent.address + i) % 65536 ≠ 0x8000) →
      ∃ st', process_entry replay ent st = .returned st' ∧
        (∀ i b, ent.data[i]? = some b → st'.au_ram ((ent.address + i) % au_ram_size) = b) ∧
        (∀ j, (∀ i, i < ent.data.length → j ≠ (ent.address + i) % au_ram_size) →
          st'.au_ram j = st.au_ram j) ∧
        st'.samples = st.samples ∧ st'.output = st.output) ∧
    (∀ st', process_entry replay ent st = .returned st' →
      ∀ i b, ent.data[i]? = some b →
        ∃ s s', au_ram_writes replay ((payload_writes ent.address ent.data).take i)
            (start_entry st) = .returned s ∧
          au_ram_write replay ((ent.address + i) % 65536) b s = .returned s') ∧
    (∀ st', process_entry replay ent st = .end_emulation st' →
      ∃ k b s, ent.data[k]? = some b ∧ (ent.address + k) % 65536 = 0x8000 ∧
        au_ram_writes replay ((payload_writes ent.address ent.data).take k)
          (start_entry st) = .returned s ∧
        au_ram_write replay 0x8000 b s = .end_emulation st') ∧
    (∀ script, (∃ st', process_entry (run_current_script script) ent st = .returned st') ∨
      (∃ st', process_entry (run_current_script script) ent st = .end_emulation st')) := by
  have hlen : ¬ ent.data.length = 0 := by
    intro h; exact hne (List.length_eq_zero.mp h)
  have hpe : process_entry replay ent st =
      write_data replay ent.address ent.data (start_entry st) := by
    simp [process_entry, hlen]
  have hpw : process_entry replay ent st =
      au_ram_writes replay (payload_writes ent.address ent.data) (start_entry st) := by
    rw [hpe]
    exact write_data_eq_payload_writes replay ent.address ent.data 0 ent.address _
      (by simp; omega)
  have hget : ∀ i b, ent.data[i]? = some b →
      (payload_writes ent.address ent.data)[i]? = some ((ent.address + i) % 65536, b) := by
    intro i b hb
    have := payload_writes_from_getElem? ent.address ent.data 0 i b hb
    simpa [payload_writes] using this
  have hlw : (payload_writes ent.address ent.data).length = ent.data.length :=
    payload_writes_from_length _ _ 0
  refine ⟨hpw, hlw, ?_, ?_, ?_, ?_, ?_⟩
  · intro i b hb
    refine ⟨hget i b hb, ?_⟩
    simp only [au_ram_store_au_ram, au_ram_size_eq]
    rw [if_pos (by omega)]
  · intro hle hno
    obtain ⟨st', h1, h2, h3, h4, h5, _, _⟩ := write_data_no_trap replay ent.data ent.address
      (start_entry st) hA hle hno
    exact ⟨st', by rw [hpe]; exact h1, h2, h3, h4, h5⟩
  · intro st' h i b hb
    rw [hpw] at h
    obtain ⟨hi, hw⟩ := List.getElem?_eq_some_iff.mp (hget i b hb)
    have hsplit : payload_writes ent.address ent.data =
        (payload_writes ent.address ent.data).take i ++
          ((ent.address + i) % 65536, b) ::
            (payload_writes ent.address ent.data).drop (i + 1) := by
      rw [← hw, ← List.drop_eq_getElem_cons hi, List.take_append_drop]
    have h' : au_ram_writes replay ((payload_writes ent.address ent.data).take i ++
        ((ent.address + i) % 65536, b) ::
          (payload_writes ent.address ent.data).drop (i + 1)) (start_entry st) =
        .returned st' := by
      rw [← hsplit]; exact h
    obtain ⟨s, s', g1, g2, _⟩ := au_ram_writes_returned_split replay _ _ _ _ st' h'
    exact ⟨s, s', g1, g2⟩
  · intro st' h
    rw [hpw] at h
    obtain ⟨pre, v, post, s, e1, e2, e3⟩ :=
      au_ram_writes_end_emulation_split replay _ _ st' h
    have hk : pre.length < ent.data.length := by
      rw [← hlw, e1, List.length_append, List.length_cons]
      omega
    have hb : ent.data[pre.length]? = some ent.data[pre.length] :=
      List.getElem?_eq_getElem hk
    have hw := hget pre.length _ hb
    rw [e1, List.getElem?_append_right (Nat.le_refl _), Nat.sub_self,
      List.getElem?_cons_zero] at hw
    simp only [Option.some.injEq, Prod.mk.injEq] at hw
    have htake : (payload_writes ent.address ent.data).take pre.length = pre := by
      rw [e1, List.take_left']
      rfl
    refine ⟨pre.length, ent.data[pre.length], s, hb, ?_, ?_, ?_⟩
    · rw [← hw.1]; rfl
    · rw [htake]; exact e2
    · rw [← hw.2]; exact e3
  · intro script
    have hpe' : process_entry (run_current_script script) ent st =
        write_data (run_current_script script) ent.address ent.data (start_entry st) := by
      simp [process_entry, hlen]
    have hnf := write_data_ne_out_of_fuel 0
      (fun s _ => run_current_script_ne_out_of_fuel script s)
      (cursor_mono_stepRel script).run_current_script script ent.data ent.address
      (start_entry st) (Nat.zero_le _)
    rw [← hpe'] at hnf
    cases h : process_entry (run_current_script script) ent st with
    | returned st' => exact Or.inl ⟨st', rfl⟩
    | end_emulation st' => exact Or.inr ⟨st', rfl⟩
    | out_of_fuel => exact absurd h hnf

/-- C8 at a concrete input: three bytes from `0xFFFF`, which wrap the 16-bit
address to `0x0000` and `0x0001`. -/
theorem payload_written_in_order_witness :
    payload_writes 0xFFFF [1, 2, 3] = [(0xFFFF, 1), (0, 2), (1, 3)] ∧
    ∃ st', process_entry (run_current_script []) ⟨0, 0xFFFF, [1, 2, 3]⟩
        (initial_state (fun _ => 0)) = .returned st' ∧
      (∀ i b, [1, 2, 3][i]? = some b → st'.au_ram ((0xFFFF + i) % au_ram_size) = b) ∧
      (∀ j, (∀ i, i < 3 → j ≠ (0xFFFF + i) % au_ram_size) → st'.au_ram j = 0) ∧
      st'.samples = 0 ∧ st'.output = [] :=
  ⟨by decide,
   (payload_written_in_order (run_current_script []) ⟨0, 0xFFFF, [1, 2, 3]⟩
      (initial_state (fun _ => 0)) (by decide) (by decide)).2.2.2.1 (by decide) (by decide)⟩

/-- C8 fails as stated: with the script `[{0, 0x8000, [1, 2]}, {1, 0, []}]`
the first entry has a payload of two bytes, but processing it from the
startup state performs one write only.  The write of 1 to `0x8000` emits a
sample, the replay it re-enters finds the sentinel due at sample 1 and throws
(line 65), and the loop of lines 67-69 is left: the event ends as its first
write does, and slot `0x8001 mod 4096`, where the second byte 2 would have
gone, still holds 0. -/
theorem payload_cut_short :
    payload_writes 0x8000 [1, 2] = [(0x8000, 1), (0x8001, 2)] ∧
    ∃ st', process_entry (run_current_script [⟨0, 0x8000, [1, 2]⟩, ⟨1, 0, []⟩])
        ⟨0, 0x8000, [1, 2]⟩ (initial_state (fun _ => 0)) = .end_emulation st' ∧
      au_ram_write (run_current_script [⟨0, 0x8000, [1, 2]⟩, ⟨1, 0, []⟩]) 0x8000 1
        (start_entry (initial_state (fun _ => 0))) = .end_emulation st' ∧
      run_current_script [⟨0, 0x8000, [1, 2]⟩, ⟨1, 0, []⟩] (initial_state (fun _ => 0)) =
        .end_emulation st' ∧
      st'.output = [1] ∧ st'.samples = 1 ∧ st'.script_ptr = 2 ∧
      au_ram_read st' 0x8000 = 1 ∧ au_ram_read st' 0x8001 = 0 :=
  ⟨by decide, _, rfl, rfl, rfl, rfl, rfl, rfl, rfl, rfl⟩

/-! ## Scripts that never write to the trap address -/

theorem write_data_quiet (replay : State → Outcome) (p : List Nat) :
    ∀ (addr : Nat) (st : State), trap_address ∉ write_addresses addr p.length →
      ∃ st', write_data replay addr p st = .returned st' ∧
        st'.samples = st.samples ∧ st'.output = st.output ∧
        st'.script_ptr = st.script_ptr ∧ st'.started = st.started := by
  induction p with
  | nil => intro addr st _; exact ⟨st, rfl, rfl, rfl, rfl, rfl⟩
  | cons d rest ih =>
    intro addr st hno
    simp only [List.length_cons, write_addresses, List.mem_cons, not_or] at hno
    have hstep : au_ram_write replay addr d st = .returned (au_ram_store addr d st) := by
      simp [au_ram_write, Ne.symm hno.1]
    obtain ⟨st', h1, h2, h3, h4, h5⟩ := ih ((addr + 1) % 65536) (au_ram_store addr d st) hno.2
    exact ⟨st', by simp only [write_data, hstep, Outcome.bind_returned]; exact h1,
      h2, h3, h4, h5⟩

/-- The replay of a script without trap writes emits nothing: however it
ends, the sample counter and the output are as they were. -/
theorem run_script_fuel_quiet (script : List ScriptEntry) (hq : NoTrapWrites script) :
    ∀ (fuel : Nat) (st st' : State), (run_script_fuel script fuel st).state? = some st' →
      st'.samples = st.samples ∧ st'.output = st.output := by
  intro fuel
  induction fuel with
  | zero => intro st st' h; simp [run_script_fuel, Outcome.state?] at h
  | succ n ih =>
    intro st st' h
    unfold run_script_fuel at h
    cases hent : script[st.script_ptr]? with
    | none =>
      simp only [hent, Outcome.state?, Option.some.injEq] at h
      subst h; exact ⟨rfl, rfl⟩
    | some ent =>
      simp only [hent] at h
      by_cases hdue : ent.sample_count > st.samples
      · rw [if_pos hdue] at h
        simp only [Outcome.state?, Option.some.injEq] at h
        subst h; exact ⟨rfl, rfl⟩
      · rw [if_neg hdue] at h
        have hpe : (∃ mid, process_entry (run_script_fuel script n) ent st = .returned mid ∧
              mid.samples = st.samples ∧ mid.output = st.output) ∨
            process_entry (run_script_fuel script n) ent st =
              .end_emulation (start_entry st) := by
          unfold process_entry
          by_cases hlen : ent.data.length = 0
          · rw [if_pos hlen]
            by_cases haddr : ent.address = 0
            · right; rw [if_pos haddr]
            · left; rw [if_neg haddr]; exact ⟨_, rfl, rfl, rfl⟩
          · left
            rw [if_neg hlen]
            obtain ⟨mid, h1, h2, h3, _, _⟩ := write_data_quiet (run_script_fuel script n)
              ent.data ent.address (start_entry st) (hq ent (List.getElem?_mem hent))
            exact ⟨mid, h1, h2, h3⟩
        rcases hpe with ⟨mid, h1, h2, h3⟩ | h1
        · rw [h1, Outcome.bind_returned] at h
          obtain ⟨g1, g2⟩ := ih mid st' h
          exact ⟨g1.trans h2, g2.trans h3⟩
        · rw [h1] at h
          simp only [Outcome.bind_end_emulation, Outcome.state?, Option.some.injEq] at h
          subst h; exact ⟨rfl, rfl⟩

theorem run_current_script_quiet (script : List ScriptEntry) (hq : NoTrapWrites script)
    (st st' : State) (h : (run_current_script script st).state? = some st') :
    st'.samples = st.samples ∧ st'.output = st.output :=
  run_script_fuel_quiet script hq _ st st' h

/-! ## The run of the CPU writes, piece by piece -/

theorem cpu_writes_append (script : List ScriptEntry) (xs ys : List (Nat × Nat)) :
    ∀ st, cpu_writes script (xs ++ ys) st =
      (cpu_writes script xs st).bind (cpu_writes script ys) := by
  induction xs with
  | nil => intro st; rfl
  | cons w ws ih =>
    intro st
    simp only [List.cons_append, cpu_writes, Outcome.bind_assoc]
    congr 1
    funext mid
    exact ih mid

theorem cpu_write_ne_out_of_fuel (script : List ScriptEntry) (w : Nat × Nat) (st : State) :
    cpu_write script w st ≠ .out_of_fuel := by
  unfold cpu_write au_ram_write sample_callback
  by_cases ha : w.1 = trap_address
  · rw [if_pos ha]; exact run_current_script_ne_out_of_fuel script _
  · rw [if_neg ha]; simp

theorem cpu_writes_ne_out_of_fuel (script : List ScriptEntry) (ws : List (Nat × Nat)) :
    ∀ st, cpu_writes script ws st ≠ .out_of_fuel := by
  induction ws with
  | nil => intro st; simp [cpu_writes]
  | cons w ws ih =>
    intro st
    exact Outcome.bind_ne_out_of_fuel (cpu_write_ne_out_of_fuel script w st) (fun mid _ => ih mid)

theorem run_from_start_ne_out_of_fuel (script : List ScriptEntry) (rom : Nat → Nat)
    (ws : List (Nat × Nat)) : run_from_start script rom ws ≠ .out_of_fuel :=
  Outcome.bind_ne_out_of_fuel (run_current_script_ne_out_of_fuel script _)
    (fun mid _ => cpu_writes_ne_out_of_fuel script ws mid)

/-- A run of CPU writes that is left by the exception is left during one
particular write, a write to the trap address, before which all writes
returned. -/
theorem cpu_writes_end_emulation_split (script : List ScriptEntry) (ws : List (Nat × Nat)) :
    ∀ (st st' : State), cpu_writes script ws st = .end_emulation st' →
      ∃ pre v post mid, ws = pre ++ (trap_address, v) :: post ∧
        cpu_writes script pre st = .returned mid ∧
        cpu_write script (trap_address, v) mid = .end_emulation st' := by
  induction ws with
  | nil => intro st st' h; simp [cpu_writes] at h
  | cons w ws ih =>
    intro st st' h
    simp only [cpu_writes] at h
    cases hw : cpu_write script w st with
    | returned mid =>
      rw [hw, Outcome.bind_returned] at h
      obtain ⟨pre, v, post, mid', e1, e2, e3⟩ := ih mid st' h
      refine ⟨w :: pre, v, post, mid', by rw [e1]; rfl, ?_, e3⟩
      simp only [cpu_writes, hw, Outcome.bind_returned]
      exact e2
    | end_emulation mid =>
      rw [hw, Outcome.bind_end_emulation] at h
      cases h
      obtain ⟨a, v⟩ := w
      have ha : a = trap_address := by
        by_contra hne
        simp [cpu_write, au_ram_write, hne] at hw
      subst ha
      exact ⟨[], v, ws, st, rfl, rfl, hw⟩
    | out_of_fuel => exact absurd hw (cpu_write_ne_out_of_fuel script w st)

theorem cpu_write_trap (script : List ScriptEntry) (v : Nat) (st : State) :
    cpu_write script (trap_address, v) st =
      run_current_script script (emit_sample v (au_ram_store trap_address v st)) := by
  simp [cpu_write, au_ram_write, sample_callback]

theorem cpu_write_other (script : List ScriptEntry) (a v : Nat) (st : State)
    (h : a ≠ trap_address) :
    cpu_write script (a, v) st = .returned (au_ram_store a v st) := by
  simp [cpu_write, au_ram_write, h]

/-- Every trap write of the CPU adds at least its own byte to the output. -/
theorem cpu_writes_output_length (script : List ScriptEntry) (ws : List (Nat × Nat)) :
    ∀ (st st' : State), cpu_writes script ws st = .returned st' →
      st.output.length + (trap_values ws).length ≤ st'.output.length := by
  induction ws with
  | nil => intro st st' h; cases h; simp [trap_values_nil]
  | cons w ws ih =>
    intro st st' h
    simp only [cpu_writes] at h
    obtain ⟨mid, hmid, hrest⟩ := Outcome.bind_eq_returned.mp h
    have h2 := ih mid st' hrest
    obtain ⟨a, v⟩ := w
    by_cases ha : a = trap_address
    · subst ha
      rw [cpu_write_trap] at hmid
      obtain ⟨l, hl⟩ := (output_grows_stepRel script).run_current_script _ mid
        (Outcome.state?_of_returned hmid)
      rw [trap_values_cons_trap]
      simp only [emit_sample_output, au_ram_store_output] at hl
      have : mid.output.length = st.output.length + 1 + l.length := by
        rw [hl]; simp; omega
      simp only [List.length_cons]
      omega
    · rw [cpu_write_other script a v st ha] at hmid
      cases hmid
      rw [trap_values_cons_other a v ws ha]
      simpa using h2

/-- Without trap writes in the script the output is the trap writes of the
CPU and nothing else. -/
theorem cpu_writes_quiet_output (script : List ScriptEntry) (hq : NoTrapWrites script)
    (ws : List (Nat × Nat)) :
    ∀ (st st' : State), cpu_writes script ws st = .returned st' →
      st'.output = st.output ++ trap_values ws := by
  induction ws with
  | nil => intro st st' h; cases h; simp [trap_values_nil]
  | cons w ws ih =>
    intro st st' h
    simp only [cpu_writes] at h
    obtain ⟨mid, hmid, hrest⟩ := Outcome.bind_eq_returned.mp h
    have h2 := ih mid st' hrest
    obtain ⟨a, v⟩ := w
    by_cases ha : a = trap_address
    · subst ha
      rw [cpu_write_trap] at hmid
      obtain ⟨_, g2⟩ := run_current_script_quiet script hq _ mid
        (Outcome.state?_of_returned hmid)
      rw [h2, g2, trap_values_cons_trap]
      simp
    · rw [cpu_write_other script a v st ha] at hmid
      cases hmid
      rw [h2, trap_values_cons_other a v ws ha]
      rfl

/-! ## The first sentinel of a sorted script -/

theorem Outcome.Sat.raised {o : Outcome} {E : State → Prop}
    (h : o.Sat (fun _ => False) E) (hne : o ≠ .out_of_fuel) :
    ∃ st', o = .end_emulation st' ∧ E st' := by
  cases o with
  | returned st => exact absurd h id
  | end_emulation st => exact ⟨st, rfl, h⟩
  | out_of_fuel => exact absurd rfl hne

theorem run_current_script_not_due (script : List ScriptEntry) (st : State) (ent : ScriptEntry)
    (hent : script[st.script_ptr]? = some ent) (h : st.samples < ent.sample_count) :
    run_current_script script st = .returned st := by
  rw [run_current_script_eq, hent]
  simp only []
  rw [if_pos h]

theorem run_current_script_at_sentinel (script : List ScriptEntry) (st : State)
    (ent : ScriptEntry) (hent : script[st.script_ptr]? = some ent)
    (hsen : ent.is_sentinel = true) (h : ent.sample_count ≤ st.samples) :
    run_current_script script st = .end_emulation (start_entry st) := by
  rw [run_current_script_eq, hent]
  simp only []
  rw [if_neg (by omega)]
  simp only [ScriptEntry.is_sentinel, Bool.and_eq_true, beq_iff_eq] at hsen
  simp [process_entry, hsen.1, hsen.2]

/-- In a sorted script an entry before index `i` is due no later than the
entry at index `i`. -/
theorem sorted_due_le (script : List ScriptEntry) (hs : ScriptSorted script) (j i : Nat)
    (a b : ScriptEntry) (hj : script[j]? = some a) (hi : script[i]? = some b) (hji : j < i) :
    a.sample_count ≤ b.sample_count := by
  obtain ⟨hj1, hj2⟩ := List.getElem?_eq_some_iff.mp hj
  obtain ⟨hi1, hi2⟩ := List.getElem?_eq_some_iff.mp hi
  have := List.pairwise_iff_getElem.mp hs j i hj1 hi1 hji
  rw [hj2, hi2] at this
  exact this

/-- Once the sample counter has reached the due sample of the first sentinel
and the cursor has not passed it, the replay is left by the exception raised
by that sentinel, provided the counter cannot wrap on the way: each entry
before the sentinel emits at most once before the nested replay raises. -/
theorem replay_raises (script : List ScriptEntry) (hs : ScriptSorted script) (i : Nat)
    (sen : ScriptEntry) (hi : script[i]? = some sen) (hsen : sen.is_sentinel = true)
    (hfirst : ∀ j ent, j < i → script[j]? = some ent → ent.is_sentinel = false) :
    ∀ (n : Nat) (st : State), i - st.script_ptr ≤ n → st.script_ptr ≤ i →
      sen.sample_count ≤ st.samples → st.samples + (i - st.script_ptr) < 2 ^ 32 →
      (run_current_script script st).Sat (fun _ => False)
        (fun st' => st'.script_ptr = i + 1) := by
  intro n
  induction n with
  | zero =>
    intro st hn hle hdue _
    have hpi : st.script_ptr = i := by omega
    rw [run_current_script_at_sentinel script st sen (by rw [hpi]; exact hi) hsen hdue]
    simp [hpi]
  | succ n ih =>
    intro st hn hle hdue hwrap
    by_cases hpi : st.script_ptr = i
    · rw [run_current_script_at_sentinel script st sen (by rw [hpi]; exact hi) hsen hdue]
      simp [hpi]
    · have hlt : st.script_ptr < i := by omega
      have hilen := (List.getElem?_eq_some_iff.mp hi).1
      have hent : script[st.script_ptr]? = some script[st.script_ptr] :=
        List.getElem?_eq_getElem (by omega)
      generalize script[st.script_ptr] = ent at hent
      have hd : ent.sample_count ≤ sen.sample_count :=
        sorted_due_le script hs _ i ent sen hent hi hlt
      have hns : ent.is_sentinel = false := hfirst _ ent hlt hent
      rw [run_current_script_eq, hent]
      simp only []
      rw [if_neg (by omega)]
      have hp := triple_process_entry (run_current_script script)
        (I := fun s => s.script_ptr = st.script_ptr + 1 ∧ s.samples = st.samples)
        (E := fun st' => st'.script_ptr = i + 1)
        (fun _ _ _ h => h)
        (fun v s hI => by
          have := ih (emit_sample v s) (by simp [hI.1]; omega) (by simp [hI.1]; omega)
            (by
              simp only [emit_sample_samples, hI.2]
              rw [Nat.mod_eq_of_lt (by omega)]
              omega)
            (by
              simp only [emit_sample_samples, emit_sample_script_ptr, hI.1, hI.2]
              rw [Nat.mod_eq_of_lt (by omega)]
              omega)
          exact this.mono (fun _ h => absurd h id) (fun _ h => h))
        ent st ⟨rfl, rfl⟩ (fun h => by rw [hns] at h; cases h)
      exact hp.andThen (fun mid hmid =>
        ih mid (by rw [hmid.1]; omega) (by rw [hmid.1]; omega) (by rw [hmid.2]; exact hdue)
          (by rw [hmid.1, hmid.2]; omega))

/-- While the sample counter is below the due sample `D` of the first
sentinel, the replay either returns with the counter still below `D` and the
cursor not past the sentinel, or is left by the exception raised by that
sentinel after at least `D` bytes were emitted. -/
theorem replay_below (script : List ScriptEntry) (hs : ScriptSorted script) (i : Nat)
    (sen : ScriptEntry) (hi : script[i]? = some sen) (hsen : sen.is_sentinel = true)
    (hfirst : ∀ j ent, j < i → script[j]? = some ent → ent.is_sentinel = false)
    (hwrap : sen.sample_count + i < 2 ^ 32) :
    ∀ (n : Nat) (st : State), i - st.script_ptr ≤ n → st.script_ptr ≤ i →
      st.samples < sen.sample_count → st.output.length = st.samples →
      (run_current_script script st).Sat
        (fun st' => st.script_ptr ≤ st'.script_ptr ∧ st'.script_ptr ≤ i ∧
          st'.samples < sen.sample_count ∧ st'.output.length = st'.samples)
        (fun st' => st'.script_ptr = i + 1 ∧ sen.sample_count ≤ st'.output.length) := by
  -- what the replay does right after an emission, given the claim for later cursors
  have hemit : ∀ (n : Nat),
      (∀ st : State, i - st.script_ptr ≤ n → st.script_ptr ≤ i →
        st.samples < sen.sample_count → st.output.length = st.samples →
        (run_current_script script st).Sat
          (fun st' => st.script_ptr ≤ st'.script_ptr ∧ st'.script_ptr ≤ i ∧
            st'.samples < sen.sample_count ∧ st'.output.length = st'.samples)
          (fun st' => st'.script_ptr = i + 1 ∧ sen.sample_count ≤ st'.output.length)) →
      ∀ (v : Nat) (s : State), i - s.script_ptr ≤ n → s.script_ptr ≤ i →
        s.samples < sen.sample_count → s.output.length = s.samples →
        (run_current_script script (emit_sample v s)).Sat
          (fun st' => s.script_ptr ≤ st'.script_ptr ∧ st'.script_ptr ≤ i ∧
            st'.samples < sen.sample_count ∧ st'.output.length = st'.samples)
          (fun st' => st'.script_ptr = i + 1 ∧ sen.sample_count ≤ st'.output.length) := by
    intro n ih v s hn hle hlt hout
    have hs1 : (emit_sample v s).samples = s.samples + 1 := by
      simp only [emit_sample_samples]
      exact Nat.mod_eq_of_lt (by omega)
    by_cases hD : s.samples + 1 < sen.sample_count
    · exact ih (emit_sample v s) hn hle (by rw [hs1]; exact hD)
        (by rw [hs1]; simp [hout])
    · obtain ⟨st', h1, h2⟩ := (replay_raises script hs i sen hi hsen hfirst
        (i - s.script_ptr) (emit_sample v s) (Nat.le_refl _) hle (by rw [hs1]; omega)
        (by rw [hs1]; simp only [emit_sample_script_ptr]; omega)).raised
        (run_current_script_ne_out_of_fuel script _)
      obtain ⟨l, hl⟩ := (output_grows_stepRel script).run_current_script _ st'
        (Outcome.state?_of_end_emulation h1)
      rw [h1]
      refine ⟨h2, ?_⟩
      rw [hl]
      simp only [emit_sample_output, List.length_append, List.length_singleton]
      omega
  intro n
  induction n with
  | zero =>
    intro st hn hle hlt hout
    have hpi : st.script_ptr = i := by omega
    rw [run_current_script_not_due script st sen (by rw [hpi]; exact hi) hlt]
    exact ⟨Nat.le_refl _, hle, hlt, hout⟩
  | succ n ih =>
    intro st hn hle hlt hout
    rw [run_current_script_eq]
    cases hent : script[st.script_ptr]? with
    | none => exact ⟨Nat.le_refl _, hle, hlt, hout⟩
    | some ent =>
      simp only []
      by_cases hdue : ent.sample_count > st.samples
      · rw [if_pos hdue]
        exact ⟨Nat.le_refl _, hle, hlt, hout⟩
      · rw [if_neg hdue]
        have hpi : st.script_ptr ≠ i := by
          intro hpi
          rw [hpi, hi] at hent
          cases hent
          omega
        have hns : ent.is_sentinel = false := hfirst _ ent (by omega) hent
        have hp := triple_process_entry (run_current_script script)
          (I := fun s => st.script_ptr + 1 ≤ s.script_ptr ∧ s.script_ptr ≤ i ∧
            s.samples < sen.sample_count ∧ s.output.length = s.samples)
          (E := fun st' => st'.script_ptr = i + 1 ∧ sen.sample_count ≤ st'.output.length)
          (fun _ _ _ h => h)
          (fun v s hI =>
            (hemit n ih v s (by omega) hI.2.1 hI.2.2.1 hI.2.2.2).mono
              (fun _ h => ⟨Nat.le_trans hI.1 h.1, h.2⟩) (fun _ h => h))
          ent st ⟨Nat.le_refl _, by simp; omega, hlt, hout⟩
          (fun h => by rw [hns] at h; cases h)
        exact hp.andThen (fun mid hmid =>
          (ih mid (by omega) hmid.2.1 hmid.2.2.1 hmid.2.2.2).mono
            (fun _ h => ⟨by omega, h.2⟩) (fun _ h => h))

/-- The replay entered right after an emission that leaves the counter at
most at `D`: it returns with the counter below `D`, or the first sentinel
raises the signal. -/
theorem replay_after_emit (script : List ScriptEntry) (hs : ScriptSorted script) (i : Nat)
    (sen : ScriptEntry) (hi : script[i]? = some sen) (hsen : sen.is_sentinel = true)
    (hfirst : ∀ j ent, j < i → script[j]? = some ent → ent.is_sentinel = false)
    (hwrap : sen.sample_count + i < 2 ^ 32) (v : Nat) (s : State)
    (hle : s.script_ptr ≤ i) (hlt : s.samples < sen.sample_count)
    (hout : s.output.length = s.samples) :
    (run_current_script script (emit_sample v s)).Sat
      (fun st' => st'.script_ptr ≤ i ∧ st'.samples < sen.sample_count ∧
        st'.output.length = st'.samples)
      (fun st' => st'.script_ptr = i + 1 ∧ sen.sample_count ≤ st'.output.length) := by
  have hs1 : (emit_sample v s).samples = s.samples + 1 := by
    simp only [emit_sample_samples]
    exact Nat.mod_eq_of_lt (by omega)
  by_cases hD : s.samples + 1 < sen.sample_count
  · exact (replay_below script hs i sen hi hsen hfirst hwrap (i - s.script_ptr)
      (emit_sample v s) (Nat.le_refl _) hle (by rw [hs1]; exact hD)
      (by rw [hs1]; simp [hout])).mono (fun _ h => h.2) (fun _ h => h)
  · obtain ⟨st', h1, h2⟩ := (replay_raises script hs i sen hi hsen hfirst
      (i - s.script_ptr) (emit_sample v s) (Nat.le_refl _) hle (by rw [hs1]; omega)
      (by rw [hs1]; simp only [emit_sample_script_ptr]; omega)).raised
      (run_current_script_ne_out_of_fuel script _)
    obtain ⟨l, hl⟩ := (output_grows_stepRel script).run_current_script _ st'
      (Outcome.state?_of_end_emulation h1)
    rw [h1]
    refine ⟨h2, ?_⟩
    rw [hl]
    simp only [emit_sample_output, List.length_append, List.length_singleton]
    omega

/-! ## The state at the throw -/

theorem run_current_script_raised (script : List ScriptEntry) (st st' : State)
    (h : run_current_script script st = .end_emulation st') : RaisedBySentinel script st' := by
  have := triple_run_current_script script (I := fun _ => True)
    (E := RaisedBySentinel script)
    (fun _ _ _ _ => trivial) (fun _ _ _ => trivial) (fun _ _ _ _ _ => trivial)
    (fun s ent _ hent hdue hsen => ⟨s.script_ptr, ent, rfl, hent, hsen, hdue⟩) st trivial
  rw [h] at this
  exact this

theorem cpu_write_raised (script : List ScriptEntry) (w : Nat × Nat) (st st' : State)
    (h : cpu_write script w st = .end_emulation st') : RaisedBySentinel script st' := by
  unfold cpu_write au_ram_write sample_callback at h
  by_cases ha : w.1 = trap_address
  · rw [if_pos ha] at h
    exact run_current_script_raised script _ st' h
  · rw [if_neg ha] at h
    cases h

theorem run_from_start_raised (script : List ScriptEntry) (rom : Nat → Nat)
    (ws : List (Nat × Nat)) (st' : State)
    (h : run_from_start script rom ws = .end_emulation st') : RaisedBySentinel script st' := by
  unfold run_from_start at h
  cases hp : run_current_script script (initial_state rom) with
  | returned mid =>
    rw [hp, Outcome.bind_returned] at h
    obtain ⟨pre, v, post, mid', _, _, e3⟩ := cpu_writes_end_emulation_split script ws mid st' h
    exact cpu_write_raised script _ mid' st' e3
  | end_emulation mid =>
    rw [hp, Outcome.bind_end_emulation] at h
    cases h
    exact run_current_script_raised script _ _ hp
  | out_of_fuel => rw [hp] at h; cases h

theorem raised_due_le (script : List ScriptEntry) (st' : State) (i : Nat) (sen : ScriptEntry)
    (hi : script[i]? = some sen) (hr : RaisedBySentinel script st')
    (hp : st'.script_ptr = i + 1) : sen.sample_count ≤ st'.samples := by
  obtain ⟨j, ent, h1, h2, _, h4⟩ := hr
  have : j = i := by omega
  subst this
  rw [hi] at h2
  cases h2
  exact h4

/-! ## C3 and C4: when the sentinel fires -/

/-- One CPU write from a state in which fewer than `D` samples were emitted
and the first sentinel is still ahead: it returns to such a state, or the
sentinel raises the signal with at least `D` samples emitted, exactly `D` when
no script entry writes to the trap address. -/
theorem cpu_write_before_due (script : List ScriptEntry) (hs : ScriptSorted script) (i : Nat)
    (sen : ScriptEntry) (hi : script[i]? = some sen) (hsen : sen.is_sentinel = true)
    (hfirst : ∀ j ent, j < i → script[j]? = some ent → ent.is_sentinel = false)
    (hwrap : sen.sample_count + i < 2 ^ 32) (w : Nat × Nat) (st : State)
    (hle : st.script_ptr ≤ i) (hlt : st.samples < sen.sample_count)
    (hout : st.output.length = st.samples) :
    (cpu_write script w st).Sat
      (fun st' => st'.script_ptr ≤ i ∧ st'.samples < sen.sample_count ∧
        st'.output.length = st'.samples)
      (fun st' => st'.script_ptr = i + 1 ∧ sen.sample_count ≤ st'.output.length ∧
        (NoTrapWrites script →
          st'.samples = sen.sample_count ∧ st'.output.length = sen.sample_count)) := by
  obtain ⟨a, v⟩ := w
  by_cases ha : a = trap_address
  · subst ha
    have h0 := replay_after_emit script hs i sen hi hsen hfirst hwrap v
      (au_ram_store trap_address v st) hle hlt hout
    rw [cpu_write_trap]
    cases hr : run_current_script script (emit_sample v (au_ram_store trap_address v st)) with
    | returned st' => rw [hr] at h0; exact h0
    | end_emulation st' =>
      rw [hr] at h0
      refine ⟨h0.1, h0.2, fun hq => ?_⟩
      obtain ⟨g1, g2⟩ := run_current_script_quiet script hq _ st'
        (Outcome.state?_of_end_emulation hr)
      have hge := raised_due_le script st' i sen hi
        (run_current_script_raised script _ st' hr) h0.1
      have hs1 : st'.samples = st.samples + 1 := by
        rw [g1]
        simp only [emit_sample_samples, au_ram_store_samples]
        exact Nat.mod_eq_of_lt (by omega)
      have hl : st'.output.length = st.samples + 1 := by
        rw [g2]; simp [hout]
      omega
    | out_of_fuel => trivial
  · rw [cpu_write_other script a v st ha]
    exact ⟨hle, hlt, hout⟩

theorem cpu_writes_before_due (script : List ScriptEntry) (hs : ScriptSorted script) (i : Nat)
    (sen : ScriptEntry) (hi : script[i]? = some sen) (hsen : sen.is_sentinel = true)
    (hfirst : ∀ j ent, j < i → script[j]? = some ent → ent.is_sentinel = false)
    (hwrap : sen.sample_count + i < 2 ^ 32) (ws : List (Nat × Nat)) :
    ∀ st : State, st.script_ptr ≤ i → st.samples < sen.sample_count →
      st.output.length = st.samples →
      (cpu_writes script ws st).Sat
        (fun st' => st'.script_ptr ≤ i ∧ st'.samples < sen.sample_count ∧
          st'.output.length = st'.samples)
        (fun st' => st'.script_ptr = i + 1 ∧ sen.sample_count ≤ st'.output.length ∧
          (NoTrapWrites script →
            st'.samples = sen.sample_count ∧ st'.output.length = sen.sample_count)) := by
  induction ws with
  | nil => intro st hle hlt hout; exact ⟨hle, hlt, hout⟩
  | cons w ws ih =>
    intro st hle hlt hout
    exact (cpu_write_before_due script hs i sen hi hsen hfirst hwrap w st hle hlt hout).andThen
      (fun mid hmid => ih mid hmid.1 hmid.2.1 hmid.2.2)

/-- The whole run from startup, for the first sentinel of a sorted script
when the counter cannot wrap before it is reached. -/
theorem run_from_start_first_sentinel (script : List ScriptEntry) (hs : ScriptSorted script)
    (i : Nat) (sen : ScriptEntry) (hi : script[i]? = some sen) (hsen : sen.is_sentinel = true)
    (hfirst : ∀ j ent, j < i → script[j]? = some ent → ent.is_sentinel = false)
    (hwrap : sen.sample_count + i < 2 ^ 32) (rom : Nat → Nat) (ws : List (Nat × Nat)) :
    (run_from_start script rom ws).Sat
      (fun st' => st'.script_ptr ≤ i ∧ st'.samples < sen.sample_count ∧
        st'.output.length = st'.samples)
      (fun st' => st'.script_ptr = i + 1 ∧ sen.sample_count ≤ st'.output.length ∧
        (NoTrapWrites script →
          st'.samples = sen.sample_count ∧ st'.output.length = sen.sample_count)) := by
  unfold run_from_start
  by_cases hD : sen.sample_count = 0
  · obtain ⟨st', h1, h2⟩ := (replay_raises script hs i sen hi hsen hfirst i
      (initial_state rom) (by simp [initial_state]) (by simp [initial_state])
      (by simp [initial_state, hD]) (by simp [initial_state]; omega)).raised
      (run_current_script_ne_out_of_fuel script _)
    rw [h1]
    refine ⟨h2, by omega, fun hq => ?_⟩
    obtain ⟨g1, g2⟩ := run_current_script_quiet script hq _ st'
      (Outcome.state?_of_end_emulation h1)
    rw [g1, g2, hD]
    exact ⟨rfl, rfl⟩
  · have h0 := replay_below script hs i sen hi hsen hfirst hwrap i (initial_state rom)
      (by simp [initial_state]) (by simp [initial_state])
      (by simp [initial_state]; omega) (by simp [initial_state])
    cases hr : run_current_script script (initial_state rom) with
    | returned mid =>
      rw [hr] at h0
      exact cpu_writes_before_due script hs i sen hi hsen hfirst hwrap ws mid
        h0.2.1 h0.2.2.1 h0.2.2.2
    | end_emulation st' =>
      rw [hr] at h0
      refine ⟨h0.1, h0.2, fun hq => ?_⟩
      obtain ⟨g1, g2⟩ := run_current_script_quiet script hq _ st'
        (Outcome.state?_of_end_emulation hr)
      have hge := raised_due_le script st' i sen hi
        (run_current_script_raised script _ st' hr) h0.1
      rw [g1] at hge
      simp [initial_state] at hge
      exact absurd hge hD
    | out_of_fuel => trivial

theorem run_from_start_output_length (script : List ScriptEntry) (rom : Nat → Nat)
    (ws : List (Nat × Nat)) (st' : State) (h : run_from_start script rom ws = .returned st') :
    (trap_values ws).length ≤ st'.output.length := by
  unfold run_from_start at h
  obtain ⟨mid, _, hrest⟩ := Outcome.bind_eq_returned.mp h
  have := cpu_writes_output_length script ws mid st' hrest
  omega

/-- A run from startup that is left by the exception is left during the
pre-flush or during one trap write of the CPU, before which every write
returned. -/
theorem run_from_start_end_emulation_split (script : List ScriptEntry) (rom : Nat → Nat)
    (ws : List (Nat × Nat)) (st' : State)
    (h : run_from_start script rom ws = .end_emulation st') :
    run_current_script script (initial_state rom) = .end_emulation st' ∨
      ∃ pre v post mid, ws = pre ++ (trap_address, v) :: post ∧
        run_from_start script rom pre = .returned mid ∧
        cpu_write script (trap_address, v) mid = .end_emulation st' := by
  unfold run_from_start at h
  cases hp : run_current_script script (initial_state rom) with
  | returned mid0 =>
    right
    rw [hp, Outcome.bind_returned] at h
    obtain ⟨pre, v, post, mid, e1, e2, e3⟩ := cpu_writes_end_emulation_split script ws mid0 st' h
    refine ⟨pre, v, post, mid, e1, ?_, e3⟩
    unfold run_from_start
    rw [hp, Outcome.bind_returned]
    exact e2
  | end_emulation mid0 =>
    left
    rw [hp, Outcome.bind_end_emulation] at h
    exact h
  | out_of_fuel => rw [hp] at h; cases h

theorem first_sentinel_of_take (script : List ScriptEntry) (i : Nat)
    (h : ∀ ent ∈ script.take i, ent.is_sentinel = false) :
    ∀ j ent, j < i → script[j]? = some ent → ent.is_sentinel = false := by
  intro j ent hj hent
  apply h
  apply List.getElem?_mem (n := j)
  rw [List.getElem?_take_of_lt hj]
  exact hent

/-- C3 (as amended): in a sorted script with the sentinel `{D, 0, []}` at
index `i`, the signal is never raised by that entry in a state with
`samples < D`.  When no sentinel stands before it and the 32-bit counter
cannot wrap before it is reached (`D + i < 2^32`): a run that returns has
emitted fewer than `D` samples, so a run with at least `D` trap writes raises
the signal; the signal is raised by that sentinel, during the pre-flush or
during the CPU write before which fewer than `D` samples had been emitted and
after which at least `D` have; and when no script entry writes to the trap
address the sample count at the throw is exactly `D`. -/
theorem sentinel_fires_when_due (script : List ScriptEntry) (hs : ScriptSorted script)
    (i D : Nat) (hi : script[i]? = some ⟨D, 0, []⟩) (rom : Nat → Nat)
    (ws : List (Nat × Nat)) :
    (∀ st', run_from_start script rom ws = .end_emulation st' →
      st'.script_ptr = i + 1 → D ≤ st'.samples) ∧
    ((∀ ent ∈ script.take i, ent.is_sentinel = false) → D + i < 2 ^ 32 →
      (∀ st', run_from_start script rom ws = .returned st' →
        st'.output.length < D ∧ (trap_values ws).length < D) ∧
      (D ≤ (trap_values ws).length →
        ∃ st', run_from_start script rom ws = .end_emulation st') ∧
      (∀ st', run_from_start script rom ws = .end_emulation st' →
        st'.script_ptr = i + 1 ∧ D ≤ st'.samples ∧ D ≤ st'.output.length ∧
        (NoTrapWrites script → st'.samples = D ∧ st'.output.length = D) ∧
        (run_current_script script (initial_state rom) = .end_emulation st' ∨
          ∃ pre v post mid, ws = pre ++ (trap_address, v) :: post ∧
            run_from_start script rom pre = .returned mid ∧ mid.output.length < D ∧
            cpu_write script (trap_address, v) mid = .end_emulation st'))) := by
  refine ⟨fun st' h hp =>
    raised_due_le script st' i _ hi (run_from_start_raised script rom ws st' h) hp, ?_⟩
  intro hfirst' hwrap
  have hfirst := first_sentinel_of_take script i hfirst'
  have hsat := fun ws' =>
    run_from_start_first_sentinel script hs i _ hi rfl hfirst hwrap rom ws'
  have hret : ∀ ws' st', run_from_start script rom ws' = .returned st' →
      st'.output.length < D ∧ (trap_values ws').length < D := by
    intro ws' st' h
    have h1 := hsat ws'
    rw [h] at h1
    have h2 := run_from_start_output_length script rom ws' st' h
    have h3 : st'.output.length < D := by
      have := h1.2.1
      have := h1.2.2
      simp only [] at *
      omega
    exact ⟨h3, by omega⟩
  refine ⟨hret ws, ?_, ?_⟩
  · intro hD
    cases hr : run_from_start script rom ws with
    | returned st' =>
      have := (hret ws st' hr).2
      omega
    | end_emulation st' => exact ⟨st', rfl⟩
    | out_of_fuel => exact absurd hr (run_from_start_ne_out_of_fuel script rom ws)
  · intro st' h
    have h1 := hsat ws
    rw [h] at h1
    have hge := raised_due_le script st' i _ hi (run_from_start_raised script rom ws st' h) h1.1
    refine ⟨h1.1, hge, h1.2.1, h1.2.2, ?_⟩
    rcases run_from_start_end_emulation_split script rom ws st' h with h2 | h2
    · exact Or.inl h2
    · obtain ⟨pre, v, post, mid, e1, e2, e3⟩ := h2
      exact Or.inr ⟨pre, v, post, mid, e1, e2, (hret pre mid e2).1, e3⟩

/-- C3 at a concrete input: a sorted script whose second entry is the
sentinel due at sample 2, and four CPU writes of which the third is the second
trap write. -/
theorem sentinel_fires_when_due_witness :
    ScriptSorted [⟨1, 5, [9]⟩, ⟨2, 0, []⟩] ∧
    (run_from_start [⟨1, 5, [9]⟩, ⟨2, 0, []⟩] (fun _ => 0)
      [(0x8000, 7), (3, 1), (0x8000, 8), (0x8000, 9)]).output = some [7, 8] ∧
    (2 ≤ (trap_values [(0x8000, 7), (3, 1), (0x8000, 8), (0x8000, 9)]).length →
      ∃ st', run_from_start [⟨1, 5, [9]⟩, ⟨2, 0, []⟩] (fun _ => 0)
        [(0x8000, 7), (3, 1), (0x8000, 8), (0x8000, 9)] = .end_emulation st') :=
  ⟨by decide, by decide,
   ((sentinel_fires_when_due [⟨1, 5, [9]⟩, ⟨2, 0, []⟩] (by decide) 1 2 (by decide)
      (fun _ => 0) [(0x8000, 7), (3, 1), (0x8000, 8), (0x8000, 9)]).2
      (by decide) (by decide)).2.1⟩

/-! ### Where the unamended C3 fails -/

theorem wrap_script_quiet_prefix (v : Nat) :
    ∀ (n : Nat) (st : State), st.script_ptr = 0 → st.samples + n < 4294967295 →
      ∃ st', cpu_writes wrap_script (List.replicate n (trap_address, v)) st = .returned st' ∧
        st'.script_ptr = 0 ∧ st'.samples = st.samples + n ∧
        st'.output.length = st.output.length + n := by
  intro n
  induction n with
  | zero => intro st hp _; exact ⟨st, rfl, hp, rfl, rfl⟩
  | succ n ih =>
    intro st hp hlt
    have hs1 : (emit_sample v (au_ram_store trap_address v st)).samples = st.samples + 1 := by
      simp only [emit_sample_samples, au_ram_store_samples]
      exact Nat.mod_eq_of_lt (by omega)
    have hstep : cpu_write wrap_script (trap_address, v) st =
        .returned (emit_sample v (au_ram_store trap_address v st)) := by
      rw [cpu_write_trap]
      apply run_current_script_not_due wrap_script _ ⟨4294967295, 0x8000, [7]⟩
      · simp [hp, wrap_script]
      · rw [hs1]; simp only []; omega
    obtain ⟨st', h1, h2, h3, h4⟩ := ih (emit_sample v (au_ram_store trap_address v st))
      (by simpa using hp) (by rw [hs1]; omega)
    refine ⟨st', ?_, h2, by rw [h3, hs1]; omega, by rw [h4]; simp; omega⟩
    rw [List.replicate_succ]
    simp only [cpu_writes, hstep, Outcome.bind_returned]
    exact h1

/-- The trap write that brings the counter to `2^32 - 1` under `wrap_script`:
the first entry is due and emits once more, the counter wraps to 0, and the
sentinel, due at `2^32 - 1`, is not reached. -/
theorem wrap_script_last_write (v : Nat) (st : State) (hp : st.script_ptr = 0)
    (hs : st.samples = 4294967294) :
    ∃ st', cpu_write wrap_script (trap_address, v) st = .returned st' ∧
      st'.script_ptr = 1 ∧ st'.samples = 0 ∧ st'.output.length = st.output.length + 2 := by
  have e1 : (emit_sample v (au_ram_store trap_address v st)).samples = 4294967295 := by
    simp [hs]
  have hquiet : ∀ s : State, s.script_ptr = 1 → s.samples = 0 →
      run_current_script wrap_script s = .returned s := by
    intro s h1 h2
    apply run_current_script_not_due wrap_script s ⟨4294967295, 0, []⟩
    · simp [h1, wrap_script]
    · rw [h2]; simp only []; omega
  refine ⟨emit_sample 7 (au_ram_store 0x8000 7
    (start_entry (emit_sample v (au_ram_store trap_address v st)))), ?_, ?_, ?_, ?_⟩
  · rw [cpu_write_trap, run_current_script_eq]
    have hent : wrap_script[(emit_sample v (au_ram_store trap_address v st)).script_ptr]? =
        some ⟨4294967295, 0x8000, [7]⟩ := by simp [hp, wrap_script]
    rw [hent]
    simp only []
    rw [if_neg (by rw [e1]; omega)]
    have hq := hquiet (emit_sample 7 (au_ram_store 0x8000 7
      (start_entry (emit_sample v (au_ram_store trap_address v st)))))
      (by simp [hp]) (by simp [hs])
    simp only [trap_address] at hq
    simp only [process_entry, write_data, au_ram_write, sample_callback, trap_address,
      List.length_singleton, Nat.succ_ne_zero, if_false, if_true, hq, Outcome.bind_returned]
  · simp [hp]
  · simp [hs]
  · simp

/-- C3 fails as stated in two ways.  With two sentinels the later one never
raises the signal: in the first script the sample count reaches 2 during the
pre-flush, and the signal is raised then, but by the entry at index 2, not by
the sentinel `{2, 0, []}` at index 3.  And the 32-bit counter can wrap past a
sentinel: under `wrap_script`, `2^32 - 1` trap writes bring the sample count to
`D = 2^32 - 1`, yet the run returns without the signal, the cursor still on
the sentinel and the counter at 0. -/
theorem sentinel_missed :
    (ScriptSorted [⟨0, 0x8000, [1]⟩, ⟨0, 0x7fff, [5, 6]⟩, ⟨1, 0, []⟩, ⟨2, 0, []⟩] ∧
      [(⟨0, 0x8000, [1]⟩ : ScriptEntry), ⟨0, 0x7fff, [5, 6]⟩, ⟨1, 0, []⟩, ⟨2, 0, []⟩][3]?
        = some ⟨2, 0, []⟩ ∧
      ∃ st', run_from_start
          [⟨0, 0x8000, [1]⟩, ⟨0, 0x7fff, [5, 6]⟩, ⟨1, 0, []⟩, ⟨2, 0, []⟩] (fun _ => 0) []
            = .end_emulation st' ∧
        st'.script_ptr = 3 ∧ st'.samples = 2 ∧ st'.output = [1, 6]) ∧
    (ScriptSorted wrap_script ∧ wrap_script[1]? = some ⟨4294967295, 0, []⟩ ∧
      (trap_values (List.replicate 4294967295 (trap_address, 0))).length = 4294967295 ∧
      ∃ st', run_from_start wrap_script (fun _ => 0)
          (List.replicate 4294967295 (trap_address, 0)) = .returned st' ∧
        st'.script_ptr = 1 ∧ st'.samples = 0 ∧ st'.output.length = 4294967296) := by
  refine ⟨⟨by decide, by decide, _, rfl, rfl, rfl, rfl⟩, by decide, by decide, ?_, ?_⟩
  · rw [trap_values_replicate, List.length_replicate]
  · have h0 : run_current_script wrap_script (initial_state (fun _ => 0)) =
        .returned (initial_state (fun _ => 0)) := by
      apply run_current_script_not_due wrap_script _ ⟨4294967295, 0x8000, [7]⟩
      · simp [initial_state, wrap_script]
      · simp [initial_state]
    obtain ⟨mid, g1, g2, g3, g4⟩ := wrap_script_quiet_prefix 0 4294967294
      (initial_state (fun _ => 0)) rfl (by simp [initial_state])
    obtain ⟨st', f1, f2, f3, f4⟩ := wrap_script_last_write 0 mid g2
      (by rw [g3]; simp [initial_state])
    refine ⟨st', ?_, f2, f3, by rw [f4, g4]; simp [initial_state]⟩
    have hsplit : List.replicate 4294967295 (trap_address, 0) =
        List.replicate 4294967294 (trap_address, 0) ++ [(trap_address, 0)] :=
      List.replicate_succ' 4294967294 (trap_address, 0)
    unfold run_from_start
    rw [h0, Outcome.bind_returned, hsplit, cpu_writes_append, g1, Outcome.bind_returned]
    simp only [cpu_writes, f1, Outcome.bind_returned]

/-! ### C4: a script that is one sentinel -/

theorem single_sentinel_quiet (D : Nat) : NoTrapWrites [⟨D, 0, []⟩] := by
  intro ent hent
  rw [List.mem_singleton] at hent
  subst hent
  simp [write_addresses]

/-- C4: with the script `[{D, 0, []}]`, `1 <= D < 2^32`, and CPU writes of
which at least `D` go to `0x8000`, every write before the `D`-th trap write
returns, the `D`-th trap write raises the termination signal, and at that
moment the output is exactly the values of the first `D` trap writes, in
order, and the sample count is `D`. -/
theorem single_sentinel_stops_at_due (D : Nat) (hD : 1 ≤ D) (hD32 : D < 2 ^ 32)
    (rom : Nat → Nat) (ws : List (Nat × Nat)) (hws : D ≤ (trap_values ws).length) :
    ∃ pre v post mid st', ws = pre ++ (trap_address, v) :: post ∧
      (trap_values pre).length + 1 = D ∧
      run_from_start [⟨D, 0, []⟩] rom pre = .returned mid ∧
      cpu_write [⟨D, 0, []⟩] (trap_address, v) mid = .end_emulation st' ∧
      run_from_start [⟨D, 0, []⟩] rom ws = .end_emulation st' ∧
      st'.output = (trap_values ws).take D ∧ st'.output.length = D ∧ st'.samples = D := by
  have hq := single_sentinel_quiet D
  have hsat := run_from_start_first_sentinel [⟨D, 0, []⟩] (List.pairwise_singleton _ _) 0
    ⟨D, 0, []⟩ rfl rfl (fun j _ hj _ => absurd hj (Nat.not_lt_zero j)) (by simpa using hD32)
    rom ws
  cases hr : run_from_start [⟨D, 0, []⟩] rom ws with
  | returned st' =>
    rw [hr] at hsat
    have h2 := run_from_start_output_length _ rom ws st' hr
    have := hsat.2.1
    have := hsat.2.2
    simp only [] at *
    omega
  | out_of_fuel => exact absurd hr (run_from_start_ne_out_of_fuel _ rom ws)
  | end_emulation st' =>
    rw [hr] at hsat
    obtain ⟨hsam, hlen⟩ := hsat.2.2 hq
    simp only [] at hlen hsam
    have h0 : run_current_script [⟨D, 0, []⟩] (initial_state rom) =
        .returned (initial_state rom) := by
      apply run_current_script_not_due _ _ ⟨D, 0, []⟩
      · simp [initial_state]
      · simp only [initial_state]; omega
    rcases run_from_start_end_emulation_split _ rom ws st' hr with h1 | h1
    · rw [h0] at h1; cases h1
    · obtain ⟨pre, v, post, mid, e1, e2, e3⟩ := h1
      have hmid : mid.output = trap_values pre := by
        unfold run_from_start at e2
        rw [h0, Outcome.bind_returned] at e2
        have := cpu_writes_quiet_output _ hq pre (initial_state rom) mid e2
        simpa [initial_state] using this
      have hout : st'.output = trap_values pre ++ [v] := by
        have e3' := e3
        rw [cpu_write_trap] at e3'
        obtain ⟨_, g2⟩ := run_current_script_quiet _ hq _ st'
          (Outcome.state?_of_end_emulation e3')
        rw [g2]
        simp [hmid]
      have hpre : (trap_values pre).length + 1 = D := by
        rw [← hlen, hout]; simp
      refine ⟨pre, v, post, mid, st', e1, hpre, e2, e3, rfl, ?_, hlen, hsam⟩
      rw [hout, e1, trap_values_append, trap_values_cons_trap]
      have : trap_values pre ++ v :: trap_values post =
          (trap_values pre ++ [v]) ++ trap_values post := by simp
      rw [this, List.take_left' (by simpa using hpre)]

/-- C4 at the specification's own case `D = 5`: six trap writes among other
writes; the run stops in the fifth with the first five values as output. -/
theorem single_sentinel_stops_at_due_witness :
    (run_from_start [⟨5, 0, []⟩] (fun _ => 0)
      [(0x8000, 1), (0x8000, 2), (7, 0), (0x8000, 3), (0x8000, 4), (0x8000, 5), (0x8000, 6)]
      ).output = some [1, 2, 3, 4, 5] ∧
    ∃ pre v post mid st',
      [(0x8000, 1), (0x8000, 2), (7, 0), (0x8000, 3), (0x8000, 4), (0x8000, 5), (0x8000, 6)]
        = pre ++ (trap_address, v) :: post ∧
      (trap_values pre).length + 1 = 5 ∧
      run_from_start [⟨5, 0, []⟩] (fun _ => 0) pre = .returned mid ∧
      cpu_write [⟨5, 0, []⟩] (trap_address, v) mid = .end_emulation st' ∧
      run_from_start [⟨5, 0, []⟩] (fun _ => 0)
        [(0x8000, 1), (0x8000, 2), (7, 0), (0x8000, 3), (0x8000, 4), (0x8000, 5), (0x8000, 6)]
        = .end_emulation st' ∧
      st'.output = (trap_values
        [(0x8000, 1), (0x8000, 2), (7, 0), (0x8000, 3), (0x8000, 4), (0x8000, 5), (0x8000, 6)]
        ).take 5 ∧ st'.output.length = 5 ∧ st'.samples = 5 :=
  ⟨by decide,
   single_sentinel_stops_at_due 5 (by decide) (by decide) (fun _ => 0)
     [(0x8000, 1), (0x8000, 2), (7, 0), (0x8000, 3), (0x8000, 4), (0x8000, 5), (0x8000, 6)]
     (by decide)⟩

/-! ## C9: parsing a script line -/

theorem digits_value_eq_foldl (base : Nat) (ds : List Char)
    (hds : ∀ c ∈ ds, is_digit base c = true) :
    ∀ acc, digits_value base acc ds =
      ds.foldl (fun acc c => acc * base + (digit_value c).getD 0) acc := by
  induction ds with
  | nil => intro acc; rfl
  | cons c cs ih =>
    intro acc
    have hc := hds c (List.mem_cons_self _ _)
    unfold is_digit at hc
    cases hd : digit_value c with
    | none => simp [hd] at hc
    | some d =>
      simp only [hd, decide_eq_true_eq] at hc
      simp only [digits_value, hd, hc, if_true, List.foldl_cons, Option.getD_some]
      exact ih (fun c' hc' => hds c' (List.mem_cons_of_mem _ hc')) _

theorem digits_value_eq_positional (base : Nat) (ds : List Char)
    (hds : ∀ c ∈ ds, is_digit base c = true) :
    digits_value base 0 ds = positional_value base ds :=
  digits_value_eq_foldl base ds hds 0

theorem is_digit_alnum {base : Nat} {c : Char} (h : is_digit base c = true) : is_alnum c := by
  unfold is_digit digit_value at h
  unfold is_alnum
  by_cases h1 : 48 ≤ c.toNat ∧ c.toNat ≤ 57
  · exact Or.inl h1
  · by_cases h2 : 97 ≤ c.toNat ∧ c.toNat ≤ 122
    · exact Or.inr (Or.inl h2)
    · by_cases h3 : 65 ≤ c.toNat ∧ c.toNat ≤ 90
      · exact Or.inr (Or.inr h3)
      · simp [h1, h2, h3] at h

theorem is_alnum_ne {c d : Char} (h : is_alnum c)
    (hd : d.toNat < 48 ∨ (57 < d.toNat ∧ d.toNat < 65)) : c ≠ d := by
  intro hcd
  subst hcd
  unfold is_alnum at h
  omega

theorem is_alnum_not_space {c : Char} (h : is_alnum c) : is_space c = false := by
  unfold is_alnum at h
  unfold is_space
  simp only [Bool.or_eq_false_iff, decide_eq_false_iff_not, Bool.and_eq_false_imp,
    decide_eq_true_eq]
  omega

theorem numeral_alnum {s : List Char} {v : Nat} (h : Numeral s v) : ∀ c ∈ s, is_alnum c := by
  cases h with
  | hex x ds hx hne hds =>
    intro c hc
    rcases List.mem_cons.mp hc with rfl | hc
    · exact Or.inl (by decide)
    · rcases List.mem_cons.mp hc with rfl | hc
      · rcases hx with rfl | rfl
        · exact Or.inr (Or.inl (by decide))
        · exact Or.inr (Or.inr (by decide))
      · exact is_digit_alnum (hds c hc)
  | octal ds hds =>
    intro c hc
    rcases List.mem_cons.mp hc with rfl | hc
    · exact Or.inl (by decide)
    · exact is_digit_alnum (hds c hc)
  | decimal d ds hd hd0 hds =>
    intro c hc
    rcases List.mem_cons.mp hc with rfl | hc
    · exact is_digit_alnum hd
    · exact is_digit_alnum (hds c hc)

theorem dropWhile_field (field after : List Char) (delim : Char)
    (h : ∀ c ∈ field, c ≠ delim) :
    (field ++ delim :: after).dropWhile (fun c => c != delim) = delim :: after := by
  induction field with
  | nil => simp [List.dropWhile]
  | cons c cs ih =>
    have hc := h c (List.mem_cons_self _ _)
    rw [List.cons_append, List.dropWhile_cons]
    simp only [bne_iff_ne, ne_eq, hc, not_false_eq_true, if_true]
    exact ih (fun c' hc' => h c' (List.mem_cons_of_mem _ hc'))

theorem takeWhile_field (field after : List Char) (delim : Char)
    (h : ∀ c ∈ field, c ≠ delim) :
    (field ++ delim :: after).takeWhile (fun c => c != delim) = field := by
  induction field with
  | nil => simp [List.takeWhile]
  | cons c cs ih =>
    have hc := h c (List.mem_cons_self _ _)
    rw [List.cons_append, List.takeWhile_cons]
    simp only [bne_iff_ne, ne_eq, hc, not_false_eq_true, if_true]
    congr 1
    exact ih (fun c' hc' => h c' (List.mem_cons_of_mem _ hc'))

/-- A field that does not contain the delimiter is what `getline` extracts,
and the stream continues, still good, after the delimiter. -/
theorem getline_field (field after part : List Char) (delim : Char)
    (h : ∀ c ∈ field, c ≠ delim) :
    getline ⟨field ++ delim :: after, true⟩ part delim = (⟨after, true⟩, field) := by
  simp only [getline, if_true, dropWhile_field field after delim h,
    takeWhile_field field after delim h]

theorem digits_value_leading_zero (base : Nat) (hb : 0 < base) (cs : List Char) :
    digits_value base 0 ('0' :: cs) = digits_value base 0 cs := by
  have h0 : digit_value '0' = some 0 := by decide
  simp [digits_value, h0, hb]

theorem magnitude_numeral {s : List Char} {v : Nat} (h : Numeral s v) : magnitude s = v := by
  cases h with
  | hex x ds hx hne hds =>
    cases ds with
    | nil => exact absurd rfl hne
    | cons h t =>
      have hh := hds h (List.mem_cons_self _ _)
      rw [← digits_value_eq_positional 16 (h :: t) hds]
      simp [magnitude, hx, hh]
  | octal ds hds =>
    rw [← digits_value_eq_positional 8 ds hds, ← digits_value_leading_zero 8 (by norm_num) ds]
    match ds, hds with
    | [], _ => simp [magnitude]
    | [a], _ => simp [magnitude]
    | a :: b :: t, hds =>
      have ha := hds a (List.mem_cons_self _ _)
      have hax : ¬ (a = 'x' ∨ a = 'X') := by
        rintro (rfl | rfl) <;> exact absurd ha (by decide)
      simp [magnitude, hax]
  | decimal d ds hd hd0 hds =>
    have hall : ∀ c ∈ d :: ds, is_digit 10 c = true := by
      intro c hc
      rcases List.mem_cons.mp hc with rfl | hc
      · exact hd
      · exact hds c hc
    rw [← digits_value_eq_positional 10 (d :: ds) hall]
    match ds with
    | [] => simp [magnitude, hd0]
    | [a] => simp [magnitude, hd0]
    | a :: b :: t => simp [magnitude, hd0]

/-- On a well-formed numeral `strtoul` returns its value, capped at
`ULONG_MAX`. -/
theorem strtoul_numeral (ulong_max : Nat) {s : List Char} {v : Nat} (h : Numeral s v) :
    strtoul ulong_max s = min v ulong_max := by
  have hal := numeral_alnum h
  have hm := magnitude_numeral h
  match s, h, hal, hm with
  | [], h, _, _ => cases h
  | c :: t, _, hal, hm =>
    have hc := hal c (List.mem_cons_self _ _)
    have hsp := is_alnum_not_space hc
    have hminus : c ≠ '-' := is_alnum_ne hc (Or.inl (by decide))
    have hplus : c ≠ '+' := is_alnum_ne hc (Or.inl (by decide))
    unfold strtoul
    rw [List.dropWhile_cons_of_neg (by simp [hsp])]
    simp only [hminus, hplus, if_false, hm]

theorem hex_pair_values_nil : hex_pair_values [] = [] := rfl

theorem hex_pair_values_cons (c1 c2 : Char) (cs : List Char) :
    hex_pair_values (c1 :: c2 :: cs) =
      (16 * (digit_value c1).getD 0 + (digit_value c2).getD 0) :: hex_pair_values cs := by
  unfold hex_pair_values
  have hl : (c1 :: c2 :: cs).length / 2 = cs.length / 2 + 1 := by
    simp only [List.length_cons]
    omega
  rw [hl, List.range_succ_eq_map, List.map_cons, List.map_map]
  congr 1
  · simp
  · apply List.map_congr_left
    intro j _
    have e1 : 2 * (j + 1) = (2 * j + 1) + 1 := by omega
    have e2 : 2 * (j + 1) + 1 = (2 * j + 1 + 1) + 1 := by omega
    simp only [Function.comp, Nat.succ_eq_add_one]
    rw [e2, e1]
    simp only [List.getElem?_cons_succ]

theorem from_chars_pair_digits {c1 c2 : Char} (h1 : is_digit 16 c1 = true)
    (h2 : is_digit 16 c2 = true) :
    from_chars_pair c1 (some c2) =
      some (16 * (digit_value c1).getD 0 + (digit_value c2).getD 0) := by
  unfold is_digit at h1 h2
  cases hd1 : digit_value c1 with
  | none => simp [hd1] at h1
  | some d1 =>
    cases hd2 : digit_value c2 with
    | none => simp [hd2] at h2
    | some d2 =>
      simp only [hd1, hd2, decide_eq_true_eq] at h1 h2
      simp [from_chars_pair, hd1, hd2, h1, h2]

/-- An even number of hexadecimal digits is read pair by pair, most
significant digit first. -/
theorem hex_bytes_digits (indet : Nat → Nat) : ∀ (n : Nat) (h : List Char) (k : Nat),
    h.length = 2 * n → (∀ c ∈ h, is_digit 16 c = true) →
    hex_bytes indet k h = hex_pair_values h := by
  intro n
  induction n with
  | zero =>
    intro h k hl _
    have : h = [] := List.length_eq_zero.mp (by omega)
    subst this
    rfl
  | succ n ih =>
    intro h k hl hd
    match h, hl, hd with
    | [], hl, _ => simp at hl
    | [_], hl, _ => simp at hl; omega
    | c1 :: c2 :: cs, hl, hd =>
      have h1 := hd c1 (List.mem_cons_self _ _)
      have h2 := hd c2 (List.mem_cons_of_mem _ (List.mem_cons_self _ _))
      have hcs := ih cs (k + 1) (by simp only [List.length_cons] at hl; omega)
        (fun c hc => hd c (List.mem_cons_of_mem _ (List.mem_cons_of_mem _ hc)))
      rw [hex_pair_values_cons]
      simp only [hex_bytes, from_chars_pair_digits h1 h2, Option.getD_some, hcs]

theorem parse_line_fields (ulong_max : Nat) (indet : Nat → Nat) (S A H : List Char)
    (vs va : Nat) (hS : Numeral S vs) (hA : Numeral A va)
    (hH : ∀ c ∈ H, is_digit 16 c = true) (k : Nat) (hk : H.length = 2 * k) :
    parse_line ulong_max indet (S ++ ':' :: (A ++ '=' :: H)) =
      ⟨min vs ulong_max % 2 ^ 32, min va ulong_max % 2 ^ 16, hex_pair_values H⟩ := by
  have h1 : getline ⟨S ++ ':' :: (A ++ '=' :: H), true⟩ [] ':' =
      (⟨A ++ '=' :: H, true⟩, S) :=
    getline_field S _ [] ':' (fun c hc => is_alnum_ne (numeral_alnum hS c hc)
      (Or.inr (by decide)))
  have h2 : getline ⟨A ++ '=' :: H, true⟩ S '=' = (⟨H, true⟩, A) :=
    getline_field A H S '=' (fun c hc => is_alnum_ne (numeral_alnum hA c hc)
      (Or.inr (by decide)))
  simp only [parse_line, h1, h2, strtoul_numeral ulong_max hS, strtoul_numeral ulong_max hA,
    hex_bytes_digits indet k H 0 hk hH]

/-- C9 (as amended): the line `"0x10:0x8000=aabb"` parses to
`{due=16, address=32768, payload=[0xAA,0xBB]}`; and for every line
`SAMPLE:ADDRESS=HEXBYTES` whose `SAMPLE` and `ADDRESS` are well-formed numerals
with values not above `ULONG_MAX` and whose `HEXBYTES` is `2k` hexadecimal
digits, the parsed entry has `due = value(SAMPLE) mod 2^32`,
`address = value(ADDRESS) mod 2^16` and a payload of exactly `k` bytes, the
`j`-th being `16 * digit(HEXBYTES[2j]) + digit(HEXBYTES[2j+1])`.  `ULONG_MAX`
is at least `2^32 - 1` on every platform; no uninitialised byte is pushed for
such a line, so the values `indet` do not matter. -/
theorem parse_line_well_formed (ulong_max : Nat) (indet : Nat → Nat)
    (hmax : 4294967295 ≤ ulong_max)
    (S A H : List Char) (vs va : Nat) (hS : Numeral S vs) (hA : Numeral A va)
    (hvs : vs ≤ ulong_max) (hva : va ≤ ulong_max)
    (hH : ∀ c ∈ H, is_digit 16 c = true) (k : Nat) (hk : H.length = 2 * k) :
    parse_line ulong_max indet "0x10:0x8000=aabb".toList = ⟨16, 32768, [0xAA, 0xBB]⟩ ∧
    parse_line ulong_max indet (S ++ ':' :: (A ++ '=' :: H)) =
      ⟨vs % 2 ^ 32, va % 2 ^ 16, hex_pair_values H⟩ ∧
    (hex_pair_values H).length = k ∧
    ∀ j, j < k → (hex_pair_values H)[j]? =
      some (16 * ((H[2 * j]?.bind digit_value).getD 0) +
        ((H[2 * j + 1]?.bind digit_value).getD 0)) := by
  have hlen : (hex_pair_values H).length = k := by
    simp only [hex_pair_values, List.length_map, List.length_range, hk]
    omega
  refine ⟨?_, ?_, hlen, ?_⟩
  · have h := parse_line_fields ulong_max indet "0x10".toList "0x8000".toList "aabb".toList
      16 32768
      (Numeral.hex 'x' "10".toList (Or.inl rfl) (by decide) (by decide))
      (Numeral.hex 'x' "8000".toList (Or.inl rfl) (by decide) (by decide))
      (by decide) 2 rfl
    rw [Nat.min_eq_left (by omega), Nat.min_eq_left (by omega)] at h
    exact h
  · have h := parse_line_fields ulong_max indet S A H vs va hS hA hH k hk
    rw [Nat.min_eq_left hvs, Nat.min_eq_left hva] at h
    exact h
  · intro j hj
    have hj' : j < H.length / 2 := by omega
    simp only [hex_pair_values, List.getElem?_map, List.getElem?_range hj', Option.map_some']

/-- C9 at a concrete input: an octal sample count, a decimal address and two
bytes written in both letter cases. -/
theorem parse_line_well_formed_witness :
    parse_line (2 ^ 64 - 1) (fun _ => 0) "020:100=0aF1".toList = ⟨16, 100, [0x0A, 0xF1]⟩ :=
  (parse_line_well_formed (2 ^ 64 - 1) (fun _ => 0) (by decide) "020".toList "100".toList "0aF1".toList
    16 100 (Numeral.octal "20".toList (by decide))
    (Numeral.decimal '1' "00".toList (by decide) (by decide) (by decide))
    (by decide) (by decide) (by decide) 2 rfl).2.1

/-- C9 fails as stated: `18446744073709551616` is a well-formed decimal
numeral of value `2^64`, which is 0 modulo `2^32`; with `ULONG_MAX = 2^64 - 1`
`strtoul` returns `ULONG_MAX` for it and the parsed sample count is
`2^32 - 1`. -/
theorem parse_line_saturates :
    Numeral "18446744073709551616".toList 18446744073709551616 ∧
    Numeral "0".toList 0 ∧
    18446744073709551616 % 2 ^ 32 = 0 ∧
    parse_line (2 ^ 64 - 1) (fun _ => 0) "18446744073709551616:0=".toList =
      ⟨4294967295, 0, []⟩ :=
  ⟨Numeral.decimal '1' "8446744073709551616".toList (by decide) (by decide) (by decide),
   Numeral.octal [] (by decide), by decide, by decide⟩

/-! ## C10: the load-time sort -/

theorem sort_insert_perm (x : ScriptEntry) (l : List ScriptEntry) :
    (sort_insert x l).Perm (x :: l) := by
  induction l with
  | nil => exact List.Perm.refl _
  | cons y ys ih =>
    unfold sort_insert
    by_cases h : script_less x y = true
    · rw [if_pos h]
    · rw [if_neg h]
      exact (List.Perm.cons y ih).trans (List.Perm.swap x y ys)

theorem sort_insert_sorted (x : ScriptEntry) (l : List ScriptEntry) (hl : ScriptSorted l) :
    ScriptSorted (sort_insert x l) := by
  induction l with
  | nil => exact List.pairwise_singleton _ _
  | cons y ys ih =>
    unfold ScriptSorted at hl ih ⊢
    rw [List.pairwise_cons] at hl
    unfold sort_insert
    by_cases h : script_less x y = true
    · rw [if_pos h]
      have hxy : x.sample_count < y.sample_count := by simpa [script_less] using h
      rw [List.pairwise_cons, List.pairwise_cons]
      refine ⟨fun b hb => ?_, hl⟩
      rcases List.mem_cons.mp hb with rfl | hb
      · exact Nat.le_of_lt hxy
      · exact Nat.le_trans (Nat.le_of_lt hxy) (hl.1 b hb)
    · rw [if_neg h]
      have hyx : y.sample_count ≤ x.sample_count := by
        have : ¬ x.sample_count < y.sample_count := by simpa [script_less] using h
        omega
      rw [List.pairwise_cons]
      refine ⟨fun b hb => ?_, ih hl.2⟩
      rcases List.mem_cons.mp ((sort_insert_perm x ys).mem_iff.mp hb) with rfl | hb
      · exact hyx
      · exact hl.1 b hb

theorem sort_script_perm (l : List ScriptEntry) : (sort_script l).Perm l := by
  induction l with
  | nil => exact List.Perm.refl _
  | cons x xs ih => exact (sort_insert_perm x (sort_script xs)).trans (List.Perm.cons x ih)

theorem sort_script_sorted (l : List ScriptEntry) : ScriptSorted (sort_script l) := by
  induction l with
  | nil => exact List.Pairwise.nil
  | cons x xs ih => exact sort_insert_sorted x (sort_script xs) ih

/-- C10: whatever entries were parsed, the script left by the load-time sort
has `due[i] <= due[i+1]` for every adjacent pair of indices (indeed for every
pair `i < j`) and is a permutation of the parsed entries; so is every script
`load_script` returns, which is a permutation of the entries parsed from the
lines of the file. -/
theorem sorted_script_is_sorted_permutation (parsed : List ScriptEntry) :
    (∀ i a b, (sort_script parsed)[i]? = some a → (sort_script parsed)[i + 1]? = some b →
      a.sample_count ≤ b.sample_count) ∧
    ScriptSorted (sort_script parsed) ∧
    (sort_script parsed).Perm parsed ∧
    (∀ ulong_max indet lines,
      ScriptSorted (load_script ulong_max indet lines) ∧
      (load_script ulong_max indet lines).Perm (parse_lines ulong_max indet 0 lines)) := by
  refine ⟨fun i a b ha hb => ?_, sort_script_sorted parsed, sort_script_perm parsed, ?_⟩
  · exact sorted_due_le _ (sort_script_sorted parsed) i (i + 1) a b ha hb (Nat.lt_succ_self i)
  · intro ulong_max indet lines
    exact ⟨sort_script_sorted _, sort_script_perm _⟩

/-- C10 at a concrete input: three lines out of order, two of them due at
the same sample. -/
theorem sorted_script_is_sorted_permutation_witness :
    load_script (2 ^ 64 - 1) (fun _ _ => 0)
        ["5:0".toList, "0:0x10=ff".toList, "5:1=00".toList] =
      [⟨0, 16, [255]⟩, ⟨5, 1, [0]⟩, ⟨5, 0, []⟩] ∧
    ScriptSorted (load_script (2 ^ 64 - 1) (fun _ _ => 0)
      ["5:0".toList, "0:0x10=ff".toList, "5:1=00".toList]) :=
  ⟨by decide,
   ((sorted_script_is_sorted_permutation []).2.2.2 (2 ^ 64 - 1) (fun _ _ => 0)
      ["5:0".toList, "0:0x10=ff".toList, "5:1=00".toList]).1⟩

/-! ## C5: what becomes of the termination signal -/

theorem handler_does_not_match : handler_matches handler_type thrown_type = false := rfl

/-- The function `main`, test by test: the two early returns, then the
pre-flush and the CPU loop on the image and the script the startup left. -/
theorem main_driver_eq (ulong_max : Nat) (indet : Nat → Nat → Nat) (argc : Nat)
    (rom_file : List Nat) (lines : List (List Char)) (cpu : List (Nat × Nat)) :
    main_driver ulong_max indet argc rom_file lines cpu =
      if argc < 3 then .exit 1
      else if rom_file.length < au_ram_size then .exit 2
      else run_loaded (load_script ulong_max indet lines) cpu
        (initial_state (rom_image rom_file)) := by
  unfold main_driver startup
  by_cases h1 : argc < 3
  · rw [if_pos h1, if_pos h1]
  · rw [if_neg h1, if_neg h1]
    by_cases h2 : rom_file.length < au_ram_size
    · rw [if_pos h2, if_pos h2]
    · rw [if_neg h2, if_neg h2]

/-- The pre-flush and the CPU loop never end with an exit code: line 153 is
reached only through the handler of line 148, which catches nothing that is
thrown. -/
theorem run_loaded_ne_exit (script : List ScriptEntry) (cpu : List (Nat × Nat)) (st : State)
    (code : Nat) : run_loaded script cpu st ≠ .exit code := by
  unfold run_loaded
  split
  · simp
  · simp
  · split
    · simp [handler_does_not_match]
    · simp

/-- C5 does not hold of the code: the `end_emulation` object thrown at
line 65 is never caught.  The handler of line 148 takes an `exception *`,
which no thrown object matches, and the pre-flush of line 136 is outside the
`try` block; so no run of `main` ends with exit code 0, and a run in which the
signal is raised ends in `std::terminate`: with a 4096-byte ROM, both for the
script `0:0` (signal raised by the pre-flush) and for the script `1:0` with
one trap write of the CPU (signal raised inside the CPU batch). -/
theorem end_emulation_not_caught :
    (∀ ulong_max indet argc rom_file lines cpu,
      main_driver ulong_max indet argc rom_file lines cpu ≠ .exit 0) ∧
    main_driver (2 ^ 64 - 1) (fun _ _ => 0) 3 (List.replicate 4096 0) ["0:0".toList] [] =
      .terminate_called ∧
    main_driver (2 ^ 64 - 1) (fun _ _ => 0) 3 (List.replicate 4096 0) ["1:0".toList]
      [(0x8000, 7)] = .terminate_called := by
  refine ⟨?_, ?_, ?_⟩
  · intro ulong_max indet argc rom_file lines cpu
    rw [main_driver_eq]
    split
    · simp
    · split
      · simp
      · exact run_loaded_ne_exit _ _ _ 0
  · have hl : ¬ (List.replicate 4096 0).length < au_ram_size := by
      rw [List.length_replicate]; decide
    have hs : load_script (2 ^ 64 - 1) (fun _ _ => 0) ["0:0".toList] = [⟨0, 0, []⟩] := by
      decide
    rw [main_driver_eq, if_neg (by decide), if_neg hl, hs]
    unfold run_loaded
    rw [run_current_script_at_sentinel _ _ ⟨0, 0, []⟩ rfl rfl (Nat.le_refl _)]
  · have hl : ¬ (List.replicate 4096 0).length < au_ram_size := by
      rw [List.length_replicate]; decide
    have hs : load_script (2 ^ 64 - 1) (fun _ _ => 0) ["1:0".toList] = [⟨1, 0, []⟩] := by
      decide
    rw [main_driver_eq, if_neg (by decide), if_neg hl, hs]
    unfold run_loaded
    rw [run_current_script_not_due _ _ ⟨1, 0, []⟩ rfl (by decide)]
    simp only [cpu_writes, Outcome.bind]
    have hw : cpu_write [⟨1, 0, []⟩] (0x8000, 7)
        (initial_state (rom_image (List.replicate 4096 0))) =
        .end_emulation (start_entry (emit_sample 7 (au_ram_store 0x8000 7
          (initial_state (rom_image (List.replicate 4096 0)))))) := by
      have := cpu_write_trap [⟨1, 0, []⟩] 7
        (initial_state (rom_image (List.replicate 4096 0)))
      simp only [trap_address] at this
      rw [this]
      exact run_current_script_at_sentinel _ _ ⟨1, 0, []⟩ rfl rfl (by decide)
    rw [hw]
    rfl

/-! ## C12: a write outside the trap address -/

/-- C12: for an address `a` other than `0x8000`, `au_ram_write(a, v)` returns
(no termination signal) having set `storage[a mod 4096]` to `v` and changed
nothing else: every other slot, the sample counter, the cursor and the output
are as before; `au_ram_read(b)` is `storage[b mod 4096]`, so afterwards it
returns `v` for every `b` with `b mod 4096 = a mod 4096`. -/
theorem au_ram_write_frame (replay : State → Outcome) (a v : Nat) (st : State)
    (ha : a ≠ 0x8000) :
    ∃ st', au_ram_write replay a v st = .returned st' ∧
      st'.au_ram (a % 4096) = v ∧
      (∀ j, j ≠ a % 4096 → st'.au_ram j = st.au_ram j) ∧
      st'.samples = st.samples ∧ st'.script_ptr = st.script_ptr ∧
      st'.output = st.output ∧ st'.started = st.started ∧
      (∀ (s : State) (b : Nat), au_ram_read s b = s.au_ram (b % 4096)) ∧
      (∀ b, b % 4096 = a % 4096 → au_ram_read st' b = v) := by
  refine ⟨au_ram_store a v st, ?_, ?_, ?_, rfl, rfl, rfl, rfl, fun _ _ => rfl, ?_⟩
  · simp [au_ram_write, trap_address, ha]
  · simp [au_ram_size_eq]
  · intro j hj
    simp only [au_ram_store_au_ram, au_ram_size_eq]
    rw [if_neg hj]
  · intro b hb
    simp only [au_ram_read, au_ram_store_au_ram, au_ram_size_eq]
    rw [if_pos hb]

/-- C12 at a concrete input: a write of 7 to `0x9000`, read back through
`0x0000` and `0x1000`, which share slot 0 with it. -/
theorem au_ram_write_frame_witness :
    ∃ st', au_ram_write (run_current_script [⟨0, 0, []⟩]) 0x9000 7
        (initial_state (fun i => i)) = .returned st' ∧
      st'.au_ram (0x9000 % 4096) = 7 ∧
      (∀ j, j ≠ 0x9000 % 4096 → st'.au_ram j = j) ∧
      st'.samples = 0 ∧ st'.script_ptr = 0 ∧ st'.output = [] ∧ st'.started = [] ∧
      (∀ (s : State) (b : Nat), au_ram_read s b = s.au_ram (b % 4096)) ∧
      (∀ b, b % 4096 = 0x9000 % 4096 → au_ram_read st' b = 7) :=
  au_ram_write_frame (run_current_script [⟨0, 0, []⟩]) 0x9000 7 (initial_state (fun i => i))
    (by decide)

/-! ## C15: the replay is idempotent -/

theorem flushed_returns (script : List ScriptEntry) (st : State) (hf : Flushed script st) :
    run_current_script script st = .returned st := by
  unfold Flushed at hf
  cases hent : script[st.script_ptr]? with
  | none => rw [run_current_script_eq, hent]
  | some ent =>
    rw [hent] at hf
    exact run_current_script_not_due script st ent hent hf

theorem returned_flushed (script : List ScriptEntry) (st st' : State)
    (h : run_current_script script st = .returned st') : Flushed script st' := by
  have := triple_run_current_script script (I := fun _ => True) (E := fun _ => True)
    (fun _ _ _ _ => trivial) (fun _ _ _ => trivial) (fun _ _ _ _ _ => trivial)
    (fun _ _ _ _ _ _ => trivial) st trivial
  rw [h] at this
  exact this.2

/-- C15: when `run_current_script` returns, calling it again at once returns
as well and leaves every global (storage, cursor, sample counter, output)
exactly as the first call left it. -/
theorem run_current_script_idempotent (script : List ScriptEntry) (st st' : State)
    (h : run_current_script script st = .returned st') :
    run_current_script script st' = .returned st' :=
  flushed_returns script st' (returned_flushed script st st' h)

/-- C15 at a concrete input: the first call consumes the entry due at
sample 0 and stops before the one due at sample 2. -/
theorem run_current_script_idempotent_witness :
    run_current_script [⟨0, 5, [1]⟩, ⟨2, 0, []⟩]
        (au_ram_store 5 1 (start_entry (initial_state (fun _ => 0)))) =
      .returned (au_ram_store 5 1 (start_entry (initial_state (fun _ => 0)))) :=
  run_current_script_idempotent [⟨0, 5, [1]⟩, ⟨2, 0, []⟩] (initial_state (fun _ => 0))
    (au_ram_store 5 1 (start_entry (initial_state (fun _ => 0)))) rfl

/-! ## C16: entries with an empty payload -/

theorem is_sentinel_iff (ent : ScriptEntry) :
    ent.is_sentinel = true ↔ ent.data = [] ∧ ent.address = 0 := by
  simp [ScriptEntry.is_sentinel, List.length_eq_zero]

/-- The payload loop raises nothing of its own: when the replay it calls
never ends in the exception, neither does the loop. -/
theorem write_data_raises_not (replay : State → Outcome)
    (hr : ∀ s st', replay s ≠ .end_emulation st') (data : List Nat) (addr : Nat)
    (st st' : State) : write_data replay addr data st ≠ .end_emulation st' := by
  intro h
  have hcb : ∀ v s, True → (replay (emit_sample v s)).Sat (fun _ => True) (fun _ => False) := by
    intro v s _
    cases hrs : replay (emit_sample v s) with
    | returned _ => trivial
    | end_emulation e => exact absurd hrs (hr _ e)
    | out_of_fuel => trivial
  have := @triple_write_data (fun _ => True) (fun _ => False) replay
    (fun _ _ _ _ => trivial) hcb data addr st trivial
  rw [h] at this
  exact this

/-- C16: processing an entry with empty payload and nonzero address only
consumes it: the call returns with the cursor advanced by one and storage,
sample counter and output unchanged.  An entry with empty payload and address
0 raises the termination signal, and no other entry raises it itself: with a
replay that raises nothing, processing an entry ends in the signal if and only
if the entry has empty payload and address 0; and whenever a run from startup
is left by the signal, the entry just before the cursor is such an entry. -/
theorem empty_payload_entries (replay : State → Outcome) (ent : ScriptEntry) (st : State) :
    (ent.data = [] → ent.address ≠ 0 →
      process_entry replay ent st = .returned (start_entry st) ∧
      (start_entry st).script_ptr = st.script_ptr + 1 ∧
      (start_entry st).au_ram = st.au_ram ∧ (start_entry st).samples = st.samples ∧
      (start_entry st).output = st.output) ∧
    (ent.data = [] → ent.address = 0 →
      process_entry replay ent st = .end_emulation (start_entry st)) ∧
    ((∀ s st', replay s ≠ .end_emulation st') →
      ((∃ st', process_entry replay ent st = .end_emulation st') ↔
        (ent.data = [] ∧ ent.address = 0))) ∧
    (∀ script rom ws st', run_from_start script rom ws = .end_emulation st' →
      ∃ i e, st'.script_ptr = i + 1 ∧ script[i]? = some e ∧ e.data = [] ∧ e.address = 0) := by
  refine ⟨fun hd ha => ⟨?_, rfl, rfl, rfl, rfl⟩, fun hd ha => ?_, fun hr => ⟨?_, ?_⟩, ?_⟩
  · simp [process_entry, hd, ha]
  · simp [process_entry, hd, ha]
  · rintro ⟨st', h⟩
    unfold process_entry at h
    by_cases hlen : ent.data.length = 0
    · rw [if_pos hlen] at h
      by_cases haddr : ent.address = 0
      · exact ⟨List.length_eq_zero.mp hlen, haddr⟩
      · rw [if_neg haddr] at h; cases h
    · rw [if_neg hlen] at h
      exact absurd h (write_data_raises_not replay hr _ _ _ _)
  · rintro ⟨hd, ha⟩
    exact ⟨start_entry st, by simp [process_entry, hd, ha]⟩
  · intro script rom ws st' h
    obtain ⟨i, e, h1, h2, h3, _⟩ := run_from_start_raised script rom ws st' h
    exact ⟨i, e, h1, h2, ((is_sentinel_iff e).mp h3).1, ((is_sentinel_iff e).mp h3).2⟩

/-- C16 at concrete inputs: the reserved entry `{0, 9, []}` is consumed by
the pre-flush without effect, and the run is then ended by `{1, 0, []}`. -/
theorem empty_payload_entries_witness :
    process_entry (run_current_script []) ⟨0, 9, []⟩ (initial_state (fun _ => 0)) =
      .returned (start_entry (initial_state (fun _ => 0))) ∧
    process_entry (run_current_script []) ⟨1, 0, []⟩ (initial_state (fun _ => 0)) =
      .end_emulation (start_entry (initial_state (fun _ => 0))) ∧
    (run_from_start [⟨0, 9, []⟩, ⟨1, 0, []⟩] (fun _ => 0) [(0x8000, 3)]).state?.map
      (fun s => (s.script_ptr, s.samples, s.output)) = some (2, 1, [3]) :=
  ⟨((empty_payload_entries (run_current_script []) ⟨0, 9, []⟩
      (initial_state (fun _ => 0))).1 rfl (by decide)).1,
   (empty_payload_entries (run_current_script []) ⟨1, 0, []⟩
      (initial_state (fun _ => 0))).2.1 rfl rfl,
   by decide⟩

/-! ## C11: the sample counter counts the output bytes -/

theorem sampleStep_stepRel (script : List ScriptEntry) : StepRel script SampleStep where
  refl := fun _ => ⟨[], by simp, by simp, fun h => h⟩
  trans := by
    rintro a b c ⟨l1, e1, m1, b1⟩ ⟨l2, e2, m2, b2⟩
    refine ⟨l1 ++ l2, by rw [e2, e1, List.append_assoc], ?_, fun h => b2 (b1 h)⟩
    rw [List.length_append]
    omega
  store := fun _ _ _ => ⟨[], by simp, by simp, fun h => h⟩
  emit := fun v st => ⟨[v], by simp, by simp, fun _ => Nat.mod_lt _ (by norm_num)⟩
  start := fun _ _ _ _ => ⟨[], by simp, by simp, fun h => h⟩

/-- While fewer than `2^32` bytes have been written, a step keeps
`samples = length(output)` and does not decrease the counter. -/
theorem sampleStep_below_wrap (a b : State) (h : SampleStep a b)
    (ha : a.samples = a.output.length) (hb : b.output.length < 2 ^ 32) :
    b.samples = b.output.length ∧ a.samples ≤ b.samples := by
  obtain ⟨l, e, m, bd⟩ := h
  have hl : b.output.length = a.output.length + l.length := by rw [e, List.length_append]
  have h1 : b.samples < 2 ^ 32 := bd (by omega)
  omega

/-- C11 (as amended): under `run_current_script`, `sample_callback` and
`au_ram_write`, nested calls and calls ending in the termination signal
included, the output only grows and the 32-bit sample counter advances by the
number of bytes appended, modulo `2^32`; so a run from startup always has
`samples = length(output) mod 2^32`, and as long as fewer than `2^32` bytes
have been written `samples = length(output)` holds and `samples` does not
decrease. -/
theorem samples_count_output (script : List ScriptEntry) :
    (∀ st st', (run_current_script script st).state? = some st' → SampleStep st st') ∧
    (∀ v st st', (sample_callback (run_current_script script) v st).state? = some st' →
      SampleStep st st') ∧
    (∀ a v st st', (au_ram_write (run_current_script script) a v st).state? = some st' →
      SampleStep st st') ∧
    (∀ a b : State, SampleStep a b → a.samples = a.output.length →
      b.output.length < 2 ^ 32 → b.samples = b.output.length ∧ a.samples ≤ b.samples) ∧
    (∀ rom ws st', (run_from_start script rom ws).state? = some st' →
      st'.samples = st'.output.length % 2 ^ 32 ∧
      (st'.output.length < 2 ^ 32 → st'.samples = st'.output.length)) := by
  have hR := sampleStep_stepRel script
  refine ⟨hR.run_current_script, ?_, hR.au_ram_write hR.run_current_script,
    sampleStep_below_wrap, ?_⟩
  · intro v st st' h
    exact hR.trans _ _ _ (hR.emit v st) (hR.run_current_script _ _ h)
  · intro rom ws st' h
    have hrun : Respects SampleStep (fun st =>
        (run_current_script script st).bind (cpu_writes script ws)) :=
      respects_bind hR.trans hR.run_current_script (hR.cpu_writes ws)
    obtain ⟨l, e, m, bd⟩ := hrun (initial_state rom) st' h
    have hl : st'.output.length = l.length := by rw [e]; simp [initial_state]
    have h1 : st'.samples < 2 ^ 32 := bd (by simp [initial_state])
    have h2 : st'.samples % 2 ^ 32 = l.length % 2 ^ 32 := by
      simpa [initial_state] using m
    constructor
    · rw [hl]; omega
    · intro hb; omega

/-- C11 at a concrete input: a trap write with the script
`[{1, 0x8000, [9]}]` pending appends two bytes and advances the counter by
two. -/
theorem samples_count_output_witness :
    (au_ram_write (run_current_script [⟨1, 0x8000, [9]⟩]) 0x8000 7
      (initial_state (fun _ => 0))).state?.map (fun s => (s.samples, s.output))
        = some (2, [7, 9]) ∧
    SampleStep (initial_state (fun _ => 0))
      (emit_sample 9 (au_ram_store 0x8000 9 (start_entry
        (emit_sample 7 (au_ram_store 0x8000 7 (initial_state (fun _ => 0))))))) :=
  ⟨by decide,
   (samples_count_output [⟨1, 0x8000, [9]⟩]).2.2.1 0x8000 7 (initial_state (fun _ => 0)) _ rfl⟩

theorem empty_script_replicate_output (rom : Nat → Nat) (n v : Nat) :
    ∃ st', run_from_start [] rom (List.replicate n (trap_address, v)) = .returned st' ∧
      st'.samples = n % 2 ^ 32 ∧ st'.output.length = n := by
  obtain ⟨st', h1, h2, h3, _⟩ := cpu_writes_nil_script
    (List.replicate n (trap_address, v)) (initial_state rom) (by simp [initial_state])
  refine ⟨st', ?_, ?_, ?_⟩
  · simp only [run_from_start, run_current_script_nil, Outcome.bind_returned]; exact h1
  · rw [h3, trap_values_replicate, List.length_replicate]; simp [initial_state]
  · rw [h2, trap_values_replicate]; simp [initial_state]

/-- C11 fails as stated: with an empty script, `2^32 - 1` trap writes leave
`samples = 2^32 - 1`, and one more leaves `samples = 0` with `2^32` bytes
written: the counter has decreased and is not the length of the output. -/
theorem samples_wrap_below_output :
    (∃ st', run_from_start [] (fun _ => 0) (List.replicate 4294967295 (trap_address, 0))
        = .returned st' ∧ st'.samples = 4294967295 ∧ st'.output.length = 4294967295) ∧
    (∃ st', run_from_start [] (fun _ => 0) (List.replicate 4294967296 (trap_address, 0))
        = .returned st' ∧ st'.samples = 0 ∧ st'.output.length = 4294967296) :=
  ⟨empty_script_replicate_output (fun _ => 0) 4294967295 0,
   empty_script_replicate_output (fun _ => 0) 4294967296 0⟩

/-! ## C13: the ROM load -/

/-- C13: with the two arguments given, a ROM input from which fewer than
4096 bytes can be read ends the startup, and with it `main`, with exit code 2,
whatever the script file and the CPU would do (nothing of them is reached).
With a ROM input of at least 4096 bytes the startup reaches line 136 with the
first 4096 bytes of the file in slots 0..4095 of the storage, where
`au_ram_read` finds them, with nothing emitted and the cursor on the first
entry of the loaded script; `main` goes on from these globals with the
pre-flush and the CPU loop, and does not end with exit code 2. -/
theorem rom_load (ulong_max : Nat) (indet : Nat → Nat → Nat) (argc : Nat)
    (rom_file : List Nat) (lines : List (List Char)) (cpu : List (Nat × Nat))
    (hargc : 3 ≤ argc) :
    (rom_file.length < 4096 →
      startup ulong_max indet argc rom_file lines = .error 2 ∧
      main_driver ulong_max indet argc rom_file lines cpu = .exit 2) ∧
    (4096 ≤ rom_file.length →
      ∃ st, startup ulong_max indet argc rom_file lines =
          .ok (st, load_script ulong_max indet lines) ∧
        (∀ i, i < 4096 → rom_file[i]? = some (st.au_ram i)) ∧
        (∀ i, i < 4096 → rom_file[i]? = some (au_ram_read st i)) ∧
        st.samples = 0 ∧ st.script_ptr = 0 ∧ st.output = [] ∧
        main_driver ulong_max indet argc rom_file lines cpu =
          run_loaded (load_script ulong_max indet lines) cpu st ∧
        main_driver ulong_max indet argc rom_file lines cpu ≠ .exit 2) := by
  have h3 : ¬ argc < 3 := by omega
  constructor
  · intro hlen
    have h4 : rom_file.length < au_ram_size := by rw [au_ram_size_eq]; exact hlen
    refine ⟨?_, ?_⟩
    · unfold startup
      rw [if_neg h3, if_pos h4]
    · rw [main_driver_eq, if_neg h3, if_pos h4]
  · intro hlen
    have h4 : ¬ rom_file.length < au_ram_size := by rw [au_ram_size_eq]; omega
    have himg : ∀ i, i < 4096 → rom_file[i]? = some (rom_image rom_file i) := by
      intro i hi
      have h1 : i < (rom_file.take au_ram_size).length := by
        rw [List.length_take, au_ram_size_eq]; omega
      simp only [rom_image, List.getD_eq_getElem?_getD]
      rw [List.getElem?_take_of_lt (by rw [au_ram_size_eq]; exact hi)]
      rw [List.getElem?_eq_getElem (by omega)]
      simp
    have hmain : main_driver ulong_max indet argc rom_file lines cpu =
        run_loaded (load_script ulong_max indet lines) cpu
          (initial_state (rom_image rom_file)) := by
      rw [main_driver_eq, if_neg h3, if_neg h4]
    refine ⟨initial_state (rom_image rom_file), ?_, himg, ?_, rfl, rfl, rfl, hmain, ?_⟩
    · unfold startup
      rw [if_neg h3, if_neg h4]
    · intro i hi
      rw [himg i hi]
      simp only [au_ram_read, initial_state, au_ram_size_eq]
      rw [Nat.mod_eq_of_lt hi]
    · rw [hmain]
      exact run_loaded_ne_exit _ _ _ 2

/-- C13 at concrete inputs: a ROM file of three bytes, and one of 4097 bytes
whose first byte is 9. -/
theorem rom_load_witness :
    (startup (2 ^ 64 - 1) (fun _ _ => 0) 3 [1, 2, 3] ["zz".toList] = .error 2 ∧
      main_driver (2 ^ 64 - 1) (fun _ _ => 0) 3 [1, 2, 3] ["zz".toList] [(0x8000, 1)] =
        .exit 2) ∧
    ∃ st, startup (2 ^ 64 - 1) (fun _ _ => 0) 3 (9 :: List.replicate 4096 0) [] =
        .ok (st, load_script (2 ^ 64 - 1) (fun _ _ => 0) []) ∧
      (∀ i, i < 4096 → (9 :: List.replicate 4096 0)[i]? = some (st.au_ram i)) ∧
      (∀ i, i < 4096 → (9 :: List.replicate 4096 0)[i]? = some (au_ram_read st i)) ∧
      st.samples = 0 ∧ st.script_ptr = 0 ∧ st.output = [] ∧
      main_driver (2 ^ 64 - 1) (fun _ _ => 0) 3 (9 :: List.replicate 4096 0) [] [] =
        run_loaded (load_script (2 ^ 64 - 1) (fun _ _ => 0) []) [] st ∧
      main_driver (2 ^ 64 - 1) (fun _ _ => 0) 3 (9 :: List.replicate 4096 0) [] [] ≠ .exit 2 :=
  ⟨(rom_load (2 ^ 64 - 1) (fun _ _ => 0) 3 [1, 2, 3] ["zz".toList] [(0x8000, 1)]
      (by decide)).1 (by decide),
   (rom_load (2 ^ 64 - 1) (fun _ _ => 0) 3 (9 :: List.replicate 4096 0) [] [] (by decide)).2
      (by rw [List.length_cons, List.length_replicate]; decide)⟩

/-! ## C14: termination and the depth of the recursion -/

/-- With a nesting budget of as many invocations as there are entries at or
after the cursor, the replay runs as it does without a budget. -/
theorem run_script_nest_eq (script : List ScriptEntry) :
    ∀ (fuel depth : Nat) (st : State), script.length - st.script_ptr ≤ depth →
      run_script_nest script fuel depth st = run_script_fuel script fuel st := by
  intro fuel
  induction fuel with
  | zero => intro depth st _; rfl
  | succ n ih =>
    intro depth st hd
    simp only [run_script_nest, run_script_fuel]
    cases hent : script[st.script_ptr]? with
    | none => rfl
    | some ent =>
      have hlt : st.script_ptr < script.length := (List.getElem?_eq_some_iff.mp hent).1
      simp only []
      by_cases hdue : ent.sample_count > st.samples
      · rw [if_pos hdue, if_pos hdue]
      · rw [if_neg hdue, if_neg hdue]
        have hmono := (cursor_mono_stepRel script).run_script_fuel n
        cases depth with
        | zero => omega
        | succ d =>
          simp only []
          have hagree : ∀ s, st.script_ptr + 1 ≤ s.script_ptr →
              run_script_fuel script n s = run_script_nest script n d s :=
            fun s hs => (ih d s (by omega)).symm
          rw [← process_entry_congr (st.script_ptr + 1) hagree hmono script ent st
            (Nat.le_refl _)]
          cases hp : process_entry (run_script_fuel script n) ent st with
          | returned mid =>
            have hmid := process_entry_cursor hmono script ent st mid
              (Outcome.state?_of_returned hp)
            simp only [Outcome.bind_returned]
            exact ih (d + 1) mid (by omega)
          | end_emulation mid => rfl
          | out_of_fuel => rfl

/-- C14: `run_current_script` terminates from every state of every script,
by return or by the termination signal, nested re-entries included: more loop
iterations than there are entries at or after the cursor are never needed;
while an entry is processed the nested replay is only ever entered with the
cursor beyond that entry (replacing it, for cursors not beyond, by a call that
never ends changes nothing); and the nesting of invocations stays within
`script.size()` minus the cursor at entry. -/
theorem run_current_script_terminates (script : List ScriptEntry) (st : State) :
    ((∃ st', run_current_script script st = .returned st') ∨
      (∃ st', run_current_script script st = .end_emulation st')) ∧
    (∀ fuel, script.length - st.script_ptr < fuel →
      run_script_fuel script fuel st = run_current_script script st) ∧
    (∀ ent, process_entry (run_current_script script) ent st =
      process_entry (fun s => if st.script_ptr + 1 ≤ s.script_ptr
        then run_current_script script s else .out_of_fuel) ent st) ∧
    (∀ fuel depth, script.length - st.script_ptr < fuel →
      script.length - st.script_ptr ≤ depth →
      run_script_nest script fuel depth st = run_current_script script st) := by
  refine ⟨?_, fun fuel h => run_script_fuel_stable script fuel st h, ?_, ?_⟩
  · cases h : run_current_script script st with
    | returned st' => exact Or.inl ⟨st', rfl⟩
    | end_emulation st' => exact Or.inr ⟨st', rfl⟩
    | out_of_fuel => exact absurd h (run_current_script_ne_out_of_fuel script st)
  · intro ent
    exact process_entry_congr (st.script_ptr + 1)
      (fun s hs => (if_pos hs).symm)
      (cursor_mono_stepRel script).run_current_script script ent st (Nat.le_refl _)
  · intro fuel depth hf hd
    rw [run_script_nest_eq script fuel depth st hd]
    exact run_script_fuel_stable script fuel st hf

/-- C14 at a concrete input: three entries due at sample 0, the first two
writing to the trap address, so that the replay nests twice; a nesting budget
of 3 and 4 loop iterations give the run, a nesting budget of 1 does not. -/
theorem run_current_script_terminates_witness :
    (run_script_nest [⟨0, 0x8000, [1]⟩, ⟨0, 0x8000, [2]⟩, ⟨0, 5, [3]⟩] 4 3
      (initial_state (fun _ => 0))).output = some [1, 2] ∧
    (run_script_nest [⟨0, 0x8000, [1]⟩, ⟨0, 0x8000, [2]⟩, ⟨0, 5, [3]⟩] 4 1
      (initial_state (fun _ => 0))).output = none ∧
    run_script_nest [⟨0, 0x8000, [1]⟩, ⟨0, 0x8000, [2]⟩, ⟨0, 5, [3]⟩] 4 3
      (initial_state (fun _ => 0)) =
      run_current_script [⟨0, 0x8000, [1]⟩, ⟨0, 0x8000, [2]⟩, ⟨0, 5, [3]⟩]
        (initial_state (fun _ => 0)) :=
  ⟨by decide, by decide,
   (run_current_script_terminates [⟨0, 0x8000, [1]⟩, ⟨0, 0x8000, [2]⟩, ⟨0, 5, [3]⟩]
      (initial_state (fun _ => 0))).2.2.2 4 3 (by decide) (by decide)⟩

/-! ## C17: lines without a payload -/

theorem mem_of_dropWhile_ne_nil (line : List Char) (d c : Char) (rest : List Char)
    (h : line.dropWhile (fun x => x != d) = c :: rest) : d ∈ line := by
  have hc : c = d := by
    have := List.head_dropWhile_not (fun x => x != d) line (by rw [h]; simp)
    simpa [h] using this
  have : c ∈ line := (List.dropWhile_suffix _).subset (by rw [h]; exact List.mem_cons_self _ _)
  rw [← hc]; exact this

theorem not_mem_of_dropWhile_nil (line : List Char) (d : Char)
    (h : line.dropWhile (fun x => x != d) = []) : d ∉ line := by
  intro hd
  have := (List.dropWhile_eq_nil_iff.mp h) d hd
  simp at this

/-- What `parse_line` reads, field by field: the sample count from the
SAMPLE field, the payload from the HEXBYTES field, and the address from the
ADDRESS field when the line has a `':'`; on a line without `':'` the first
`getline` exhausts the stream, the second extracts nothing and leaves `part`
as it was, and the address is read from the SAMPLE field again. -/
theorem parse_line_eq (ulong_max : Nat) (indet : Nat → Nat) (line : List Char) :
    parse_line ulong_max indet line =
      ⟨strtoul ulong_max (sample_field line) % 2 ^ 32,
       strtoul ulong_max (if ':' ∈ line then address_field line else sample_field line)
         % 2 ^ 16, hex_bytes indet 0 (payload_field line)⟩ := by
  unfold parse_line payload_field address_field sample_field
  cases h1 : line.dropWhile (fun c => c != ':') with
  | nil =>
    have hn := not_mem_of_dropWhile_nil line ':' h1
    simp [getline, h1, hn]
  | cons c R =>
    have hm := mem_of_dropWhile_ne_nil line ':' c R h1
    cases h2 : R.dropWhile (fun c => c != '=') with
    | nil => simp [getline, h1, h2, hm]
    | cons c2 H => simp [getline, h1, h2, hm]

theorem payload_field_nil_of_no_equals (line : List Char) (h : '=' ∉ line) :
    payload_field line = [] := by
  unfold payload_field
  have hsub : ∀ x ∈ (line.dropWhile (fun c => c != ':')).tail, x ∈ line :=
    fun x hx => (List.dropWhile_suffix _).subset (List.mem_of_mem_tail hx)
  have : (line.dropWhile (fun c => c != ':')).tail.dropWhile (fun c => c != '=') = [] := by
    rw [List.dropWhile_eq_nil_iff]
    intro x hx
    have hxl := hsub x hx
    simp only [bne_iff_ne, ne_eq]
    intro hxe
    exact h (hxe ▸ hxl)
  rw [this]
  rfl

theorem payload_field_nil_of_trailing_equals (pre : List Char) (h : '=' ∉ pre) :
    payload_field (pre ++ ['=']) = [] := by
  unfold payload_field
  have hsuf : (((pre ++ ['=']).dropWhile (fun c => c != ':')).tail) <:+ (pre ++ ['=']) :=
    (List.tail_suffix _).trans (List.dropWhile_suffix _)
  obtain ⟨t, ht⟩ := hsuf
  generalize ((pre ++ ['=']).dropWhile (fun c => c != ':')).tail = R at ht
  rcases List.eq_nil_or_concat R with rfl | ⟨L, b, rfl⟩
  · rfl
  · rw [List.concat_eq_append, ← List.append_assoc] at ht
    obtain ⟨h1, h2⟩ := List.append_inj' ht rfl
    simp only [List.cons.injEq, and_true] at h2
    subst h2
    have hL : ∀ c ∈ L, c ≠ '=' := by
      intro c hc hce
      exact h (hce ▸ (h1 ▸ List.mem_append_right t hc))
    rw [List.concat_eq_append, dropWhile_field L [] '=' hL]
    rfl

/-- C17 holds of the code except for the address of a line without `':'`.
For every line with no `'='`, or with nothing after its first `'='`, the
parsed entry has a zero-length payload and its sample count is read from the
SAMPLE field; when the line has a `':'` its address is read from the ADDRESS
field.  On a line without `':'` the address is read from the SAMPLE field
instead of the (empty) ADDRESS field: the line `7` parses to
`{due=7, address=7, payload=[]}`, where the empty ADDRESS field reads as 0. -/
theorem parse_line_without_payload :
    (∀ ulong_max indet line, ('=' ∉ line ∨ ∃ pre, line = pre ++ ['='] ∧ '=' ∉ pre) →
      ∃ address, parse_line ulong_max indet line =
          ⟨strtoul ulong_max (sample_field line) % 2 ^ 32, address, []⟩ ∧
        (':' ∈ line → address = strtoul ulong_max (address_field line) % 2 ^ 16) ∧
        (':' ∉ line → address = strtoul ulong_max (sample_field line) % 2 ^ 16)) ∧
    ('=' ∉ "7".toList ∧ address_field "7".toList = [] ∧
      strtoul (2 ^ 64 - 1) [] % 2 ^ 16 = 0 ∧
      ∀ indet, parse_line (2 ^ 64 - 1) indet "7".toList = ⟨7, 7, []⟩) := by
  refine ⟨?_, by decide, by decide, by decide, fun _ => rfl⟩
  intro ulong_max indet line hline
  have hp : payload_field line = [] := by
    rcases hline with h | ⟨pre, rfl, h⟩
    · exact payload_field_nil_of_no_equals line h
    · exact payload_field_nil_of_trailing_equals pre h
  refine ⟨strtoul ulong_max (if ':' ∈ line then address_field line else sample_field line)
    % 2 ^ 16, ?_, fun hc => by rw [if_pos hc], fun hc => by rw [if_neg hc]⟩
  rw [parse_line_eq, hp]
  rfl

/-! ## C18: a blank line in the script file -/

theorem parse_line_blank (ulong_max : Nat) (indet : Nat → Nat) :
    parse_line ulong_max indet [] = ⟨0, 0, []⟩ := rfl

/-- Every line of the file has its entry among the parsed ones. -/
theorem parse_lines_mem (ulong_max : Nat) (indet : Nat → Nat → Nat) :
    ∀ (lines : List (List Char)) (n : Nat) (l : List Char), l ∈ lines →
      ∃ m, parse_line ulong_max (indet m) l ∈ parse_lines ulong_max indet n lines := by
  intro lines
  induction lines with
  | nil => intro n l hl; cases hl
  | cons a as ih =>
    intro n l hl
    rcases List.mem_cons.mp hl with rfl | hl
    · exact ⟨n, List.mem_cons_self _ _⟩
    · obtain ⟨m, hm⟩ := ih (n + 1) l hl
      exact ⟨m, List.mem_cons_of_mem _ hm⟩

theorem load_script_blank (ulong_max : Nat) (indet : Nat → Nat → Nat)
    (lines : List (List Char)) (hb : [] ∈ lines) :
    ScriptSorted (load_script ulong_max indet lines) ∧
      (⟨0, 0, []⟩ : ScriptEntry) ∈ load_script ulong_max indet lines := by
  refine ⟨sort_script_sorted _, ?_⟩
  obtain ⟨m, hm⟩ := parse_lines_mem ulong_max indet lines 0 [] hb
  rw [parse_line_blank] at hm
  exact (sort_script_perm _).mem_iff.mpr hm

theorem process_entry_quiet (replay : State → Outcome) (ent : ScriptEntry) (st : State)
    (hns : ent.is_sentinel = false)
    (hq : trap_address ∉ write_addresses ent.address ent.data.length) :
    ∃ mid, process_entry replay ent st = .returned mid ∧
      mid.script_ptr = st.script_ptr + 1 ∧ mid.samples = st.samples ∧
      mid.output = st.output := by
  unfold process_entry
  by_cases hlen : ent.data.length = 0
  · rw [if_pos hlen]
    have haddr : ent.address ≠ 0 := by
      intro ha
      simp [ScriptEntry.is_sentinel, hlen, ha] at hns
    rw [if_neg haddr]
    exact ⟨_, rfl, rfl, rfl, rfl⟩
  · rw [if_neg hlen]
    obtain ⟨mid, h1, h2, h3, h4, _⟩ := write_data_quiet replay ent.data ent.address
      (start_entry st) hq
    exact ⟨mid, h1, h4, h2, h3⟩

/-- When every entry up to the first sentinel is due at sample 0, the replay
entered with the cursor not past that sentinel is left by the signal it
raises, whatever the sample counter is. -/
theorem replay_raises_due_zero (script : List ScriptEntry) (i : Nat)
    (sen : ScriptEntry) (hi : script[i]? = some sen) (hsen : sen.is_sentinel = true)
    (hfirst : ∀ j ent, j < i → script[j]? = some ent → ent.is_sentinel = false)
    (hzero : ∀ j ent, j ≤ i → script[j]? = some ent → ent.sample_count = 0) :
    ∀ (n : Nat) (st : State), i - st.script_ptr ≤ n → st.script_ptr ≤ i →
      (run_current_script script st).Sat (fun _ => False)
        (fun st' => st'.script_ptr = i + 1) := by
  intro n
  induction n with
  | zero =>
    intro st hn hle
    have hpi : st.script_ptr = i := by omega
    rw [run_current_script_at_sentinel script st sen (by rw [hpi]; exact hi) hsen
      (by rw [hzero i sen (Nat.le_refl _) hi]; exact Nat.zero_le _)]
    simp [hpi]
  | succ n ih =>
    intro st hn hle
    by_cases hpi : st.script_ptr = i
    · rw [run_current_script_at_sentinel script st sen (by rw [hpi]; exact hi) hsen
        (by rw [hzero i sen (Nat.le_refl _) hi]; exact Nat.zero_le _)]
      simp [hpi]
    · have hlt : st.script_ptr < i := by omega
      have hilen := (List.getElem?_eq_some_iff.mp hi).1
      have hent : script[st.script_ptr]? = some script[st.script_ptr] :=
        List.getElem?_eq_getElem (by omega)
      generalize script[st.script_ptr] = ent at hent
      have hd : ent.sample_count = 0 := hzero _ ent (by omega) hent
      have hns : ent.is_sentinel = false := hfirst _ ent hlt hent
      rw [run_current_script_eq, hent]
      simp only []
      rw [if_neg (by omega)]
      have hp := triple_process_entry (run_current_script script)
        (I := fun s => s.script_ptr = st.script_ptr + 1)
        (E := fun st' => st'.script_ptr = i + 1)
        (fun _ _ _ h => h)
        (fun v s hI =>
          (ih (emit_sample v s) (by simp [hI]; omega) (by simp [hI]; omega)).mono
            (fun _ h => absurd h id) (fun _ h => h))
        ent st rfl (fun h => by rw [hns] at h; cases h)
      exact hp.andThen (fun mid hmid =>
        ih mid (by rw [hmid]; omega) (by rw [hmid]; omega))

/-- If moreover none of the entries from the cursor up to the first sentinel
writes to the trap address, nothing is emitted before the signal. -/
theorem replay_raises_due_zero_quiet (script : List ScriptEntry) (i : Nat)
    (sen : ScriptEntry) (hi : script[i]? = some sen) (hsen : sen.is_sentinel = true)
    (hfirst : ∀ j ent, j < i → script[j]? = some ent → ent.is_sentinel = false)
    (hzero : ∀ j ent, j ≤ i → script[j]? = some ent → ent.sample_count = 0)
    (hquiet : ∀ j ent, j < i → script[j]? = some ent →
      trap_address ∉ write_addresses ent.address ent.data.length) :
    ∀ (n : Nat) (st : State), i - st.script_ptr ≤ n → st.script_ptr ≤ i →
      ∃ st', run_current_script script st = .end_emulation st' ∧
        st'.samples = st.samples ∧ st'.output = st.output := by
  intro n
  induction n with
  | zero =>
    intro st hn hle
    have hpi : st.script_ptr = i := by omega
    exact ⟨_, run_current_script_at_sentinel script st sen (by rw [hpi]; exact hi) hsen
      (by rw [hzero i sen (Nat.le_refl _) hi]; exact Nat.zero_le _), rfl, rfl⟩
  | succ n ih =>
    intro st hn hle
    by_cases hpi : st.script_ptr = i
    · exact ⟨_, run_current_script_at_sentinel script st sen (by rw [hpi]; exact hi) hsen
        (by rw [hzero i sen (Nat.le_refl _) hi]; exact Nat.zero_le _), rfl, rfl⟩
    · have hlt : st.script_ptr < i := by omega
      have hilen := (List.getElem?_eq_some_iff.mp hi).1
      have hent : script[st.script_ptr]? = some script[st.script_ptr] :=
        List.getElem?_eq_getElem (by omega)
      generalize script[st.script_ptr] = ent at hent
      have hd : ent.sample_count = 0 := hzero _ ent (by omega) hent
      obtain ⟨mid, h1, h2, h3, h4⟩ := process_entry_quiet (run_current_script script) ent st
        (hfirst _ ent hlt hent) (hquiet _ ent hlt hent)
      obtain ⟨st', g1, g2, g3⟩ := ih mid (by rw [h2]; omega) (by rw [h2]; omega)
      refine ⟨st', ?_, g2.trans h3, g3.trans h4⟩
      rw [run_current_script_eq, hent]
      simp only []
      rw [if_neg (by omega), h1, Outcome.bind_returned]
      exact g1

/-- In a sorted script that contains a sentinel due at sample 0 there is a
first sentinel, and every entry up to it is due at sample 0. -/
theorem first_sentinel_due_zero (script : List ScriptEntry) (hs : ScriptSorted script)
    (hmem : (⟨0, 0, []⟩ : ScriptEntry) ∈ script) :
    ∃ (i : Nat) (sen : ScriptEntry), script[i]? = some sen ∧ sen.is_sentinel = true ∧
      (∀ (j : Nat) (ent : ScriptEntry), j < i → script[j]? = some ent →
        ent.is_sentinel = false) ∧
      (∀ (j : Nat) (ent : ScriptEntry), j ≤ i → script[j]? = some ent →
        ent.sample_count = 0) := by
  classical
  obtain ⟨k, hk⟩ := List.mem_iff_getElem?.mp hmem
  have hex : ∃ m, ∃ e : ScriptEntry, script[m]? = some e ∧ e.is_sentinel = true :=
    ⟨k, _, hk, rfl⟩
  obtain ⟨sen, h1, h2⟩ := Nat.find_spec hex
  have hik : Nat.find hex ≤ k := Nat.find_min' hex ⟨_, hk, rfl⟩
  refine ⟨Nat.find hex, sen, h1, h2, ?_, ?_⟩
  · intro j ent hj hent
    have := Nat.find_min hex hj
    cases hsn : ent.is_sentinel with
    | false => rfl
    | true => exact absurd ⟨ent, hent, hsn⟩ this
  · intro j ent hj hent
    rcases Nat.eq_or_lt_of_le (Nat.le_trans hj hik) with hjk | hjk
    · rw [hjk, hk] at hent
      cases hent
      rfl
    · have := sorted_due_le script hs j k ent _ hent hk hjk
      simpa using this

/-- With a sorted script that contains a sentinel due at sample 0, the
pre-flush raises the termination signal, so that no CPU write is performed;
no byte has been written by then provided no entry due at sample 0 writes to
the trap address. -/
theorem sentinel_due_zero_ends_run (script : List ScriptEntry) (hs : ScriptSorted script)
    (hmem : (⟨0, 0, []⟩ : ScriptEntry) ∈ script) (rom : Nat → Nat) (ws : List (Nat × Nat)) :
    ∃ st', run_current_script script (initial_state rom) = .end_emulation st' ∧
      run_from_start script rom ws = .end_emulation st' ∧
      ((∀ ent ∈ script, ent.sample_count = 0 →
          trap_address ∉ write_addresses ent.address ent.data.length) →
        st'.output = [] ∧ st'.samples = 0) := by
  obtain ⟨i, sen, hi, hsen, hfirst, hzero⟩ := first_sentinel_due_zero script hs hmem
  obtain ⟨st', h1, _⟩ := (replay_raises_due_zero script i sen hi hsen hfirst hzero i
    (initial_state rom) (by simp [initial_state]) (by simp [initial_state])).raised
    (run_current_script_ne_out_of_fuel script _)
  refine ⟨st', h1, by simp [run_from_start, h1], ?_⟩
  intro hq
  obtain ⟨st'', g1, g2, g3⟩ := replay_raises_due_zero_quiet script i sen hi hsen hfirst hzero
    (fun j ent hj hent => hq ent (List.getElem?_mem hent) (hzero j ent (Nat.le_of_lt hj) hent))
    i (initial_state rom) (by simp [initial_state]) (by simp [initial_state])
  rw [h1] at g1
  cases g1
  exact ⟨by simpa [initial_state] using g3, by simpa [initial_state] using g2⟩

/-- C18 (as amended): a blank script line is not skipped, it parses to
`{due=0, address=0, payload=[]}`, the termination sentinel due at sample 0.
So for every script file with a blank line, whatever its other lines are, the
sorted script that is loaded contains that sentinel and the pre-flush raises
the termination signal, before any CPU write is performed and whatever the CPU
would do; no byte has been written by then provided no entry due at sample 0
writes to the trap address.  With the two arguments and a ROM of at least 4096
bytes, `main` ends there, in `std::terminate`. -/
theorem blank_line_ends_run :
    (∀ ulong_max indet, parse_line ulong_max indet [] = ⟨0, 0, []⟩) ∧
    (∀ ulong_max indet lines, [] ∈ lines →
      ScriptSorted (load_script ulong_max indet lines) ∧
      (⟨0, 0, []⟩ : ScriptEntry) ∈ load_script ulong_max indet lines ∧
      ∀ rom ws, ∃ st',
        run_current_script (load_script ulong_max indet lines) (initial_state rom) =
          .end_emulation st' ∧
        run_from_start (load_script ulong_max indet lines) rom ws = .end_emulation st' ∧
        ((∀ ent ∈ load_script ulong_max indet lines, ent.sample_count = 0 →
            trap_address ∉ write_addresses ent.address ent.data.length) →
          st'.output = [] ∧ st'.samples = 0)) ∧
    (∀ ulong_max indet argc rom_file lines cpu, 3 ≤ argc → 4096 ≤ rom_file.length →
      [] ∈ lines → main_driver ulong_max indet argc rom_file lines cpu = .terminate_called) := by
  refine ⟨parse_line_blank, ?_, ?_⟩
  · intro ulong_max indet lines hb
    obtain ⟨hs, hmem⟩ := load_script_blank ulong_max indet lines hb
    exact ⟨hs, hmem, fun rom ws => sentinel_due_zero_ends_run _ hs hmem rom ws⟩
  · intro ulong_max indet argc rom_file lines cpu hargc hlen hb
    obtain ⟨hs, hmem⟩ := load_script_blank ulong_max indet lines hb
    obtain ⟨st', h1, _⟩ := sentinel_due_zero_ends_run _ hs hmem (rom_image rom_file) []
    rw [main_driver_eq, if_neg (by omega), if_neg (by rw [au_ram_size_eq]; omega)]
    unfold run_loaded
    rw [h1]

/-- C18 at a concrete input: a script file of a payload line due at sample
5, a blank line and a line whose payload is not hexadecimal, due at
sample 0. -/
theorem blank_line_ends_run_witness :
    load_script (2 ^ 64 - 1) (fun _ _ => 9) ["5:0x8000=41".toList, [], "0:7=zz".toList] =
      [⟨0, 7, [9]⟩, ⟨0, 0, []⟩, ⟨5, 32768, [65]⟩] ∧
    (ScriptSorted (load_script (2 ^ 64 - 1) (fun _ _ => 9)
        ["5:0x8000=41".toList, [], "0:7=zz".toList]) ∧
      (⟨0, 0, []⟩ : ScriptEntry) ∈ load_script (2 ^ 64 - 1) (fun _ _ => 9)
        ["5:0x8000=41".toList, [], "0:7=zz".toList] ∧
      ∀ rom ws, ∃ st',
        run_current_script (load_script (2 ^ 64 - 1) (fun _ _ => 9)
          ["5:0x8000=41".toList, [], "0:7=zz".toList]) (initial_state rom) =
          .end_emulation st' ∧
        run_from_start (load_script (2 ^ 64 - 1) (fun _ _ => 9)
          ["5:0x8000=41".toList, [], "0:7=zz".toList]) rom ws = .end_emulation st' ∧
        ((∀ ent ∈ load_script (2 ^ 64 - 1) (fun _ _ => 9)
            ["5:0x8000=41".toList, [], "0:7=zz".toList], ent.sample_count = 0 →
            trap_address ∉ write_addresses ent.address ent.data.length) →
          st'.output = [] ∧ st'.samples = 0)) ∧
    main_driver (2 ^ 64 - 1) (fun _ _ => 9) 3 (List.replicate 4096 0)
      ["5:0x8000=41".toList, [], "0:7=zz".toList] [(0x8000, 1)] = .terminate_called :=
  ⟨by decide,
   blank_line_ends_run.2.1 (2 ^ 64 - 1) (fun _ _ => 9)
     ["5:0x8000=41".toList, [], "0:7=zz".toList] (by decide),
   blank_line_ends_run.2.2 (2 ^ 64 - 1) (fun _ _ => 9) 3 (List.replicate 4096 0)
     ["5:0x8000=41".toList, [], "0:7=zz".toList] [(0x8000, 1)] (by decide)
     (by rw [List.length_replicate]) (by decide)⟩

/-- C18 fails as stated: with the script file made of the line
`0:0x8000=41`, a blank line and the line `0:0x8000=41` again, all three
entries are due at sample 0 and a payload entry stands first whatever the
order of equal entries; the pre-flush raises the signal, but after one byte
was written to the output. -/
theorem blank_line_after_output :
    load_script (2 ^ 64 - 1) (fun _ _ => 0)
        ["0:0x8000=41".toList, [], "0:0x8000=41".toList] =
      [⟨0, 32768, [65]⟩, ⟨0, 0, []⟩, ⟨0, 32768, [65]⟩] ∧
    ∃ st', run_current_script [⟨0, 32768, [65]⟩, ⟨0, 0, []⟩, ⟨0, 32768, [65]⟩]
        (initial_state (fun _ => 0)) = .end_emulation st' ∧
      st'.output = [65] ∧ st'.samples = 1 :=
  ⟨by decide, _, rfl, rfl, rfl⟩

/-! ## C19: the replay compares against the live sample counter -/

theorem pending_trap_hits_entry (script : List ScriptEntry) (p : Nat) (ent : ScriptEntry)
    (h : script[p]? = some ent) :
    pending_trap_hits script p = trap_hits ent + pending_trap_hits script (p + 1) := by
  obtain ⟨hp, hget⟩ := List.getElem?_eq_some_iff.mp h
  unfold pending_trap_hits
  rw [List.drop_eq_getElem_cons hp, hget, List.map_cons, List.sum_cons]

theorem flushed_congr (script : List ScriptEntry) (a b : State)
    (hp : b.script_ptr = a.script_ptr) (hs : b.samples = a.samples) (h : Flushed script a) :
    Flushed script b := by
  unfold Flushed at h ⊢
  rw [hp, hs]
  exact h

/-- The payload loop under a replay that keeps its contract: from a state
whose counter cannot wrap even if every remaining byte of the payload and of
the later entries is emitted, the loop returns with the counter not
decreased, within the bound, and with no due entry left if anything was
emitted (with the cursor untouched if nothing was). -/
theorem write_data_budget (script : List ScriptEntry) (f : State → Outcome)
    (hf : ReplayContract script f) (data : List Nat) :
    ∀ (addr : Nat) (st b : State),
      st.samples + trap_hits_from addr data.length +
        pending_trap_hits script st.script_ptr < 2 ^ 32 →
      write_data f addr data st = .returned b →
      st.samples ≤ b.samples ∧
      b.samples + pending_trap_hits script b.script_ptr ≤
        st.samples + trap_hits_from addr data.length +
          pending_trap_hits script st.script_ptr ∧
      st.script_ptr ≤ b.script_ptr ∧
      (st.samples < b.samples → Flushed script b) ∧
      (b.samples = st.samples → b.script_ptr = st.script_ptr) := by
  induction data with
  | nil =>
    intro addr st b _ h
    cases h
    simp [trap_hits_from]
  | cons d rest ih =>
    intro addr st b hb h
    simp only [List.length_cons, trap_hits_from] at hb ⊢
    simp only [write_data] at h
    obtain ⟨mid, hmid, hrest⟩ := Outcome.bind_eq_returned.mp h
    by_cases ha : addr = trap_address
    · subst ha
      rw [if_pos rfl] at hb ⊢
      simp only [au_ram_write, if_true, sample_callback] at hmid
      have hs1 : (emit_sample d (au_ram_store trap_address d st)).samples = st.samples + 1 := by
        simp only [emit_sample_samples, au_ram_store_samples]
        exact Nat.mod_eq_of_lt (by omega)
      obtain ⟨c1, c2, c3, c4⟩ := hf _ (by
        rw [hs1]; simp only [emit_sample_script_ptr, au_ram_store_script_ptr]; omega) mid hmid
      rw [hs1] at c1 c2
      simp only [emit_sample_script_ptr, au_ram_store_script_ptr] at c2 c3
      obtain ⟨i1, i2, i3, i4, i5⟩ := ih _ mid b (by omega) hrest
      refine ⟨by omega, by omega, by omega, fun _ => ?_, fun he => by omega⟩
      by_cases hmb : mid.samples < b.samples
      · exact i4 hmb
      · have hbs : b.samples = mid.samples := by omega
        exact flushed_congr script mid b (i5 hbs) hbs c4
    · rw [if_neg ha] at hb ⊢
      simp only [au_ram_write, ha, if_false] at hmid
      cases hmid
      obtain ⟨i1, i2, i3, i4, i5⟩ := ih _ (au_ram_store addr d st) b
        (by simpa using hb) hrest
      simp only [au_ram_store_samples, au_ram_store_script_ptr] at i1 i2 i3 i4 i5
      exact ⟨i1, by omega, i3, i4, i5⟩

/-- Under the same bound, two replays that agree wherever the counter cannot
wrap give the same payload loop. -/
theorem write_data_congr_budget (script : List ScriptEntry) (f g : State → Outcome)
    (hf : ReplayContract script f)
    (hfg : ∀ s, s.samples + pending_trap_hits script s.script_ptr < 2 ^ 32 → g s = f s)
    (data : List Nat) :
    ∀ (addr : Nat) (st : State),
      st.samples + trap_hits_from addr data.length +
        pending_trap_hits script st.script_ptr < 2 ^ 32 →
      write_data g addr data st = write_data f addr data st := by
  induction data with
  | nil => intro addr st _; rfl
  | cons d rest ih =>
    intro addr st hb
    simp only [List.length_cons, trap_hits_from] at hb
    simp only [write_data]
    by_cases ha : addr = trap_address
    · rw [if_pos ha] at hb
      have hs1 : (emit_sample d (au_ram_store addr d st)).samples = st.samples + 1 := by
        simp only [emit_sample_samples, au_ram_store_samples]
        exact Nat.mod_eq_of_lt (by omega)
      have hbud : (emit_sample d (au_ram_store addr d st)).samples +
          pending_trap_hits script (emit_sample d (au_ram_store addr d st)).script_ptr
            < 2 ^ 32 := by
        rw [hs1]; simp only [emit_sample_script_ptr, au_ram_store_script_ptr]; omega
      have hw : au_ram_write g addr d st = au_ram_write f addr d st := by
        simp only [au_ram_write, ha, if_true, sample_callback]
        rw [ha] at hbud
        exact hfg _ hbud
      rw [hw]
      cases hmid : au_ram_write f addr d st with
      | returned mid =>
        simp only [Outcome.bind_returned]
        simp only [au_ram_write, ha, if_true, sample_callback] at hmid
        rw [ha] at hbud hs1
        obtain ⟨c1, c2, c3, c4⟩ := hf _ hbud mid hmid
        rw [hs1] at c1 c2
        simp only [emit_sample_script_ptr, au_ram_store_script_ptr] at c2 c3
        exact ih _ mid (by omega)
      | end_emulation mid => rfl
      | out_of_fuel => rfl
    · rw [if_neg ha] at hb
      have hw : au_ram_write g addr d st = au_ram_write f addr d st := by
        simp only [au_ram_write, ha, if_false]
      rw [hw]
      simp only [au_ram_write, ha, if_false, Outcome.bind_returned]
      exact ih _ (au_ram_store addr d st) (by simpa using hb)


/-- The body of the loop under a replay that keeps its contract: processing
the entry under the cursor from a state whose counter cannot wrap leaves the
counter not decreased, the bound not increased, the cursor moved forward and,
if anything was emitted, no due entry behind. -/
theorem process_entry_budget (script : List ScriptEntry) (f : State → Outcome)
    (hf : ReplayContract script f) (ent : ScriptEntry) (st mid : State)
    (hent : script[st.script_ptr]? = some ent)
    (hb : st.samples + pending_trap_hits script st.script_ptr < 2 ^ 32)
    (h : process_entry f ent st = .returned mid) :
    st.samples ≤ mid.samples ∧
    mid.samples + pending_trap_hits script mid.script_ptr ≤
      st.samples + pending_trap_hits script st.script_ptr ∧
    st.script_ptr + 1 ≤ mid.script_ptr ∧
    (st.samples < mid.samples → Flushed script mid) := by
  have hp := pending_trap_hits_entry script st.script_ptr ent hent
  unfold trap_hits at hp
  unfold process_entry at h
  by_cases hlen : ent.data.length = 0
  · rw [if_pos hlen] at h
    by_cases haddr : ent.address = 0
    · rw [if_pos haddr] at h; cases h
    · rw [if_neg haddr] at h
      cases h
      simp only [start_entry_samples, start_entry_script_ptr]
      exact ⟨Nat.le_refl _, by omega, Nat.le_refl _, fun hlt => absurd hlt (Nat.lt_irrefl _)⟩
  · rw [if_neg hlen] at h
    obtain ⟨i1, i2, i3, i4, _⟩ := write_data_budget script f hf ent.data ent.address
      (start_entry st) mid
      (by simp only [start_entry_samples, start_entry_script_ptr]; omega) h
    simp only [start_entry_samples, start_entry_script_ptr] at i1 i2 i3 i4
    exact ⟨i1, by omega, i3, i4⟩

/-- Under the same bound, two replays that agree wherever the counter cannot
wrap give the same loop body. -/
theorem process_entry_congr_budget (script : List ScriptEntry) (f g : State → Outcome)
    (hf : ReplayContract script f)
    (hfg : ∀ s, s.samples + pending_trap_hits script s.script_ptr < 2 ^ 32 → g s = f s)
    (ent : ScriptEntry) (st : State)
    (hent : script[st.script_ptr]? = some ent)
    (hb : st.samples + pending_trap_hits script st.script_ptr < 2 ^ 32) :
    process_entry g ent st = process_entry f ent st := by
  have hp := pending_trap_hits_entry script st.script_ptr ent hent
  unfold trap_hits at hp
  unfold process_entry
  by_cases hlen : ent.data.length = 0
  · rw [if_pos hlen, if_pos hlen]
  · rw [if_neg hlen, if_neg hlen]
    exact write_data_congr_budget script f g hf hfg ent.data ent.address (start_entry st)
      (by simp only [start_entry_samples, start_entry_script_ptr]; omega)

/-- The coded replay keeps the contract, whatever its fuel. -/
theorem run_script_fuel_contract (script : List ScriptEntry) :
    ∀ fuel, ReplayContract script (run_script_fuel script fuel) := by
  intro fuel
  induction fuel with
  | zero =>
    intro s _ b h
    simp [run_script_fuel] at h
  | succ n ih =>
    intro s hb b h
    unfold run_script_fuel at h
    cases hent : script[s.script_ptr]? with
    | none =>
      rw [hent] at h
      cases h
      exact ⟨Nat.le_refl _, Nat.le_refl _, Nat.le_refl _, by simp [Flushed, hent]⟩
    | some ent =>
      rw [hent] at h
      simp only [] at h
      by_cases hdue : ent.sample_count > s.samples
      · rw [if_pos hdue] at h
        cases h
        exact ⟨Nat.le_refl _, Nat.le_refl _, Nat.le_refl _, by simpa [Flushed, hent] using hdue⟩
      · rw [if_neg hdue] at h
        obtain ⟨mid, hmid, hrest⟩ := Outcome.bind_eq_returned.mp h
        obtain ⟨p1, p2, p3, _⟩ := process_entry_budget script _ ih ent s mid hent hb hmid
        obtain ⟨c1, c2, c3, c4⟩ := ih mid (by omega) b hrest
        exact ⟨by omega, by omega, by omega, c4⟩

/-- The replay of the specification and the coded one agree from every state
from which the counter cannot wrap, provided that the count handed over is
the live counter, or is below it with no entry due left. -/
theorem replay_fuel_eq (script : List ScriptEntry) :
    ∀ (fuel n : Nat) (st : State), n ≤ st.samples →
      (n < st.samples → Flushed script st) →
      st.samples + pending_trap_hits script st.script_ptr < 2 ^ 32 →
      replay_fuel script fuel n st = run_script_fuel script fuel st := by
  intro fuel
  induction fuel with
  | zero => intro n st _ _ _; rfl
  | succ k ih =>
    intro n st hn hfl hb
    unfold replay_fuel run_script_fuel
    cases hent : script[st.script_ptr]? with
    | none => rfl
    | some ent =>
      simp only []
      by_cases hlt : n < st.samples
      · have hF := hfl hlt
        unfold Flushed at hF
        rw [hent] at hF
        simp only [] at hF
        rw [if_pos (show ent.sample_count > n by omega),
          if_pos (show ent.sample_count > st.samples by omega)]
      · have hns : n = st.samples := by omega
        subst hns
        by_cases hdue : ent.sample_count > st.samples
        · rw [if_pos hdue, if_pos hdue]
        · rw [if_neg hdue, if_neg hdue]
          have hc := run_script_fuel_contract script k
          have hfg : ∀ s, s.samples + pending_trap_hits script s.script_ptr < 2 ^ 32 →
              (fun s => replay_fuel script k s.samples s) s = run_script_fuel script k s :=
            fun s hs => ih s.samples s (Nat.le_refl _)
              (fun hlt => absurd hlt (Nat.lt_irrefl _)) hs
          rw [process_entry_congr_budget script (run_script_fuel script k)
            (fun s => replay_fuel script k s.samples s) hc hfg ent st hent hb]
          cases hmid : process_entry (run_script_fuel script k) ent st with
          | returned mid =>
            simp only [Outcome.bind_returned]
            obtain ⟨p1, p2, _, p4⟩ :=
              process_entry_budget script _ hc ent st mid hent hb hmid
            exact ih st.samples mid p1 p4 (by omega)
          | end_emulation mid => rfl
          | out_of_fuel => rfl


/-- C19 (as amended): `run_current_script`, whose loop compares each due
sample count with the live sample counter, is the replay of the
specification called with the sample count at the start of the invocation
(nested emissions calling it with the count they have incremented), from
every state in which the sample counter plus the number of payload bytes that
the entries at or after the cursor write to the trap address is below 2^32:
the two end in the same way, with the same storage, cursor, sample counter
and output. -/
theorem run_current_script_refines_replay (script : List ScriptEntry) (st : State)
    (hb : st.samples + pending_trap_hits script st.script_ptr < 2 ^ 32) :
    run_current_script script st = replay script st.samples st :=
  (replay_fuel_eq script _ st.samples st (Nat.le_refl _)
    (fun hlt => absurd hlt (Nat.lt_irrefl _)) hb).symm

theorem run_current_script_refines_replay_witness :
    (initial_state (fun _ => 0)).samples +
        pending_trap_hits [⟨0, 32768, [7, 8]⟩, ⟨1, 5, [1]⟩, ⟨3, 6, [2]⟩]
          (initial_state (fun _ => 0)).script_ptr < 2 ^ 32 ∧
      run_current_script [⟨0, 32768, [7, 8]⟩, ⟨1, 5, [1]⟩, ⟨3, 6, [2]⟩]
          (initial_state (fun _ => 0)) =
        replay [⟨0, 32768, [7, 8]⟩, ⟨1, 5, [1]⟩, ⟨3, 6, [2]⟩]
          (initial_state (fun _ => 0)).samples (initial_state (fun _ => 0)) :=
  ⟨by decide, run_current_script_refines_replay _ _ (by decide)⟩

/-- C19 as stated fails where the counter wraps: the script is sorted, its
two entries are due at sample 4294967295 and the first one writes a byte to
the trap address.  Entered with the counter at 4294967295, the coded replay
finds the counter at 0 after the emission and leaves the second entry
unstarted (cursor 1, address 5 untouched); the replay of the specification
compares with the 4294967295 it was called with and processes the second
entry too (cursor 2, address 5 written). -/
theorem replay_differs_at_wrap :
    ScriptSorted [⟨4294967295, 32768, [7]⟩, ⟨4294967295, 5, [1]⟩] ∧
    (run_current_script [⟨4294967295, 32768, [7]⟩, ⟨4294967295, 5, [1]⟩]
        ⟨fun _ => 0, 4294967295, 0, [], []⟩).state?.map
      (fun s => (s.script_ptr, s.samples, s.output, au_ram_read s 5)) =
        some (1, 0, [7], 0) ∧
    (replay [⟨4294967295, 32768, [7]⟩, ⟨4294967295, 5, [1]⟩] 4294967295
        ⟨fun _ => 0, 4294967295, 0, [], []⟩).state?.map
      (fun s => (s.script_ptr, s.samples, s.output, au_ram_read s 5)) =
        some (2, 0, [7], 1) :=
  ⟨by decide, by decide, by decide⟩

end GtAemu
